import Mathlib

/-!
# Explicit free-list heap allocator (`explicit.c`)

A shallow embedding of the allocator of `src/explicit.c` and theorems about it.

Modelling conventions

* `size_t` and pointers are 64-bit machine words: natural numbers below `2 ^ 64`;
  every C addition or subtraction on them is taken modulo `2 ^ 64`.
* Memory is a flat, byte-addressed store `Nat → Nat`; a word is read and written as
  eight little-endian bytes.  `NULL` is address `0`.
* `struct node` is laid out as `hdr` at offset 0, `prev` at offset 8, `next` at
  offset 16, so `sizeof(header) = 8`.
* `ALIGNMENT` and `MAX_REQUEST_SIZE` come from `allocator.h`, which is not among the
  sources; they are parameters (`Config`).
* The globals `segment_begin`, `segment_size`, `segment_end`, `free_blocks`,
  `first_freenode` and the memory make up the state `Heap`.
* Every `while` loop is a recursive function on a fuel argument; `none` means the
  fuel ran out before the loop ended.
* The accesses of the allocator's own statements to headers and link fields go to the
  byte store directly.  The library call `memcpy` is defined only for two disjoint
  ranges inside the segment `[segment_begin, segment_end)`, the memory handed to
  `myinit`; outside that it has no result (`none`), and neither has the call of
  `myrealloc` that made it.
* `printf` and `breakpoint()` have no effect on the state and are left out.
-/

namespace HeapAllocator

/-! ## Machine words and memory -/

/-- The modulus of `size_t` arithmetic. -/
def WORD : Nat := 2 ^ 64

/-- Wrapping addition of machine words. -/
def wadd (a b : Nat) : Nat := (a + b) % WORD

/-- Wrapping subtraction of machine words. -/
def wsub (a b : Nat) : Nat := (a + (WORD - b % WORD)) % WORD

/-- The value of `sizeof(header)`: one `size_t`. -/
def header_size : Nat := 8

/-- The constants `ALIGNMENT` and `MAX_REQUEST_SIZE` of `allocator.h`. -/
structure Config where
  ALIGNMENT : Nat
  MAX_REQUEST_SIZE : Nat

/-- Byte-addressed memory. -/
abbrev Mem := Nat → Nat

/-- Load of a 64-bit little-endian word. -/
def read64 (m : Mem) (a : Nat) : Nat :=
  m a % 256 + 256 * (m (a + 1) % 256) + 65536 * (m (a + 2) % 256)
    + 16777216 * (m (a + 3) % 256) + 4294967296 * (m (a + 4) % 256)
    + 1099511627776 * (m (a + 5) % 256) + 281474976710656 * (m (a + 6) % 256)
    + 72057594037927936 * (m (a + 7) % 256)

/-- Store of a 64-bit little-endian word. -/
def write64 (m : Mem) (a v : Nat) : Mem := fun x =>
  if x = a then v % 256
  else if x = a + 1 then v / 256 % 256
  else if x = a + 2 then v / 65536 % 256
  else if x = a + 3 then v / 16777216 % 256
  else if x = a + 4 then v / 4294967296 % 256
  else if x = a + 5 then v / 1099511627776 % 256
  else if x = a + 6 then v / 281474976710656 % 256
  else if x = a + 7 then v / 72057594037927936 % 256
  else m x

/-- The memory after `n` bytes have been copied from `src` to `dst`: byte `i` of the
destination holds byte `i` of the source as it was before. -/
def copy_bytes (m : Mem) (dst src n : Nat) : Mem := fun x =>
  if dst ≤ x ∧ x < dst + n then m (src + (x - dst)) else m x

/-- The allocator state: the globals of `explicit.c` and the memory. -/
structure Heap where
  mem : Mem
  segment_begin : Nat
  segment_size : Nat
  segment_end : Nat
  free_blocks : Nat
  first_freenode : Nat

/-! ## Node fields -/

/-- Field `(n->hdr).sizenstatus`. -/
def hdr (m : Mem) (n : Nat) : Nat := read64 m n

/-- Field `n->prev`. -/
def prev (m : Mem) (n : Nat) : Nat := read64 m (n + 8)

/-- Field `n->next`. -/
def next (m : Mem) (n : Nat) : Nat := read64 m (n + 16)

/-- Assignment to `(n->hdr).sizenstatus`. -/
def set_hdr (m : Mem) (n v : Nat) : Mem := write64 m n v

/-- Assignment to `n->prev`. -/
def set_prev (m : Mem) (n v : Nat) : Mem := write64 m (n + 8) v

/-- Assignment to `n->next`. -/
def set_next (m : Mem) (n v : Nat) : Mem := write64 m (n + 16) v

/-! ## Helper functions of `explicit.c` -/

/-- `roundup(sz, mult)`: `(sz + mult - 1) & ~(mult - 1)`. -/
def roundup (sz mult : Nat) : Nat :=
  (wsub (wadd sz mult) 1) &&& (WORD - 1 - wsub mult 1)

/-- `extract_size(newnode)`: `sizenstatus & 0xfffffffe`. -/
def extract_size (m : Mem) (n : Nat) : Nat := hdr m n &&& 0xfffffffe

/-- `is_free(newnode)`: `(sizenstatus & 0x1) == 0`. -/
def is_free (m : Mem) (n : Nat) : Bool := (hdr m n &&& 0x1) == 0

/-- `get_hdrptr(ptr)`: `ptr - sizeof(header)`. -/
def get_hdrptr (ptr : Nat) : Nat := wsub ptr header_size

/-- `add_freeblock(newnode)`. -/
def add_freeblock (s : Heap) (newnode : Nat) : Heap :=
  if s.first_freenode ≠ 0 then
    let m1 := set_prev s.mem s.first_freenode newnode
    let m2 := set_next m1 newnode s.first_freenode
    let m3 := set_prev m2 newnode 0
    { s with mem := m3, first_freenode := newnode, free_blocks := wadd s.free_blocks 1 }
  else
    { s with first_freenode := newnode, free_blocks := wadd s.free_blocks 1 }

/-- `remove_freeblock(newnode)`. -/
def remove_freeblock (s : Heap) (newnode : Nat) : Heap :=
  let m1 := if prev s.mem newnode ≠ 0
    then set_next s.mem (prev s.mem newnode) (next s.mem newnode) else s.mem
  let m2 := if next m1 newnode ≠ 0
    then set_prev m1 (next m1 newnode) (prev m1 newnode) else m1
  let first := if s.first_freenode = newnode then next m2 newnode else s.first_freenode
  { s with mem := m2, first_freenode := first, free_blocks := wsub s.free_blocks 1 }

/-- `split_block_if_poss(currnode, needed)`. -/
def split_block_if_poss (cfg : Config) (s : Heap) (currnode needed : Nat) : Heap :=
  if wsub (extract_size s.mem currnode) needed ≥ wadd header_size (cfg.ALIGNMENT * 2 % WORD) then
    let remaining := extract_size s.mem currnode
    let m1 := set_hdr s.mem currnode (wadd needed (hdr s.mem currnode &&& 0x1))
    let chopped_node := wadd (wadd currnode header_size) needed
    let m2 := set_hdr m1 chopped_node (wsub (wsub remaining needed) header_size)
    add_freeblock { s with mem := m2 } chopped_node
  else s

/-- `coalesce_right(newnode)`. -/
def coalesce_right (s : Heap) (newnode : Nat) : Heap :=
  let right_neighbor := wadd (wadd newnode header_size) (extract_size s.mem newnode)
  let s1 := remove_freeblock s right_neighbor
  let rightneighbor_size := extract_size s1.mem right_neighbor
  let m1 := set_hdr s1.mem newnode (wadd (hdr s1.mem newnode) (wadd header_size rightneighbor_size))
  { s1 with mem := m1 }

/-! ## Client-facing functions -/

/-- `myinit(heap_start, heap_size)`, run in state `s`. -/
def myinit (cfg : Config) (s : Heap) (heap_start heap_size : Nat) : Bool × Heap :=
  if heap_size < cfg.ALIGNMENT * 3 % WORD then (false, s)
  else
    let segment_size := wsub heap_size header_size
    let m1 := set_hdr s.mem heap_start segment_size
    let m2 := set_prev m1 heap_start 0
    let m3 := set_next m2 heap_start 0
    (true, { mem := m3, segment_begin := heap_start, segment_size := segment_size,
             segment_end := wadd heap_start heap_size, free_blocks := 1,
             first_freenode := heap_start })

/-- The value `needed` computed by `mymalloc`. -/
def malloc_needed (cfg : Config) (requested_size : Nat) : Nat :=
  if requested_size ≤ cfg.ALIGNMENT * 2 % WORD then cfg.ALIGNMENT * 2 % WORD
  else roundup requested_size cfg.ALIGNMENT

/-- The free-list scan of `mymalloc`, started at `currnode`. -/
def mymalloc_scan (cfg : Config) (needed : Nat) : Nat → Heap → Nat → Option (Nat × Heap)
  | 0, _, _ => none
  | fuel + 1, s, currnode =>
    if currnode = 0 then some (0, s)
    else if extract_size s.mem currnode ≥ needed then
      let s1 := split_block_if_poss cfg s currnode needed
      let s2 := remove_freeblock s1 currnode
      let s3 := { s2 with mem := set_hdr s2.mem currnode (wadd (hdr s2.mem currnode) 1) }
      some (wadd currnode header_size, s3)
    else mymalloc_scan cfg needed fuel s (next s.mem currnode)

/-- `mymalloc(requested_size)`: the returned pointer and the new state. -/
def mymalloc (cfg : Config) (fuel : Nat) (s : Heap) (requested_size : Nat) :
    Option (Nat × Heap) :=
  if requested_size > cfg.MAX_REQUEST_SIZE ∨ requested_size = 0 then some (0, s)
  else mymalloc_scan cfg (malloc_needed cfg requested_size) fuel s s.first_freenode

/-- The coalescing loop of `myfree`. -/
def myfree_loop (newnode : Nat) : Nat → Heap → Option Heap
  | 0, _ => none
  | fuel + 1, s =>
    let right_neighbor := wadd (wadd newnode header_size) (extract_size s.mem newnode)
    if right_neighbor ≠ s.segment_end ∧ is_free s.mem right_neighbor = true then
      myfree_loop newnode fuel (coalesce_right s newnode)
    else some s

/-- `myfree(ptr)`. -/
def myfree (fuel : Nat) (s : Heap) (ptr : Nat) : Option Heap :=
  if ptr = 0 then some s
  else
    let newnode := wsub ptr header_size
    let s1 := { s with mem := set_hdr s.mem newnode (wsub (hdr s.mem newnode) 1) }
    let s2 := add_freeblock s1 newnode
    myfree_loop newnode fuel s2

/-- The value `needed` computed by `myrealloc`. -/
def realloc_needed (cfg : Config) (new_size : Nat) : Nat :=
  if new_size < cfg.ALIGNMENT * 2 % WORD then cfg.ALIGNMENT * 2 % WORD
  else roundup new_size cfg.ALIGNMENT

/-- The in-place coalescing loop of `myrealloc`: `some (true, s)` when the loop
returned `old_ptr` from inside, `some (false, s)` when it fell through. -/
def myrealloc_loop (cfg : Config) (currnode needed : Nat) : Nat → Heap → Option (Bool × Heap)
  | 0, _ => none
  | fuel + 1, s =>
    let right_neighbor := wadd (wadd currnode header_size) (extract_size s.mem currnode)
    if right_neighbor ≠ s.segment_end ∧ is_free s.mem right_neighbor = true then
      let s1 := coalesce_right s currnode
      if extract_size s1.mem currnode ≥ needed then
        some (true, split_block_if_poss cfg s1 currnode needed)
      else myrealloc_loop cfg currnode needed fuel s1
    else some (false, s)

/-- The library call `memcpy(dst, src, n)`.  The only memory the allocator has been given
is the segment `[segment_begin, segment_end)`; a copy that reads or writes a byte
outside it, or whose source and destination overlap, has no defined behaviour (on a
real machine the access can fault), and gets no result here.  Otherwise the result is
the memory after the copy. -/
def memcpy (s : Heap) (dst src n : Nat) : Option Mem :=
  if s.segment_begin ≤ src ∧ src + n ≤ s.segment_end ∧
      s.segment_begin ≤ dst ∧ dst + n ≤ s.segment_end ∧
      (src + n ≤ dst ∨ dst + n ≤ src) then
    some (copy_bytes s.mem dst src n)
  else none

/-- The move path of `myrealloc`: `mymalloc`, `memcpy`, `myfree`, with no test of the
pointer `mymalloc` returned. -/
def myrealloc_move (cfg : Config) (fuel : Nat) (s : Heap) (old_ptr new_size : Nat) :
    Option (Nat × Heap) :=
  match mymalloc cfg fuel s new_size with
  | none => none
  | some (reallocated, s1) =>
    match memcpy s1 reallocated old_ptr new_size with
    | none => none
    | some m2 =>
      match myfree fuel { s1 with mem := m2 } old_ptr with
      | none => none
      | some s3 => some (reallocated, s3)

/-- `myrealloc(old_ptr, new_size)`. -/
def myrealloc (cfg : Config) (fuel : Nat) (s : Heap) (old_ptr new_size : Nat) :
    Option (Nat × Heap) :=
  if old_ptr = 0 then mymalloc cfg fuel s new_size
  else if new_size = 0 then
    match myfree fuel s old_ptr with
    | none => none
    | some s1 => some (0, s1)
  else
    let needed := realloc_needed cfg new_size
    let currnode := get_hdrptr old_ptr
    if extract_size s.mem currnode ≥ needed then
      some (old_ptr, split_block_if_poss cfg s currnode needed)
    else
      match myrealloc_loop cfg currnode needed fuel s with
      | none => none
      | some (true, s1) => some (old_ptr, s1)
      | some (false, s1) => myrealloc_move cfg fuel s1 old_ptr new_size

/-- The sequential pass of `validate_heap`: returns `total_mem` and `free_seq_list`.
The header check in the loop body (`(sizenstatus & 0x7) > 2`) only calls `printf`; it
changes no variable and returns nothing, so it has no part in the result. -/
def validate_seq (s : Heap) : Nat → Nat → Nat → Option (Nat × Nat)
  | 0, _, _ => none
  | fuel + 1, total_mem, free_seq_list =>
    let seq_iterator := wadd s.segment_begin total_mem
    if seq_iterator < s.segment_end then
      let free_seq_list1 :=
        if is_free s.mem seq_iterator = true then wadd free_seq_list 1 else free_seq_list
      let total_mem1 := wadd total_mem (wadd header_size (extract_size s.mem seq_iterator))
      validate_seq s fuel total_mem1 free_seq_list1
    else some (total_mem, free_seq_list)

/-- The linked-list pass of `validate_heap`: returns `free_linked_list`. -/
def validate_list (s : Heap) : Nat → Nat → Nat → Option Nat
  | 0, _, _ => none
  | fuel + 1, currnode, free_linked_list =>
    if currnode ≠ 0 then
      let free_linked_list1 :=
        if is_free s.mem currnode = true then wadd free_linked_list 1 else free_linked_list
      validate_list s fuel (next s.mem currnode) free_linked_list1
    else some free_linked_list

/-- `validate_heap()`. -/
def validate_heap (cfg : Config) (fuel : Nat) (s : Heap) : Option Bool :=
  match validate_seq s fuel 0 0 with
  | none => none
  | some (total_mem, free_seq_list) =>
    match validate_list s fuel s.first_freenode 0 with
    | none => none
    | some free_linked_list =>
      let heap_size := wadd s.segment_size header_size
      if free_linked_list ≠ s.free_blocks then some false
      else if free_seq_list ≠ s.free_blocks then some false
      else if total_mem % cfg.ALIGNMENT ≠ 0 then some false
      else if total_mem ≠ heap_size then some false
      else some true

/-- The sequential walk of `dump_heap`: the list of `(is_free, size)` it prints. -/
def dump_heap_walk (s : Heap) : Nat → Nat → Option (List (Bool × Nat))
  | 0, _ => none
  | fuel + 1, iterator =>
    if iterator < s.segment_end then
      match dump_heap_walk s fuel
          (wadd (wadd iterator header_size) (extract_size s.mem iterator)) with
      | none => none
      | some l => some ((is_free s.mem iterator, extract_size s.mem iterator) :: l)
    else some []

/-- `dump_heap()`: the blocks reported, in address order. -/
def dump_heap (fuel : Nat) (s : Heap) : Option (List (Bool × Nat)) :=
  dump_heap_walk s fuel s.segment_begin

/-! ## Running sequences of client calls -/

/-- The constants of the course setting: `ALIGNMENT = 8`, `MAX_REQUEST_SIZE = 1 << 30`. -/
def cfg8 : Config := ⟨8, 2 ^ 30⟩

/-- A configuration with `ALIGNMENT = 16`. -/
def cfg16 : Config := ⟨16, 2 ^ 30⟩

/-- A state before `myinit`: zeroed memory and zeroed globals. -/
def heap0 : Heap := ⟨fun _ => 0, 0, 0, 0, 0, 0⟩

/-- One action of the client: a call of the allocator, or a store of an 8-byte value
into memory the client owns. -/
inductive Call where
  | malloc (requested_size : Nat)
  | free (ptr : Nat)
  | realloc (old_ptr new_size : Nat)
  | store (addr value : Nat)

/-- Performs one client action; the number returned is the pointer result (0 for
`free` and `store`). -/
def call (cfg : Config) (fuel : Nat) (s : Heap) : Call → Option (Nat × Heap)
  | Call.malloc n => mymalloc cfg fuel s n
  | Call.free p => (myfree fuel s p).map (fun s1 => (0, s1))
  | Call.realloc p n => myrealloc cfg fuel s p n
  | Call.store a v => some (0, { s with mem := write64 s.mem a v })

/-- Performs a sequence of client actions, collecting the results. -/
def run (cfg : Config) (fuel : Nat) : Heap → List Call → Option (List Nat × Heap)
  | s, [] => some ([], s)
  | s, c :: cs =>
    match call cfg fuel s c with
    | none => none
    | some (r, s1) =>
      match run cfg fuel s1 cs with
      | none => none
      | some (rs, s2) => some (r :: rs, s2)

/-- Calls `myinit` on a `heap_size`-byte segment at address 4096 of a zeroed memory,
then performs the client actions. -/
def session (cfg : Config) (heap_size : Nat) (cs : List Call) : Option (List Nat × Heap) :=
  run cfg 8 (myinit cfg heap0 4096 heap_size).2 cs

/-! ## Well-formed heaps -/

/-- A block as the allocator means it: the address of its header, its payload size and
its status. -/
structure Block where
  addr : Nat
  size : Nat
  free : Bool

/-- The address one past the last payload byte of a block. -/
def Block.stop (b : Block) : Nat := b.addr + header_size + b.size

/-- The header word that encodes a block: payload size plus status bit. -/
def Block.word (b : Block) : Nat := b.size + (if b.free then 0 else 1)

/-- The blocks `bs`, in address order, cover `[a, e)` without gap or overlap. -/
def Tiling : Nat → List Block → Nat → Prop
  | a, [], e => a = e
  | a, b :: bs, e => b.addr = a ∧ Tiling b.stop bs e

/-- A doubly-linked list segment: starting at pointer `h`, whose predecessor is `p`,
the nodes `l` are linked through `next` up to the pointer `t`, and every `prev` points
to the node before. -/
def DSeg (m : Mem) : Nat → Nat → List Nat → Nat → Prop
  | h, _, [], t => h = t
  | h, p, n :: l, t => h = n ∧ n ≠ 0 ∧ prev m n = p ∧ DSeg m (next m n) n l t

/-- The free list: a `NULL`-terminated doubly-linked list from `first` whose head has no
predecessor. -/
def DList (m : Mem) (first : Nat) (fl : List Nat) : Prop := DSeg m first 0 fl 0

/-- Two nodes lie at least one `struct node` apart. -/
def Far (x y : Nat) : Prop := x + 24 ≤ y ∨ y + 24 ≤ x

/-- The constants the allocator is built for: `ALIGNMENT` is a power of two, at least 8
(so that two alignment units hold the two link fields), and rounding a request up to
`ALIGNMENT` does not overflow a machine word. -/
structure Config.Valid (cfg : Config) : Prop where
  pow2 : ∃ k, 3 ≤ k ∧ k ≤ 30 ∧ cfg.ALIGNMENT = 2 ^ k
  max_req : cfg.MAX_REQUEST_SIZE ≤ 2 ^ 63

/-- The heap `s` is well formed, with blocks `bs` (in address order) and free list `fl`
(in list order): the segment is at most `2 ^ 32` bytes long (so that `extract_size`
decodes every block size), the blocks tile it, every header encodes its block, block
sizes are multiples of 8 (the header size) and at least `2 * ALIGNMENT`, the free list is a doubly-linked list that holds exactly
the free blocks, each once, and `free_blocks` is its length. -/
structure WellFormed (cfg : Config) (s : Heap) (bs : List Block) (fl : List Nat) : Prop where
  cfg_valid : cfg.Valid
  begin_pos : 0 < s.segment_begin
  end_lt : s.segment_end < WORD
  seg_size : s.segment_size + header_size = s.segment_end - s.segment_begin
  small : s.segment_end - s.segment_begin ≤ 2 ^ 32
  tiling : Tiling s.segment_begin bs s.segment_end
  hdr_ok : ∀ b ∈ bs, hdr s.mem b.addr = b.word
  size_ok : ∀ b ∈ bs, 2 * cfg.ALIGNMENT ≤ b.size ∧ 8 ∣ b.size
  links : DList s.mem s.first_freenode fl
  nodup : fl.Nodup
  free_iff : ∀ a, a ∈ fl ↔ ∃ b ∈ bs, b.addr = a ∧ b.free = true
  counter : s.free_blocks = fl.length

/-- A node `n` is unaffected by stores into the link fields of `y`: `y` is `NULL` (no
store happens), or `n` is `y` itself, or the two lie apart. -/
def Apart (n y : Nat) : Prop := y = 0 ∨ n = y ∨ Far n y

/-- The two stores of `remove_freeblock`, for a node whose `prev` is `q` and whose
`next` is `x`. -/
def unlink (m : Mem) (q x : Nat) : Mem :=
  if x ≠ 0 then set_prev (if q ≠ 0 then set_next m q x else m) x q
  else (if q ≠ 0 then set_next m q x else m)

/-- The state `mymalloc` leaves when its scan stops at `currnode`: split if possible,
unlink, set the status bit. -/
def mymalloc_take (cfg : Config) (s : Heap) (currnode needed : Nat) : Heap :=
  let s1 := split_block_if_poss cfg s currnode needed
  let s2 := remove_freeblock s1 currnode
  { s2 with mem := set_hdr s2.mem currnode (wadd (hdr s2.mem currnode) 1) }

/-- The byte address `y` lies inside a free block (header included). -/
def InFree (bs : List Block) (y : Nat) : Prop :=
  ∃ c ∈ bs, c.free = true ∧ c.addr ≤ y ∧ y < c.stop

/-- The bytes a block gains by absorbing the blocks `rs`: their headers and payloads. -/
def absorbed (rs : List Block) : Nat := (rs.map (fun r => header_size + r.size)).sum

/-- The state after `myinit(4096, 96)`, `mymalloc(16)` and `mymalloc(16)` with
`ALIGNMENT = 8`: two allocated blocks of 16 bytes and a free block of 40 bytes. -/
def heap_two_allocs : Heap :=
  mymalloc_take cfg8 (mymalloc_take cfg8 (myinit cfg8 heap0 4096 96).2 4096 16) 4120 16

/-- The state after `myinit(4096, 120)` and three calls `mymalloc(16)` with
`ALIGNMENT = 8`: three allocated blocks of 16 bytes and a free block of 40 bytes. -/
def heap_three_allocs : Heap :=
  mymalloc_take cfg8 (mymalloc_take cfg8 (mymalloc_take cfg8 (myinit cfg8 heap0 4096 120).2
    4096 16) 4120 16) 4144 16

/-- The state after `a = mymalloc(16); b = mymalloc(16); myfree(a); myfree(b);
mymalloc(16); mymalloc(16)` on a 48-byte heap with `ALIGNMENT = 8`: both blocks are
allocated again and the free list is empty. -/
def heap_list_emptied : Heap :=
  match session cfg8 48 [Call.malloc 16, Call.malloc 16, Call.free 4104, Call.free 4128,
      Call.malloc 16, Call.malloc 16] with
  | some r => r.2
  | none => heap0

/-- A heap state of 56 bytes at address 4096 holding two blocks whose header words are
both 20: the low three bits of each header are `100`, the size read by `extract_size`
is 20, and both blocks are linked on the free list (`next` of 4096 is 4124). -/
def heap_bad_status : Heap :=
  { mem := write64 (write64 (write64 (fun _ => 0) 4096 20) 4112 4124) 4124 20
    segment_begin := 4096
    segment_size := 48
    segment_end := 4152
    free_blocks := 2
    first_freenode := 4096 }

/-! ## Machine-word and memory lemmas -/

theorem WORD_eq : WORD = 18446744073709551616 := by decide

theorem wadd_eq {a b : Nat} (h : a + b < WORD) : wadd a b = a + b := by
  unfold wadd; exact Nat.mod_eq_of_lt h

theorem wsub_eq {a b : Nat} (hb : b ≤ a) (ha : a < WORD) : wsub a b = a - b := by
  unfold wsub
  rw [WORD_eq] at *
  omega

theorem read64_lt (m : Mem) (a : Nat) : read64 m a < WORD := by
  unfold read64; rw [WORD_eq]; omega

theorem read64_write64_same (m : Mem) (a v : Nat) : read64 (write64 m a v) a = v % WORD := by
  unfold read64 write64
  rw [WORD_eq]
  simp
  omega

theorem write64_other (m : Mem) (a v x : Nat) (h : x < a ∨ a + 8 ≤ x) :
    write64 m a v x = m x := by
  unfold write64
  have e0 : ¬ x = a := by omega
  have e1 : ¬ x = a + 1 := by omega
  have e2 : ¬ x = a + 2 := by omega
  have e3 : ¬ x = a + 3 := by omega
  have e4 : ¬ x = a + 4 := by omega
  have e5 : ¬ x = a + 5 := by omega
  have e6 : ¬ x = a + 6 := by omega
  have e7 : ¬ x = a + 7 := by omega
  simp only [e0, e1, e2, e3, e4, e5, e6, e7, if_false]

theorem read64_congr (m1 m2 : Mem) (b : Nat) (h : ∀ x, b ≤ x → x < b + 8 → m1 x = m2 x) :
    read64 m1 b = read64 m2 b := by
  unfold read64
  rw [h b (by omega) (by omega), h (b + 1) (by omega) (by omega),
    h (b + 2) (by omega) (by omega), h (b + 3) (by omega) (by omega),
    h (b + 4) (by omega) (by omega), h (b + 5) (by omega) (by omega),
    h (b + 6) (by omega) (by omega), h (b + 7) (by omega) (by omega)]

theorem read64_write64_disj (m : Mem) (a v b : Nat) (h : a + 8 ≤ b ∨ b + 8 ≤ a) :
    read64 (write64 m a v) b = read64 m b := by
  apply read64_congr
  intro x h1 h2
  exact write64_other m a v x (by omega)

theorem land_mask (x : Nat) : x &&& 0xfffffffe = x % 4294967296 - x % 2 := by
  have h1 : (x &&& 0xfffffffe) / 2 = (x / 2) % 2147483648 := by
    rw [Nat.and_div_two]
    have : (0xfffffffe : Nat) / 2 = 2 ^ 31 - 1 := by norm_num
    rw [this, Nat.and_pow_two_sub_one_eq_mod]
  have h2 : (x &&& 0xfffffffe) % 2 = 0 := by
    rw [← Nat.and_one_is_mod, Nat.and_assoc]
    have : (0xfffffffe : Nat) &&& 1 = 0 := by decide
    rw [this]; simp
  omega

theorem extract_size_eq (m : Mem) (n : Nat) :
    extract_size m n = hdr m n % 4294967296 - hdr m n % 2 := by
  unfold extract_size; exact land_mask _

theorem is_free_iff (m : Mem) (n : Nat) : is_free m n = true ↔ hdr m n % 2 = 0 := by
  unfold is_free
  rw [Nat.and_one_is_mod]
  simp

theorem is_free_eq_false_iff (m : Mem) (n : Nat) : is_free m n = false ↔ hdr m n % 2 = 1 := by
  rw [← Bool.not_eq_true, is_free_iff]
  omega

/-! ### Node fields under stores -/

theorem hdr_lt (m : Mem) (n : Nat) : hdr m n < WORD := read64_lt m n

theorem prev_lt (m : Mem) (n : Nat) : prev m n < WORD := read64_lt m _

theorem next_lt (m : Mem) (n : Nat) : next m n < WORD := read64_lt m _

theorem hdr_write64 (m : Mem) (w v n : Nat) (h : w + 8 ≤ n ∨ n + 8 ≤ w) :
    hdr (write64 m w v) n = hdr m n := read64_write64_disj m w v n h

theorem prev_write64 (m : Mem) (w v n : Nat) (h : w ≤ n ∨ n + 16 ≤ w) :
    prev (write64 m w v) n = prev m n := read64_write64_disj m w v _ (by omega)

theorem next_write64 (m : Mem) (w v n : Nat) (h : w + 8 ≤ n + 16 ∨ n + 24 ≤ w) :
    next (write64 m w v) n = next m n := read64_write64_disj m w v _ (by omega)

theorem hdr_set_hdr (m : Mem) (n v : Nat) (hv : v < WORD) : hdr (set_hdr m n v) n = v := by
  unfold hdr set_hdr; rw [read64_write64_same, Nat.mod_eq_of_lt hv]

theorem prev_set_prev (m : Mem) (n v : Nat) (hv : v < WORD) : prev (set_prev m n v) n = v := by
  unfold prev set_prev; rw [read64_write64_same, Nat.mod_eq_of_lt hv]

theorem next_set_next (m : Mem) (n v : Nat) (hv : v < WORD) : next (set_next m n v) n = v := by
  unfold next set_next; rw [read64_write64_same, Nat.mod_eq_of_lt hv]

/-! ### Doubly-linked list segments -/

theorem DSeg_congr {m m1 : Mem} {l : List Nat} :
    ∀ {h p t : Nat}, (∀ n ∈ l, prev m1 n = prev m n ∧ next m1 n = next m n) →
      DSeg m h p l t → DSeg m1 h p l t := by
  induction l with
  | nil => intro h p t _ hd; exact hd
  | cons n l ih =>
    intro h p t hf hd
    obtain ⟨h1, h2, h3, h4⟩ := hd
    have hn := hf n (List.mem_cons_self _ _)
    refine ⟨h1, h2, by rw [hn.1]; exact h3, ?_⟩
    rw [hn.2]
    exact ih (fun x hx => hf x (List.mem_cons_of_mem _ hx)) h4

theorem DSeg_append {m : Mem} {l1 l2 : List Nat} :
    ∀ {h p t : Nat}, DSeg m h p (l1 ++ l2) t ↔
      ∃ mid, DSeg m h p l1 mid ∧ DSeg m mid (l1.getLastD p) l2 t := by
  induction l1 with
  | nil =>
    intro h p t
    constructor
    · intro hd; exact ⟨h, rfl, hd⟩
    · rintro ⟨mid, h1, h2⟩
      have : h = mid := h1
      subst this
      exact h2
  | cons n l ih =>
    intro h p t
    have hl : (n :: l).getLastD p = l.getLastD n := by
      cases l <;> simp [List.getLastD]
    rw [hl]
    constructor
    · rintro ⟨h1, h2, h3, h4⟩
      obtain ⟨mid, h5, h6⟩ := ih.mp h4
      exact ⟨mid, ⟨h1, h2, h3, h5⟩, h6⟩
    · rintro ⟨mid, ⟨h1, h2, h3, h5⟩, h6⟩
      exact ⟨h1, h2, h3, ih.mpr ⟨mid, h5, h6⟩⟩

theorem DSeg_ne_zero {m : Mem} {l : List Nat} :
    ∀ {h p t : Nat}, DSeg m h p l t → ∀ n ∈ l, n ≠ 0 := by
  induction l with
  | nil => intro h p t _ n hn; cases hn
  | cons x l ih =>
    intro h p t hd n hn
    obtain ⟨_, h2, _, h4⟩ := hd
    rcases List.mem_cons.mp hn with rfl | hn
    · exact h2
    · exact ih h4 n hn

/-- Redirecting the `next` field of the last node of a segment. -/
theorem DSeg_set_last {m m1 : Mem} {l : List Nat} {q : Nat} :
    ∀ {h p t t1 : Nat}, (∀ n ∈ l ++ [q], prev m1 n = prev m n) →
      (∀ n ∈ l, next m1 n = next m n) → next m1 q = t1 →
      DSeg m h p (l ++ [q]) t → DSeg m1 h p (l ++ [q]) t1 := by
  induction l with
  | nil =>
    intro h p t t1 hp _ hq hd
    obtain ⟨h1, h2, h3, _⟩ := hd
    exact ⟨h1, h2, by rw [hp q (by simp)]; exact h3, hq⟩
  | cons n l ih =>
    intro h p t t1 hp hn hq hd
    obtain ⟨h1, h2, h3, h4⟩ := hd
    refine ⟨h1, h2, by rw [hp n (by simp)]; exact h3, ?_⟩
    rw [hn n (List.mem_cons_self _ _)]
    exact ih (fun x hx => hp x (List.mem_cons_of_mem _ hx))
      (fun x hx => hn x (List.mem_cons_of_mem _ hx)) hq h4

/-! ### `roundup` -/

theorem land_high_mask (x k : Nat) (hk : k ≤ 64) (hx : x < 2 ^ 64) :
    x &&& (2 ^ 64 - 2 ^ k) = x - x % 2 ^ k := by
  have hm : 2 ^ 64 - 2 ^ k = 2 ^ k * (2 ^ (64 - k) - 1) := by
    have h1 : (2 : Nat) ^ 64 = 2 ^ k * 2 ^ (64 - k) := by
      rw [← Nat.pow_add]; congr 1; omega
    rw [h1, Nat.mul_sub, Nat.mul_one]
  have hr : x - x % 2 ^ k = 2 ^ k * (x / 2 ^ k) := by
    have := Nat.div_add_mod x (2 ^ k)
    omega
  rw [hm, hr]
  apply Nat.eq_of_testBit_eq
  intro i
  rw [Nat.testBit_and, Nat.testBit_mul_pow_two, Nat.testBit_mul_pow_two,
    Nat.testBit_two_pow_sub_one, ← Nat.shiftRight_eq_div_pow, Nat.testBit_shiftRight]
  by_cases h1 : k ≤ i
  · have e : k + (i - k) = i := by omega
    rw [e]
    by_cases h2 : i < 64
    · have : i - k < 64 - k := by omega
      simp [h1, this]
    · have h3 : x < 2 ^ i := lt_of_lt_of_le hx (Nat.pow_le_pow_right (by norm_num) (by omega))
      rw [Nat.testBit_lt_two_pow h3]
      simp
  · simp [h1]

theorem roundup_eq (sz k : Nat) (hk : k ≤ 30) (h1 : 1 ≤ sz) (hsz : sz ≤ 2 ^ 63) :
    roundup sz (2 ^ k) = (sz + 2 ^ k - 1) - (sz + 2 ^ k - 1) % 2 ^ k := by
  have hA : 2 ^ k ≤ 2 ^ 30 := Nat.pow_le_pow_right (by norm_num) hk
  have hA0 : 0 < 2 ^ k := Nat.pos_pow_of_pos k (by norm_num)
  unfold roundup
  have e1 : wadd sz (2 ^ k) = sz + 2 ^ k := wadd_eq (by rw [WORD_eq]; omega)
  have e2 : wsub (sz + 2 ^ k) 1 = sz + 2 ^ k - 1 := wsub_eq (by omega) (by rw [WORD_eq]; omega)
  have e3 : wsub (2 ^ k) 1 = 2 ^ k - 1 := wsub_eq (by omega) (by rw [WORD_eq]; omega)
  rw [e1, e2, e3]
  have e4 : WORD - 1 - (2 ^ k - 1) = 2 ^ 64 - 2 ^ k := by unfold WORD; omega
  rw [e4]
  exact land_high_mask _ k (by omega) (by omega)

theorem roundup_spec (sz k : Nat) (hk : k ≤ 30) (h1 : 1 ≤ sz) (hsz : sz ≤ 2 ^ 63) :
    2 ^ k ∣ roundup sz (2 ^ k) ∧ sz ≤ roundup sz (2 ^ k) ∧ roundup sz (2 ^ k) < sz + 2 ^ k := by
  rw [roundup_eq sz k hk h1 hsz]
  have hA0 : 0 < 2 ^ k := Nat.pos_pow_of_pos k (by norm_num)
  have hmod := Nat.mod_lt (sz + 2 ^ k - 1) hA0
  have hdm := Nat.div_add_mod (sz + 2 ^ k - 1) (2 ^ k)
  refine ⟨?_, by omega, by omega⟩
  have : sz + 2 ^ k - 1 - (sz + 2 ^ k - 1) % 2 ^ k = 2 ^ k * ((sz + 2 ^ k - 1) / 2 ^ k) := by
    omega
  rw [this]
  exact Dvd.intro _ rfl

/-- The size `mymalloc` searches for is `max (2 * ALIGNMENT) (roundup requested_size ALIGNMENT)`. -/
theorem malloc_needed_eq_max {cfg : Config} (hc : cfg.Valid) (n : Nat) (h1 : 1 ≤ n)
    (hn : n ≤ cfg.MAX_REQUEST_SIZE) :
    malloc_needed cfg n = max (2 * cfg.ALIGNMENT) (roundup n cfg.ALIGNMENT) := by
  obtain ⟨k, hk1, hk2, hk3⟩ := hc.pow2
  have hmax := hc.max_req
  have hA : 2 ^ k ≤ 2 ^ 30 := Nat.pow_le_pow_right (by norm_num) hk2
  have hr := roundup_spec n k hk2 h1 (by omega)
  unfold malloc_needed
  rw [hk3]
  have e : 2 ^ k * 2 % WORD = 2 * 2 ^ k := by rw [WORD_eq]; omega
  rw [e]
  obtain ⟨⟨t, ht⟩, h3, h4⟩ := hr
  by_cases hle : n ≤ 2 * 2 ^ k
  · rw [if_pos hle]
    have : roundup n (2 ^ k) ≤ 2 * 2 ^ k := by
      rw [ht] at h4 ⊢
      have ht3 : t < 3 := by
        by_contra hcon
        have : 2 ^ k * 3 ≤ 2 ^ k * t := Nat.mul_le_mul_left _ (by omega)
        omega
      have : 2 ^ k * t ≤ 2 ^ k * 2 := Nat.mul_le_mul_left _ (by omega)
      omega
    omega
  · rw [if_neg hle]
    omega

theorem malloc_needed_spec {cfg : Config} (hc : cfg.Valid) (n : Nat) (h1 : 1 ≤ n)
    (hn : n ≤ cfg.MAX_REQUEST_SIZE) :
    2 * cfg.ALIGNMENT ≤ malloc_needed cfg n ∧ cfg.ALIGNMENT ∣ malloc_needed cfg n ∧
      n ≤ malloc_needed cfg n ∧ malloc_needed cfg n < n + 2 * cfg.ALIGNMENT := by
  obtain ⟨k, hk1, hk2, hk3⟩ := hc.pow2
  have hmax := hc.max_req
  have hA : 2 ^ k ≤ 2 ^ 30 := Nat.pow_le_pow_right (by norm_num) hk2
  have hA0 : 0 < 2 ^ k := Nat.pos_pow_of_pos k (by norm_num)
  have hr := roundup_spec n k hk2 h1 (by omega)
  unfold malloc_needed
  rw [hk3]
  have e : 2 ^ k * 2 % WORD = 2 * 2 ^ k := by rw [WORD_eq]; omega
  rw [e]
  by_cases hle : n ≤ 2 * 2 ^ k
  · rw [if_pos hle]
    exact ⟨le_refl _, Dvd.intro_left 2 rfl, hle, by omega⟩
  · rw [if_neg hle]
    exact ⟨by omega, hr.1, hr.2.1, by omega⟩

/-- `roundup` for any power of two, when `sz + mult` does not wrap around. -/
theorem roundup_eq_gen (sz k : Nat) (h1 : 1 ≤ sz) (hsz : sz + 2 ^ k ≤ 2 ^ 64) :
    roundup sz (2 ^ k) = (sz + 2 ^ k - 1) - (sz + 2 ^ k - 1) % 2 ^ k := by
  have hA0 : 0 < 2 ^ k := Nat.pos_pow_of_pos k (by norm_num)
  have hk : k ≤ 64 := by
    by_contra hcon
    have : 2 ^ 65 ≤ 2 ^ k := Nat.pow_le_pow_right (by norm_num) (by omega)
    have : (2 : Nat) ^ 64 < 2 ^ 65 := by norm_num
    omega
  have hW : (2 : Nat) ^ 64 = WORD := rfl
  unfold roundup
  by_cases hfull : sz + 2 ^ k = 2 ^ 64
  · -- the sum is exactly `2 ^ 64`: it wraps to 0 and the decrement wraps back
    have e1 : wadd sz (2 ^ k) = 0 := by unfold wadd; rw [hfull, hW]; exact Nat.mod_self _
    have e2 : wsub 0 1 = 2 ^ 64 - 1 := by decide
    have e3 : wsub (2 ^ k) 1 = 2 ^ k - 1 := wsub_eq (by omega) (by rw [← hW]; omega)
    rw [e1, e2, e3]
    have e4 : WORD - 1 - (2 ^ k - 1) = 2 ^ 64 - 2 ^ k := by rw [← hW]; omega
    rw [e4, hfull]
    exact land_high_mask _ k hk (by omega)
  · have e1 : wadd sz (2 ^ k) = sz + 2 ^ k := wadd_eq (by rw [← hW]; omega)
    have e2 : wsub (sz + 2 ^ k) 1 = sz + 2 ^ k - 1 := wsub_eq (by omega) (by rw [← hW]; omega)
    have e3 : wsub (2 ^ k) 1 = 2 ^ k - 1 := wsub_eq (by omega) (by rw [← hW]; omega)
    rw [e1, e2, e3]
    have e4 : WORD - 1 - (2 ^ k - 1) = 2 ^ 64 - 2 ^ k := by rw [← hW]; omega
    rw [e4]
    exact land_high_mask _ k hk (by omega)

/-- `roundup sz (2 ^ k)` is the least multiple of `2 ^ k` that is at least `sz`. -/
theorem roundup_least (sz k : Nat) (h1 : 1 ≤ sz) (hsz : sz + 2 ^ k ≤ 2 ^ 64) :
    2 ^ k ∣ roundup sz (2 ^ k) ∧ sz ≤ roundup sz (2 ^ k) ∧
      ∀ m, 2 ^ k ∣ m → sz ≤ m → roundup sz (2 ^ k) ≤ m := by
  rw [roundup_eq_gen sz k h1 hsz]
  have hA0 : 0 < 2 ^ k := Nat.pos_pow_of_pos k (by norm_num)
  have hmod := Nat.mod_lt (sz + 2 ^ k - 1) hA0
  have hdm := Nat.div_add_mod (sz + 2 ^ k - 1) (2 ^ k)
  have hr : sz + 2 ^ k - 1 - (sz + 2 ^ k - 1) % 2 ^ k = 2 ^ k * ((sz + 2 ^ k - 1) / 2 ^ k) := by
    omega
  refine ⟨by rw [hr]; exact Dvd.intro _ rfl, by omega, ?_⟩
  rintro m ⟨t, ht⟩ hm
  rw [hr, ht]
  apply Nat.mul_le_mul_left
  by_contra hcon
  have h2 : t + 1 ≤ (sz + 2 ^ k - 1) / 2 ^ k := by omega
  have h3 : 2 ^ k * (t + 1) ≤ 2 ^ k * ((sz + 2 ^ k - 1) / 2 ^ k) := Nat.mul_le_mul_left _ h2
  rw [Nat.mul_add, Nat.mul_one] at h3
  omega

/-! ### `remove_freeblock` and `add_freeblock` on a linked list -/

theorem unlink_byte (m : Mem) (q x y : Nat)
    (hq : q = 0 ∨ y < q + 16 ∨ q + 24 ≤ y) (hx : x = 0 ∨ y < x + 8 ∨ x + 16 ≤ y) :
    unlink m q x y = m y := by
  unfold unlink set_prev set_next
  by_cases h0 : q = 0 <;> by_cases h2 : x = 0
  · simp only [h0, h2, ne_eq, not_true_eq_false, if_false]
  · simp only [h0, h2, ne_eq, not_true_eq_false, not_false_eq_true, if_true, if_false]
    exact write64_other _ _ _ _ (by omega)
  · simp only [h0, h2, ne_eq, not_true_eq_false, not_false_eq_true, if_true, if_false]
    exact write64_other _ _ _ _ (by omega)
  · simp only [h0, h2, ne_eq, not_false_eq_true, if_true]
    rw [write64_other _ _ _ _ (by omega), write64_other _ _ _ _ (by omega)]

theorem hdr_unlink (m : Mem) (q x n : Nat) (hnq : Apart n q) (hnx : Apart n x) :
    hdr (unlink m q x) n = hdr m n := by
  unfold hdr
  apply read64_congr
  intro y h1 h2
  apply unlink_byte
  · rcases hnq with h | h | h
    · exact Or.inl h
    · right; omega
    · right; unfold Far at h; omega
  · rcases hnx with h | h | h
    · exact Or.inl h
    · right; omega
    · right; unfold Far at h; omega

theorem prev_unlink_ne (m : Mem) (q x n : Nat) (hnq : Apart n q) (hx : x = 0 ∨ Far n x) :
    prev (unlink m q x) n = prev m n := by
  unfold prev
  apply read64_congr
  intro y h1 h2
  apply unlink_byte
  · rcases hnq with h | h | h
    · exact Or.inl h
    · right; omega
    · right; unfold Far at h; omega
  · rcases hx with h | h
    · exact Or.inl h
    · right; unfold Far at h; omega

theorem next_unlink_ne (m : Mem) (q x n : Nat) (hq : q = 0 ∨ Far n q) (hnx : Apart n x) :
    next (unlink m q x) n = next m n := by
  unfold next
  apply read64_congr
  intro y h1 h2
  apply unlink_byte
  · rcases hq with h | h
    · exact Or.inl h
    · right; unfold Far at h; omega
  · rcases hnx with h | h | h
    · exact Or.inl h
    · right; omega
    · right; unfold Far at h; omega

theorem prev_unlink_self (m : Mem) (q x : Nat) (hx : x ≠ 0) (hq : q < WORD) :
    prev (unlink m q x) x = q := by
  unfold unlink
  simp only [hx, ne_eq, not_false_eq_true, if_true]
  exact prev_set_prev _ _ _ hq

theorem next_unlink_self (m : Mem) (q x : Nat) (hq : q ≠ 0) (hx : x < WORD)
    (hqx : Apart q x) : next (unlink m q x) q = x := by
  unfold unlink
  by_cases h2 : x = 0
  · simp only [h2, hq, ne_eq, not_true_eq_false, not_false_eq_true, if_true, if_false]
    exact next_set_next _ _ _ (by rw [WORD_eq]; omega)
  · simp only [h2, hq, ne_eq, not_false_eq_true, if_true]
    unfold set_prev
    have h3 : x + 8 + 8 ≤ q + 16 ∨ q + 24 ≤ x + 8 := by
      rcases hqx with h | h | h
      · exact absurd h h2
      · omega
      · unfold Far at h; omega
    rw [next_write64 _ _ _ _ h3]
    exact next_set_next _ _ _ hx

/-- The memory after `remove_freeblock(a)` when `a->prev` is `NULL` or apart from `a`. -/
theorem remove_freeblock_mem (s : Heap) (a : Nat)
    (hq : prev s.mem a = 0 ∨ Far (prev s.mem a) a) :
    (remove_freeblock s a).mem = unlink s.mem (prev s.mem a) (next s.mem a) := by
  unfold remove_freeblock unlink
  simp only []
  by_cases h0 : prev s.mem a = 0
  · simp only [h0, ne_eq, not_true_eq_false, if_false]
  · have hf : Far (prev s.mem a) a := hq.resolve_left h0
    have e1 : next (set_next s.mem (prev s.mem a) (next s.mem a)) a = next s.mem a := by
      unfold set_next
      unfold Far at hf
      exact next_write64 _ _ _ _ (by omega)
    have e2 : prev (set_next s.mem (prev s.mem a) (next s.mem a)) a = prev s.mem a := by
      unfold set_next
      unfold Far at hf
      exact prev_write64 _ _ _ _ (by omega)
    simp only [h0, ne_eq, not_false_eq_true, if_true, e1, e2]

theorem remove_freeblock_first (s : Heap) (a : Nat)
    (hq : prev s.mem a = 0 ∨ Far (prev s.mem a) a)
    (hx : next s.mem a = 0 ∨ Far (next s.mem a) a) :
    (remove_freeblock s a).first_freenode =
      if s.first_freenode = a then next s.mem a else s.first_freenode := by
  have hf : (remove_freeblock s a).first_freenode =
      if s.first_freenode = a then next (remove_freeblock s a).mem a else s.first_freenode := rfl
  rw [hf, remove_freeblock_mem s a hq]
  by_cases h1 : s.first_freenode = a
  · simp only [h1, if_true]
    apply next_unlink_ne
    · rcases hq with h | h
      · exact Or.inl h
      · right; unfold Far at *; omega
    · rcases hx with h | h
      · exact Or.inl h
      · right; right; unfold Far at *; omega
  · simp only [h1, if_false]

theorem remove_freeblock_counter (s : Heap) (a : Nat) :
    (remove_freeblock s a).free_blocks = wsub s.free_blocks 1 := rfl

theorem ne_of_nodup_append {l1 l2 : List Nat} (h : (l1 ++ l2).Nodup) {x y : Nat}
    (hx : x ∈ l1) (hy : y ∈ l2) : x ≠ y := by
  intro e
  subst e
  exact (List.nodup_append.mp h).2.2 hx hy

theorem ne_of_nodup_cons {l : List Nat} {a : Nat} (h : (a :: l).Nodup) {x : Nat}
    (hx : x ∈ l) : x ≠ a := by
  intro e
  subst e
  exact (List.nodup_cons.mp h).1 hx

/-- Removing the node `a` from a well-linked list `pre ++ a :: post` leaves the
well-linked list `pre ++ post`. -/
theorem remove_freeblock_links {s : Heap} {pre post : List Nat} {a : Nat}
    (hl : DList s.mem s.first_freenode (pre ++ a :: post))
    (hnd : (pre ++ a :: post).Nodup)
    (hfar : ∀ x ∈ pre ++ a :: post, ∀ y ∈ pre ++ a :: post, x ≠ y → Far x y) :
    DList (remove_freeblock s a).mem (remove_freeblock s a).first_freenode (pre ++ post) ∧
      (remove_freeblock s a).mem = unlink s.mem (pre.getLastD 0) (post.headD 0) := by
  unfold DList at hl
  obtain ⟨mid, hpre, hmid⟩ := DSeg_append.mp hl
  obtain ⟨hmida, ha0, hprev, hpost⟩ := hmid
  subst hmida
  have hamem : mid ∈ pre ++ mid :: post := by simp
  -- the predecessor
  have hq : pre = [] ∧ prev s.mem mid = 0 ∨
      ∃ l q, pre = l ++ [q] ∧ prev s.mem mid = q ∧ q ≠ 0 ∧ Far q mid := by
    rcases List.eq_nil_or_concat pre with h | ⟨l, q, h⟩
    · left; subst h; exact ⟨rfl, hprev⟩
    · right
      rw [List.concat_eq_append] at h
      subst h
      have hq1 : prev s.mem mid = q := by rw [hprev]; simp
      have hqm : q ∈ l ++ [q] ++ mid :: post := by simp
      have hne : q ≠ mid :=
        ne_of_nodup_append hnd (show q ∈ l ++ [q] by simp) (List.mem_cons_self _ _)
      exact ⟨l, q, rfl, hq1, DSeg_ne_zero hl q hqm, hfar q hqm mid hamem hne⟩
  -- the successor
  have hx : post = [] ∧ next s.mem mid = 0 ∨
      ∃ x l, post = x :: l ∧ next s.mem mid = x ∧ x ≠ 0 ∧ Far x mid ∧ prev s.mem x = mid ∧
        DSeg s.mem (next s.mem x) x l 0 := by
    cases post with
    | nil => left; exact ⟨rfl, hpost⟩
    | cons x l =>
      right
      obtain ⟨h1, h2, h3, h4⟩ := hpost
      have hxm : x ∈ pre ++ mid :: x :: l := by simp
      have hne : x ≠ mid :=
        ne_of_nodup_cons (List.nodup_append.mp hnd).2.1 (List.mem_cons_self _ _)
      exact ⟨x, l, rfl, h1, h2, hfar x hxm mid hamem hne, h3, h4⟩
  have hqa : prev s.mem mid = 0 ∨ Far (prev s.mem mid) mid := by
    rcases hq with ⟨_, h⟩ | ⟨l, q, _, h, _, h3⟩
    · exact Or.inl h
    · right; rw [h]; exact h3
  have hxa : next s.mem mid = 0 ∨ Far (next s.mem mid) mid := by
    rcases hx with ⟨_, h⟩ | ⟨x, l, _, h, _, h3, _⟩
    · exact Or.inl h
    · right; rw [h]; exact h3
  have hq' : prev s.mem mid = pre.getLastD 0 := hprev
  have hx' : next s.mem mid = post.headD 0 := by
    rcases hx with ⟨h1, h⟩ | ⟨x, l, h1, h, _⟩
    · rw [h, h1]; rfl
    · rw [h, h1]; rfl
  rw [remove_freeblock_mem s mid hqa, remove_freeblock_first s mid hqa hxa]
  refine ⟨?_, by rw [hq', hx']⟩
  unfold DList
  -- fields of nodes after the two stores
  have hnodup_pre := (List.nodup_append.mp hnd).1
  rcases hq with ⟨hpre0, hq0⟩ | ⟨lp, q, hpreq, hq1, hq2, hq3⟩
  · -- `a` is the head
    subst hpre0
    have hfirst : s.first_freenode = mid := hpre
    simp only [hfirst, if_true, List.nil_append]
    rcases hx with ⟨hpost0, hx0⟩ | ⟨x, lx, hpostx, hx1, hx2, hx3, hx4, hx5⟩
    · subst hpost0
      exact hx0
    · subst hpostx
      rw [hq0, hx1]
      refine ⟨rfl, hx2, prev_unlink_self _ _ _ hx2 (by rw [WORD_eq]; omega), ?_⟩
      rw [next_unlink_ne _ _ _ _ (Or.inl rfl) (Or.inr (Or.inl rfl))]
      apply DSeg_congr _ hx5
      intro n hn
      have hnm : n ∈ [] ++ mid :: x :: lx := by simp [hn]
      have hxm : x ∈ [] ++ mid :: x :: lx := by simp
      have hnx : n ≠ x := by
        intro h
        subst h
        have := (List.nodup_append.mp hnd).2.1
        simp at this
        exact this.2.1 hn
      have hf := hfar n hnm x hxm hnx
      exact ⟨prev_unlink_ne _ _ _ _ (Or.inl rfl) (Or.inr hf),
        next_unlink_ne _ _ _ _ (Or.inl rfl) (Or.inr (Or.inr hf))⟩
  · -- `a` has a predecessor `q`
    subst hpreq
    have hfirst : s.first_freenode ≠ mid := by
      intro h
      have hmem : s.first_freenode ∈ lp ++ [q] := by
        cases lp with
        | nil => simp; exact hpre.1
        | cons y l => simp; left; exact hpre.1
      rw [h] at hmem
      exact (List.nodup_append.mp hnd).2.2 hmem (by simp)
    simp only [hfirst, if_false]
    have hqm : q ∈ lp ++ [q] ++ mid :: post := by simp
    rw [hq1]
    rcases hx with ⟨hpost0, hx0⟩ | ⟨x, lx, hpostx, hx1, hx2, hx3, hx4, hx5⟩
    · subst hpost0
      rw [hx0, List.append_nil]
      refine DSeg_set_last ?_ ?_ ?_ hpre
      · intro n hn
        have hnm : n ∈ lp ++ [q] ++ [mid] := by simp at hn ⊢; tauto
        by_cases hnq : n = q
        · exact prev_unlink_ne _ _ _ _ (Or.inr (Or.inl hnq)) (Or.inl rfl)
        · exact prev_unlink_ne _ _ _ _ (Or.inr (Or.inr (hfar n hnm q hqm hnq))) (Or.inl rfl)
      · intro n hn
        have hnm : n ∈ lp ++ [q] ++ [mid] := by simp; tauto
        have hnq : n ≠ q := by
          intro h
          subst h
          have := (List.nodup_append.mp hnodup_pre).2.2 hn
          simp at this
        exact next_unlink_ne _ _ _ _ (Or.inr (hfar n hnm q hqm hnq)) (Or.inl rfl)
      · exact next_unlink_self _ _ _ hq2 (by rw [WORD_eq]; omega) (Or.inl rfl)
    · subst hpostx
      rw [hx1]
      have hxm : x ∈ lp ++ [q] ++ mid :: x :: lx := by simp
      have hqx : q ≠ x := by
        intro h
        subst h
        exact (List.nodup_append.mp hnd).2.2 (show q ∈ lp ++ [q] by simp) (by simp)
      have hqxf : Far q x := hfar q hqm x hxm hqx
      have hlast : (lp ++ [q]).getLastD 0 = q := by simp
      refine DSeg_append.mpr ⟨x, ?_, ?_⟩
      · refine DSeg_set_last ?_ ?_ ?_ hpre
        · intro n hn
          have hnm : n ∈ lp ++ [q] ++ mid :: x :: lx := by simp at hn ⊢; tauto
          have hnx : n ≠ x := by
            intro h
            subst h
            exact (List.nodup_append.mp hnd).2.2 hn (by simp)
          have hnxf := hfar n hnm x hxm hnx
          by_cases hnq : n = q
          · exact prev_unlink_ne _ _ _ _ (Or.inr (Or.inl hnq)) (Or.inr hnxf)
          · exact prev_unlink_ne _ _ _ _ (Or.inr (Or.inr (hfar n hnm q hqm hnq))) (Or.inr hnxf)
        · intro n hn
          have hnm : n ∈ lp ++ [q] ++ mid :: x :: lx := by simp; tauto
          have hnx : n ≠ x := by
            intro h
            subst h
            exact (List.nodup_append.mp hnd).2.2 (show n ∈ lp ++ [q] by simp [hn]) (by simp)
          have hnq : n ≠ q := by
            intro h
            subst h
            have := (List.nodup_append.mp hnodup_pre).2.2 hn
            simp at this
          exact next_unlink_ne _ _ _ _ (Or.inr (hfar n hnm q hqm hnq))
            (Or.inr (Or.inr (hfar n hnm x hxm hnx)))
        · exact next_unlink_self _ _ _ hq2 (next_lt _ _ |> fun h => by rw [← hx1]; exact h)
            (Or.inr (Or.inr hqxf))
      · rw [hlast]
        refine ⟨rfl, hx2, prev_unlink_self _ _ _ hx2 (by rw [← hq1]; exact prev_lt _ _), ?_⟩
        rw [next_unlink_ne _ _ _ _ (Or.inr (by unfold Far at *; omega)) (Or.inr (Or.inl rfl))]
        apply DSeg_congr _ hx5
        intro n hn
        have hnm : n ∈ lp ++ [q] ++ mid :: x :: lx := by simp [hn]
        have hnx : n ≠ x := by
          intro h
          subst h
          have := (List.nodup_append.mp hnd).2.1
          simp at this
          exact this.2.1 hn
        have hnq : n ≠ q := by
          intro h
          subst h
          exact (List.nodup_append.mp hnd).2.2 (show n ∈ lp ++ [n] by simp) (by simp [hn])
        have hf := hfar n hnm x hxm hnx
        have hf2 := hfar n hnm q hqm hnq
        exact ⟨prev_unlink_ne _ _ _ _ (Or.inr (Or.inr hf2)) (Or.inr hf),
          next_unlink_ne _ _ _ _ (Or.inr hf2) (Or.inr (Or.inr hf))⟩

theorem add_freeblock_first (s : Heap) (c : Nat) : (add_freeblock s c).first_freenode = c := by
  unfold add_freeblock
  by_cases h : s.first_freenode = 0 <;> simp [h]

theorem add_freeblock_counter (s : Heap) (c : Nat) :
    (add_freeblock s c).free_blocks = wadd s.free_blocks 1 := by
  unfold add_freeblock
  by_cases h : s.first_freenode = 0 <;> simp [h]

theorem add_freeblock_mem (s : Heap) (c : Nat) (h : s.first_freenode ≠ 0) :
    (add_freeblock s c).mem =
      set_prev (set_next (set_prev s.mem s.first_freenode c) c s.first_freenode) c 0 := by
  unfold add_freeblock
  simp [h]

theorem add_freeblock_mem_empty (s : Heap) (c : Nat) (h : s.first_freenode = 0) :
    (add_freeblock s c).mem = s.mem := by
  unfold add_freeblock
  simp [h]

theorem add_freeblock_segment (s : Heap) (c : Nat) :
    (add_freeblock s c).segment_begin = s.segment_begin ∧
    (add_freeblock s c).segment_end = s.segment_end ∧
    (add_freeblock s c).segment_size = s.segment_size := by
  unfold add_freeblock
  by_cases h : s.first_freenode = 0 <;> simp [h]

/-- Bytes outside the `prev` field of the old head and the two link fields of the new
node are left alone by `add_freeblock`. -/
theorem add_freeblock_byte (s : Heap) (c y : Nat)
    (hf : y < s.first_freenode + 8 ∨ s.first_freenode + 16 ≤ y)
    (hc : y < c + 8 ∨ c + 24 ≤ y) : (add_freeblock s c).mem y = s.mem y := by
  by_cases h : s.first_freenode = 0
  · rw [add_freeblock_mem_empty s c h]
  · rw [add_freeblock_mem s c h]
    unfold set_prev set_next
    rw [write64_other _ _ _ _ (by omega), write64_other _ _ _ _ (by omega),
      write64_other _ _ _ _ (by omega)]

/-- Pushing a node `c` onto a non-empty well-linked list. -/
theorem add_freeblock_links {s : Heap} {fl : List Nat} {c : Nat}
    (hl : DList s.mem s.first_freenode fl) (hne : fl ≠ []) (hc0 : c ≠ 0) (hcW : c < WORD)
    (hflW : ∀ x ∈ fl, x < WORD)
    (hnd : fl.Nodup) (hcf : ∀ x ∈ fl, Far c x)
    (hfar : ∀ x ∈ fl, ∀ y ∈ fl, x ≠ y → Far x y) :
    DList (add_freeblock s c).mem (add_freeblock s c).first_freenode (c :: fl) := by
  cases fl with
  | nil => exact absurd rfl hne
  | cons f rest =>
    obtain ⟨h1, h2, h3, h4⟩ := hl
    have hf0 : s.first_freenode ≠ 0 := by rw [h1]; exact h2
    have hfW : f < WORD := hflW f (List.mem_cons_self _ _)
    have hcf1 : Far c f := hcf f (List.mem_cons_self _ _)
    rw [add_freeblock_first, add_freeblock_mem s c hf0, h1]
    unfold Far at hcf1
    have e1 : prev (set_prev (set_next (set_prev s.mem f c) c f) c 0) c = 0 :=
      prev_set_prev _ _ _ (by rw [WORD_eq]; omega)
    have e2 : next (set_prev (set_next (set_prev s.mem f c) c f) c 0) c = f := by
      unfold set_prev
      rw [next_write64 _ _ _ _ (by omega)]
      exact next_set_next _ _ _ hfW
    have e3 : prev (set_prev (set_next (set_prev s.mem f c) c f) c 0) f = c := by
      unfold set_prev set_next
      rw [prev_write64 _ _ _ _ (by omega), prev_write64 _ _ _ _ (by omega)]
      exact prev_set_prev _ _ _ hcW
    have e4 : next (set_prev (set_next (set_prev s.mem f c) c f) c 0) f = next s.mem f := by
      unfold set_prev set_next
      rw [next_write64 _ _ _ _ (by omega), next_write64 _ _ _ _ (by omega),
        next_write64 _ _ _ _ (by omega)]
    refine ⟨rfl, hc0, e1, ?_⟩
    rw [e2]
    refine ⟨rfl, h2, e3, ?_⟩
    rw [e4]
    apply DSeg_congr _ h4
    intro n hn
    have hnf : Far n f :=
      hfar n (List.mem_cons_of_mem _ hn) f (List.mem_cons_self _ _) (ne_of_nodup_cons hnd hn)
    have hcn : Far c n := hcf n (List.mem_cons_of_mem _ hn)
    unfold Far at hnf hcn
    unfold set_prev set_next
    constructor
    · rw [prev_write64 _ _ _ _ (by omega), prev_write64 _ _ _ _ (by omega),
        prev_write64 _ _ _ _ (by omega)]
    · rw [next_write64 _ _ _ _ (by omega), next_write64 _ _ _ _ (by omega),
        next_write64 _ _ _ _ (by omega)]

/-! ### Consequences of well-formedness -/

theorem Config.Valid.align {cfg : Config} (h : cfg.Valid) :
    8 ≤ cfg.ALIGNMENT ∧ cfg.ALIGNMENT ≤ 2 ^ 30 ∧ 8 ∣ cfg.ALIGNMENT := by
  obtain ⟨k, h1, h2, h3⟩ := h.pow2
  rw [h3]
  refine ⟨?_, ?_, ?_⟩
  · calc 8 = 2 ^ 3 := by norm_num
      _ ≤ 2 ^ k := Nat.pow_le_pow_right (by norm_num) h1
  · exact Nat.pow_le_pow_right (by norm_num) h2
  · have : (8 : Nat) = 2 ^ 3 := by norm_num
    rw [this]
    exact pow_dvd_pow 2 h1

theorem Tiling_bounds : ∀ {bs : List Block} {a e : Nat}, Tiling a bs e →
    a ≤ e ∧ ∀ b ∈ bs, a ≤ b.addr ∧ b.stop ≤ e := by
  intro bs
  induction bs with
  | nil =>
    intro a e h
    have : a = e := h
    exact ⟨by omega, by intro b hb; cases hb⟩
  | cons c bs ih =>
    intro a e h
    obtain ⟨h1, h2⟩ := h
    obtain ⟨h3, h4⟩ := ih h2
    have hc : c.addr ≤ c.stop := by unfold Block.stop; omega
    refine ⟨by omega, ?_⟩
    intro b hb
    rcases List.mem_cons.mp hb with rfl | hb
    · exact ⟨by omega, h3⟩
    · have := h4 b hb
      exact ⟨by omega, this.2⟩

theorem Tiling_pairwise : ∀ {bs : List Block} {a e : Nat}, Tiling a bs e →
    bs.Pairwise (fun b c => b.stop ≤ c.addr) := by
  intro bs
  induction bs with
  | nil => intro a e _; exact List.Pairwise.nil
  | cons c bs ih =>
    intro a e h
    obtain ⟨_, h2⟩ := h
    refine List.Pairwise.cons ?_ (ih h2)
    intro b hb
    exact ((Tiling_bounds h2).2 b hb).1

theorem Tiling_append : ∀ {l1 l2 : List Block} {a e : Nat},
    Tiling a (l1 ++ l2) e ↔ ∃ mid, Tiling a l1 mid ∧ Tiling mid l2 e := by
  intro l1
  induction l1 with
  | nil =>
    intro l2 a e
    constructor
    · intro h; exact ⟨a, rfl, h⟩
    · rintro ⟨mid, h1, h2⟩
      have : a = mid := h1
      subst this
      exact h2
  | cons c l ih =>
    intro l2 a e
    constructor
    · rintro ⟨h1, h2⟩
      obtain ⟨mid, h3, h4⟩ := ih.mp h2
      exact ⟨mid, ⟨h1, h3⟩, h4⟩
    · rintro ⟨mid, ⟨h1, h3⟩, h4⟩
      exact ⟨h1, ih.mpr ⟨mid, h3, h4⟩⟩

theorem Tiling_disjoint {bs : List Block} {a e : Nat} (h : Tiling a bs e) :
    ∀ b ∈ bs, ∀ c ∈ bs, b.addr ≠ c.addr → b.stop ≤ c.addr ∨ c.stop ≤ b.addr := by
  have hp : bs.Pairwise (fun b c : Block => b.stop ≤ c.addr ∨ c.stop ≤ b.addr) :=
    (Tiling_pairwise h).imp (fun hbc => Or.inl hbc)
  intro b hb c hc hne
  have hsym : Symmetric (fun b c : Block => b.stop ≤ c.addr ∨ c.stop ≤ b.addr) :=
    fun x y hxy => hxy.symm
  exact hp.forall hsym hb hc (fun e => hne (by rw [e]))

namespace WellFormed

variable {cfg : Config} {s : Heap} {bs : List Block} {fl : List Nat}

theorem block_bounds (h : WellFormed cfg s bs fl) {b : Block} (hb : b ∈ bs) :
    0 < b.addr ∧ s.segment_begin ≤ b.addr ∧ b.stop ≤ s.segment_end ∧ b.stop < WORD ∧
      b.addr + 24 ≤ b.stop ∧ 16 ≤ b.size ∧ b.size % 8 = 0 ∧ b.size < 4294967296 := by
  have h1 := (Tiling_bounds h.tiling).2 b hb
  have h2 := h.size_ok b hb
  have h3 := h.cfg_valid.align
  have h4 := h.begin_pos
  have h5 := h.end_lt
  have h6 : 8 ∣ b.size := h2.2
  have h8 := h.small
  norm_num at h8
  unfold Block.stop header_size at *
  refine ⟨by omega, h1.1, h1.2, by omega, by omega, by omega, by omega, by omega⟩

theorem extract_size_block (h : WellFormed cfg s bs fl) {b : Block} (hb : b ∈ bs) :
    extract_size s.mem b.addr = b.size := by
  rw [extract_size_eq, h.hdr_ok b hb]
  have := h.block_bounds hb
  unfold Block.word
  cases b.free <;> simp <;> omega

theorem is_free_block (h : WellFormed cfg s bs fl) {b : Block} (hb : b ∈ bs) :
    is_free s.mem b.addr = b.free := by
  have := h.block_bounds hb
  have hw := h.hdr_ok b hb
  unfold Block.word at hw
  cases hf : b.free
  · rw [is_free_eq_false_iff, hw, hf]; simp; omega
  · rw [is_free_iff, hw, hf]; simp; omega

theorem block_of_node (h : WellFormed cfg s bs fl) {a : Nat} (ha : a ∈ fl) :
    ∃ b ∈ bs, b.addr = a ∧ b.free = true := (h.free_iff a).mp ha

theorem node_far (h : WellFormed cfg s bs fl) :
    ∀ x ∈ fl, ∀ y ∈ fl, x ≠ y → Far x y := by
  intro x hx y hy hne
  obtain ⟨b, hb, hbx, _⟩ := h.block_of_node hx
  obtain ⟨c, hc, hcy, _⟩ := h.block_of_node hy
  have hd := Tiling_disjoint h.tiling b hb c hc (by rw [hbx, hcy]; exact hne)
  have h1 := h.block_bounds hb
  have h2 := h.block_bounds hc
  unfold Far
  omega

theorem node_lt (h : WellFormed cfg s bs fl) : ∀ x ∈ fl, x < WORD := by
  intro x hx
  obtain ⟨b, hb, hbx, _⟩ := h.block_of_node hx
  have h1 := h.block_bounds hb
  omega

end WellFormed

theorem length_le_of_nodup_lt {l : List Nat} {N : Nat} (hnd : l.Nodup) (hlt : ∀ x ∈ l, x < N) :
    l.length ≤ N := by
  have h1 : l.toFinset ⊆ Finset.range N := by
    intro x hx
    rw [List.mem_toFinset] at hx
    exact Finset.mem_range.mpr (hlt x hx)
  have h2 := Finset.card_le_card h1
  rw [List.toFinset_card_of_nodup hnd, Finset.card_range] at h2
  exact h2

theorem Tiling_mid {L R : List Block} {b : Block} {a e : Nat} (h : Tiling a (L ++ b :: R) e) :
    (∀ c ∈ L, a ≤ c.addr ∧ c.stop ≤ b.addr) ∧ (∀ c ∈ R, b.stop ≤ c.addr ∧ c.stop ≤ e) ∧
      Tiling a L b.addr ∧ Tiling b.stop R e ∧ a ≤ b.addr ∧ b.stop ≤ e := by
  obtain ⟨mid, h1, h2, h3⟩ := Tiling_append.mp h
  have h4 := Tiling_bounds h1
  have h5 := Tiling_bounds h3
  have hb : b.addr ≤ b.stop := by unfold Block.stop; omega
  subst h2
  exact ⟨h4.2, h5.2, h1, h3, h4.1, h5.1⟩

namespace WellFormed

variable {cfg : Config} {s : Heap} {bs : List Block} {fl : List Nat}

theorem length_lt (h : WellFormed cfg s bs fl) : fl.length + 24 ≤ WORD := by
  have h1 : ∀ x ∈ fl, x < WORD - 24 := by
    intro x hx
    obtain ⟨b, hb, hbx, _⟩ := h.block_of_node hx
    have := h.block_bounds hb
    omega
  have := length_le_of_nodup_lt h.nodup h1
  rw [WORD_eq] at *
  omega

theorem block_node (h : WellFormed cfg s bs fl) {c : Block} (hc : c ∈ bs) {n : Nat}
    (hn : n ∈ fl) : c.addr = n ∨ c.stop ≤ n ∨ n + 24 ≤ c.addr := by
  obtain ⟨d, hd, hdn, _⟩ := h.block_of_node hn
  by_cases e : c.addr = n
  · exact Or.inl e
  · right
    have hdj := Tiling_disjoint h.tiling c hc d hd (by rw [hdn]; exact e)
    have h1 := h.block_bounds hd
    omega

theorem node_ne_zero (h : WellFormed cfg s bs fl) : ∀ x ∈ fl, x ≠ 0 :=
  DSeg_ne_zero h.links

theorem first_eq (h : WellFormed cfg s bs fl) : s.first_freenode = fl.headD 0 := by
  have hl := h.links
  unfold DList at hl
  cases fl with
  | nil => exact hl
  | cons n l => exact hl.1

theorem same_block (h : WellFormed cfg s bs fl) {b c : Block} (hb : b ∈ bs) (hc : c ∈ bs)
    (e : b.addr = c.addr) : b = c := by
  by_contra hne
  have h1 := h.block_bounds hb
  have h2 := h.block_bounds hc
  have hp := Tiling_pairwise h.tiling
  have hsym : Symmetric (fun b c : Block => b.stop ≤ c.addr ∨ c.stop ≤ b.addr) :=
    fun x y hxy => hxy.symm
  have hp2 : bs.Pairwise (fun b c : Block => b.stop ≤ c.addr ∨ c.stop ≤ b.addr) :=
    hp.imp (fun hbc => Or.inl hbc)
  have := hp2.forall hsym hb hc hne
  omega

end WellFormed

/-! ### Taking a free block: unlink it and set its status bit -/

theorem getLastD_zero_or_mem (l : List Nat) : l.getLastD 0 = 0 ∨ l.getLastD 0 ∈ l := by
  rcases List.eq_nil_or_concat l with h | ⟨l1, q, h⟩
  · left; subst h; rfl
  · right
    rw [List.concat_eq_append] at h
    subst h
    simp

theorem headD_zero_or_mem (l : List Nat) : l.headD 0 = 0 ∨ l.headD 0 ∈ l := by
  cases l with
  | nil => left; rfl
  | cons x l => right; simp

theorem pred_zero_or_mem (pre : List Nat) (a : Nat) (post : List Nat) :
    pre.getLastD 0 = 0 ∨ pre.getLastD 0 ∈ pre ++ a :: post := by
  rcases getLastD_zero_or_mem pre with e | e
  · exact Or.inl e
  · exact Or.inr (List.mem_append_left _ e)

theorem succ_zero_or_mem (pre : List Nat) (a : Nat) (post : List Nat) :
    post.headD 0 = 0 ∨ post.headD 0 ∈ pre ++ a :: post := by
  rcases headD_zero_or_mem post with e | e
  · exact Or.inl e
  · exact Or.inr (List.mem_append_right _ (List.mem_cons_of_mem _ e))

theorem WellFormed.apart_of_mem {cfg : Config} {s : Heap} {bs : List Block} {fl : List Nat}
    (h : WellFormed cfg s bs fl) {c : Block} (hc : c ∈ bs) {n : Nat}
    (hn : n = 0 ∨ n ∈ fl) : Apart c.addr n := by
  rcases hn with hn | hn
  · exact Or.inl hn
  · have h1 := h.block_node hc hn
    have h2 := h.block_bounds hc
    unfold Apart Far
    omega

theorem take_mem {cfg : Config} {s : Heap} {L R : List Block} {b : Block}
    {pre post : List Nat}
    (h : WellFormed cfg s (L ++ b :: R) (pre ++ b.addr :: post)) (hfree : b.free = true) :
    set_hdr (remove_freeblock s b.addr).mem b.addr
        (wadd (hdr (remove_freeblock s b.addr).mem b.addr) 1) =
      set_hdr (unlink s.mem (pre.getLastD 0) (post.headD 0)) b.addr (b.size + 1) := by
  have hbmem : b ∈ L ++ b :: R := by simp
  obtain ⟨_, hmem⟩ := remove_freeblock_links h.links h.nodup h.node_far
  have hq := pred_zero_or_mem pre b.addr post
  have hx := succ_zero_or_mem pre b.addr post
  rw [hmem, hdr_unlink _ _ _ _ (h.apart_of_mem hbmem hq) (h.apart_of_mem hbmem hx),
    h.hdr_ok b hbmem]
  have hb := h.block_bounds hbmem
  unfold Block.word
  rw [hfree]
  simp only [if_true, Nat.add_zero]
  rw [wadd_eq (by rw [WORD_eq]; omega)]

/-- Unlinking a free block and setting its status bit keeps the heap well formed. -/
theorem take_wellFormed {cfg : Config} {s : Heap} {L R : List Block} {b : Block}
    {pre post : List Nat}
    (h : WellFormed cfg s (L ++ b :: R) (pre ++ b.addr :: post)) (hfree : b.free = true) :
    WellFormed cfg
      { remove_freeblock s b.addr with
        mem := set_hdr (remove_freeblock s b.addr).mem b.addr
          (wadd (hdr (remove_freeblock s b.addr).mem b.addr) 1) }
      (L ++ { b with free := false } :: R) (pre ++ post) := by
  have hbmem : b ∈ L ++ b :: R := by simp
  have hamem : b.addr ∈ pre ++ b.addr :: post := by simp
  obtain ⟨hlinks, hmem⟩ := remove_freeblock_links h.links h.nodup h.node_far
  have hq := pred_zero_or_mem pre b.addr post
  have hx := succ_zero_or_mem pre b.addr post
  have hb := h.block_bounds hbmem
  have hmid := Tiling_mid h.tiling
  have hsub : ∀ n ∈ pre ++ post, n ∈ pre ++ b.addr :: post ∧ n ≠ b.addr := by
    intro n hn
    rcases List.mem_append.mp hn with hn | hn
    · exact ⟨by simp [hn], ne_of_nodup_append h.nodup hn (List.mem_cons_self _ _)⟩
    · exact ⟨by simp [hn], ne_of_nodup_cons (List.nodup_append.mp h.nodup).2.1 hn⟩
  have hother : ∀ c, c ∈ L ∨ c ∈ R → c ∈ L ++ b :: R ∧ (c.addr + 8 ≤ b.addr ∨ b.addr + 8 ≤ c.addr) := by
    intro c hc
    have hcm : c ∈ L ++ b :: R := by
      rcases hc with hc | hc
      · simp [hc]
      · simp [hc]
    have hcb := h.block_bounds hcm
    refine ⟨hcm, ?_⟩
    rcases hc with hc | hc
    · have := (hmid.1 c hc).2; omega
    · have := (hmid.2.1 c hc).1; omega
  rw [take_mem h hfree]
  refine
    { cfg_valid := h.cfg_valid
      begin_pos := h.begin_pos
      end_lt := h.end_lt
      seg_size := h.seg_size
      small := h.small
      tiling := ?_
      hdr_ok := ?_
      size_ok := ?_
      links := ?_
      nodup := ?_
      free_iff := ?_
      counter := ?_ }
  · exact Tiling_append.mpr ⟨b.addr, hmid.2.2.1, rfl, hmid.2.2.2.1⟩
  · intro c hc
    simp only [List.mem_append, List.mem_cons] at hc
    have key : ∀ c, c ∈ L ∨ c ∈ R →
        hdr (set_hdr (unlink s.mem (pre.getLastD 0) (post.headD 0)) b.addr (b.size + 1)) c.addr
          = c.word := by
      intro c hc
      obtain ⟨hcm, hfar⟩ := hother c hc
      unfold set_hdr
      rw [hdr_write64 _ _ _ _ (by omega),
        hdr_unlink _ _ _ _ (h.apart_of_mem hcm hq) (h.apart_of_mem hcm hx)]
      exact h.hdr_ok c hcm
    rcases hc with hc | hc | hc
    · exact key c (Or.inl hc)
    · subst hc
      rw [hdr_set_hdr _ _ _ (by rw [WORD_eq]; omega)]
      simp [Block.word]
    · exact key c (Or.inr hc)
  · intro c hc
    simp only [List.mem_append, List.mem_cons] at hc
    rcases hc with hc | hc | hc
    · exact h.size_ok c (by simp [hc])
    · subst hc
      exact h.size_ok b hbmem
    · exact h.size_ok c (by simp [hc])
  · unfold DList at hlinks ⊢
    rw [hmem] at hlinks
    apply DSeg_congr _ hlinks
    intro n hn
    obtain ⟨hn1, hn2⟩ := hsub n hn
    have hf := h.node_far n hn1 b.addr hamem hn2
    unfold Far at hf
    unfold set_hdr
    exact ⟨prev_write64 _ _ _ _ (by omega), next_write64 _ _ _ _ (by omega)⟩
  · have := h.nodup
    exact (List.nodup_append.mp this).1.append (List.nodup_cons.mp (List.nodup_append.mp this).2.1).2
      (fun x hx1 hx2 => (List.nodup_append.mp this).2.2 hx1 (List.mem_cons_of_mem _ hx2))
  · intro y
    constructor
    · intro hy
      obtain ⟨hy1, hy2⟩ := hsub y hy
      obtain ⟨c, hc, hcy, hcf⟩ := (h.free_iff y).mp hy1
      refine ⟨c, ?_, hcy, hcf⟩
      simp only [List.mem_append, List.mem_cons] at hc ⊢
      rcases hc with hc | hc | hc
      · exact Or.inl hc
      · subst hc; exact absurd hcy.symm hy2
      · exact Or.inr (Or.inr hc)
    · rintro ⟨c, hc, hcy, hcf⟩
      simp only [List.mem_append, List.mem_cons] at hc
      have key : ∀ c, c ∈ L ∨ c ∈ R → c.free = true → c.addr ∈ pre ++ post := by
        intro c hc hcf
        obtain ⟨hcm, hfar⟩ := hother c hc
        have h1 := (h.free_iff c.addr).mpr ⟨c, hcm, rfl, hcf⟩
        simp only [List.mem_append, List.mem_cons] at h1 ⊢
        rcases h1 with h1 | h1 | h1
        · exact Or.inl h1
        · omega
        · exact Or.inr h1
      rcases hc with hc | hc | hc
      · rw [← hcy]; exact key c (Or.inl hc) hcf
      · subst hc; simp at hcf
      · rw [← hcy]; exact key c (Or.inr hc) hcf
  · show wsub s.free_blocks 1 = (pre ++ post).length
    rw [h.counter]
    have := h.length_lt
    simp only [List.length_append, List.length_cons] at this ⊢
    rw [wsub_eq (by omega) (by omega)]
    omega

/-! ### `split_block_if_poss` -/

theorem hdr_add_freeblock (s : Heap) (c d : Nat)
    (hf : d + 8 ≤ s.first_freenode + 8 ∨ s.first_freenode + 16 ≤ d)
    (hc : d + 8 ≤ c + 8 ∨ c + 24 ≤ d) : hdr (add_freeblock s c).mem d = hdr s.mem d := by
  unfold hdr
  apply read64_congr
  intro y h1 h2
  exact add_freeblock_byte s c y (by omega) (by omega)

theorem WellFormed.status_bit {cfg : Config} {s : Heap} {bs : List Block} {fl : List Nat}
    (h : WellFormed cfg s bs fl) {b : Block} (hb : b ∈ bs) :
    hdr s.mem b.addr &&& 0x1 = if b.free then 0 else 1 := by
  rw [Nat.and_one_is_mod, h.hdr_ok b hb]
  have := h.block_bounds hb
  unfold Block.word
  cases b.free <;> simp <;> omega

theorem split_none {cfg : Config} {s : Heap} {bs : List Block} {fl : List Nat}
    (h : WellFormed cfg s bs fl) {b : Block} (hb : b ∈ bs) {needed : Nat}
    (hle : needed ≤ b.size) (hlt : b.size < needed + 8 + 2 * cfg.ALIGNMENT) :
    split_block_if_poss cfg s b.addr needed = s := by
  have hbb := h.block_bounds hb
  have hA := h.cfg_valid.align
  unfold split_block_if_poss
  rw [h.extract_size_block hb, wsub_eq hle (by rw [WORD_eq]; omega)]
  have e : cfg.ALIGNMENT * 2 % WORD = cfg.ALIGNMENT * 2 := Nat.mod_eq_of_lt (by rw [WORD_eq]; omega)
  rw [e]
  unfold header_size
  rw [wadd_eq (by rw [WORD_eq]; omega), if_neg (by omega)]

theorem split_eq {cfg : Config} {s : Heap} {bs : List Block} {fl : List Nat}
    (h : WellFormed cfg s bs fl) {b : Block} (hb : b ∈ bs) {needed : Nat}
    (hsplit : needed + 8 + 2 * cfg.ALIGNMENT ≤ b.size) :
    split_block_if_poss cfg s b.addr needed =
      add_freeblock { s with mem := set_hdr (set_hdr s.mem b.addr
          (needed + (if b.free then 0 else 1))) (b.addr + 8 + needed) (b.size - needed - 8) }
        (b.addr + 8 + needed) := by
  have hbb := h.block_bounds hb
  have hA := h.cfg_valid.align
  have hst : (if b.free then 0 else 1 : Nat) ≤ 1 := by cases b.free <;> simp
  unfold Block.stop header_size at hbb
  have e0 : cfg.ALIGNMENT * 2 % WORD = cfg.ALIGNMENT * 2 :=
    Nat.mod_eq_of_lt (by rw [WORD_eq]; omega)
  have e1 : wsub b.size needed = b.size - needed := wsub_eq (by omega) (by rw [WORD_eq]; omega)
  have e2 : wadd 8 (cfg.ALIGNMENT * 2) = 8 + cfg.ALIGNMENT * 2 :=
    wadd_eq (by rw [WORD_eq]; omega)
  have e3 : wadd needed (if b.free then 0 else 1) = needed + (if b.free then 0 else 1) :=
    wadd_eq (by rw [WORD_eq]; omega)
  have e4 : wadd b.addr 8 = b.addr + 8 := wadd_eq (by omega)
  have e5 : wadd (b.addr + 8) needed = b.addr + 8 + needed := wadd_eq (by omega)
  have e6 : wsub (b.size - needed) 8 = b.size - needed - 8 :=
    wsub_eq (by omega) (by rw [WORD_eq]; omega)
  unfold split_block_if_poss
  rw [h.extract_size_block hb, e0]
  unfold header_size
  rw [e1, e2, if_pos (by omega)]
  simp only []
  rw [h.status_bit hb, e3, e4, e5, e1, e6]

/-- Splitting a block in a heap whose free list is not empty keeps the heap well
formed: the front part keeps the status, the remainder is a new free block at the
head of the free list. -/
theorem split_wellFormed {cfg : Config} {s : Heap} {L R : List Block} {b : Block}
    {fl : List Nat} (h : WellFormed cfg s (L ++ b :: R) fl) (hne : fl ≠ [])
    {needed : Nat} (hn1 : 2 * cfg.ALIGNMENT ≤ needed) (hn2 : 8 ∣ needed)
    (hsplit : needed + 8 + 2 * cfg.ALIGNMENT ≤ b.size) :
    WellFormed cfg (split_block_if_poss cfg s b.addr needed)
      (L ++ ⟨b.addr, needed, b.free⟩ :: ⟨b.addr + 8 + needed, b.size - needed - 8, true⟩ :: R)
      ((b.addr + 8 + needed) :: fl) := by
  have hbmem : b ∈ L ++ b :: R := by simp
  have hbb := h.block_bounds hbmem
  have hA := h.cfg_valid.align
  have hmid := Tiling_mid h.tiling
  have hst : (if b.free then 0 else 1 : Nat) ≤ 1 := by cases b.free <;> simp
  unfold Block.stop header_size at hbb
  rw [split_eq h hbmem hsplit]
  -- the state after the two header stores
  generalize hs2 : ({ s with mem := set_hdr (set_hdr s.mem b.addr
      (needed + (if b.free then 0 else 1))) (b.addr + 8 + needed) (b.size - needed - 8) } : Heap)
    = s2
  have hs2m : s2.mem = set_hdr (set_hdr s.mem b.addr (needed + (if b.free then 0 else 1)))
      (b.addr + 8 + needed) (b.size - needed - 8) := by rw [← hs2]
  have hs2f : s2.first_freenode = s.first_freenode := by rw [← hs2]
  have hs2b : s2.segment_begin = s.segment_begin := by rw [← hs2]
  have hs2e : s2.segment_end = s.segment_end := by rw [← hs2]
  have hs2s : s2.segment_size = s.segment_size := by rw [← hs2]
  have hs2c : s2.free_blocks = s.free_blocks := by rw [← hs2]
  have hfirst0 : s.first_freenode ≠ 0 := by
    rw [h.first_eq]
    cases fl with
    | nil => exact absurd rfl hne
    | cons n l => exact h.node_ne_zero n (List.mem_cons_self _ _)
  have hfirstmem : s.first_freenode ∈ fl := by
    rw [h.first_eq]
    cases fl with
    | nil => exact absurd rfl hne
    | cons n l => exact List.mem_cons_self _ _
  -- a node of the old list against the block being split
  have hnode : ∀ n ∈ fl, n = b.addr ∨ b.addr + 8 + b.size ≤ n ∨ n + 24 ≤ b.addr := by
    intro n hn
    have := h.block_node hbmem hn
    unfold Block.stop header_size at this
    omega
  have hcfar : ∀ n ∈ fl, Far (b.addr + 8 + needed) n := by
    intro n hn
    have := hnode n hn
    unfold Far
    omega
  have hlinks2 : DList s2.mem s2.first_freenode fl := by
    rw [hs2m, hs2f]
    have hl := h.links
    unfold DList at hl ⊢
    apply DSeg_congr _ hl
    intro n hn
    have := hnode n hn
    unfold set_hdr
    constructor
    · rw [prev_write64 _ _ _ _ (by omega), prev_write64 _ _ _ _ (by omega)]
    · rw [next_write64 _ _ _ _ (by omega), next_write64 _ _ _ _ (by omega)]
  have hother : ∀ c, c ∈ L ∨ c ∈ R → c ∈ L ++ b :: R ∧
      (c.addr + 24 ≤ b.addr ∨ b.addr + 8 + b.size ≤ c.addr) := by
    intro c hc
    have hcm : c ∈ L ++ b :: R := by
      rcases hc with hc | hc
      · exact List.mem_append_left _ hc
      · exact List.mem_append_right _ (List.mem_cons_of_mem _ hc)
    have hcb := h.block_bounds hcm
    refine ⟨hcm, ?_⟩
    rcases hc with hc | hc
    · have := (hmid.1 c hc).2; omega
    · have := (hmid.2.1 c hc).1; unfold Block.stop header_size at this; omega
  have hfnode := hnode _ hfirstmem
  refine
    { cfg_valid := h.cfg_valid
      begin_pos := by rw [(add_freeblock_segment _ _).1, hs2b]; exact h.begin_pos
      end_lt := by rw [(add_freeblock_segment _ _).2.1, hs2e]; exact h.end_lt
      seg_size := by
        rw [(add_freeblock_segment _ _).2.1, (add_freeblock_segment _ _).2.2,
          (add_freeblock_segment _ _).1, hs2b, hs2e, hs2s]
        exact h.seg_size
      small := by
        rw [(add_freeblock_segment _ _).2.1, (add_freeblock_segment _ _).1, hs2b, hs2e]
        exact h.small
      tiling := ?_
      hdr_ok := ?_
      size_ok := ?_
      links := ?_
      nodup := ?_
      free_iff := ?_
      counter := ?_ }
  · rw [(add_freeblock_segment _ _).2.1, (add_freeblock_segment _ _).1, hs2b, hs2e]
    refine Tiling_append.mpr ⟨b.addr, hmid.2.2.1, rfl, ?_, ?_⟩
    · rfl
    · have e : Block.stop ⟨b.addr + 8 + needed, b.size - needed - 8, true⟩ = b.stop := by
        unfold Block.stop header_size
        show b.addr + 8 + needed + 8 + (b.size - needed - 8) = b.addr + 8 + b.size
        omega
      rw [e]
      exact hmid.2.2.2.1
  · intro c hc
    simp only [List.mem_append, List.mem_cons] at hc
    have key : ∀ c, c ∈ L ∨ c ∈ R →
        hdr (add_freeblock s2 (b.addr + 8 + needed)).mem c.addr = c.word := by
      intro c hc
      obtain ⟨hcm, hfar⟩ := hother c hc
      have hcn := h.block_node hcm hfirstmem
      have hcb := h.block_bounds hcm
      rw [hdr_add_freeblock _ _ _ (by rw [hs2f]; omega) (by omega), hs2m]
      unfold set_hdr
      rw [hdr_write64 _ _ _ _ (by omega), hdr_write64 _ _ _ _ (by omega)]
      exact h.hdr_ok c hcm
    rcases hc with hc | hc | hc | hc
    · exact key c (Or.inl hc)
    · subst hc
      show hdr (add_freeblock s2 (b.addr + 8 + needed)).mem b.addr =
        needed + (if b.free then 0 else 1)
      rw [hdr_add_freeblock _ _ _ (by rw [hs2f]; omega) (by omega), hs2m]
      unfold set_hdr
      rw [hdr_write64 _ _ _ _ (by omega)]
      exact hdr_set_hdr _ _ _ (by rw [WORD_eq]; omega)
    · subst hc
      show hdr (add_freeblock s2 (b.addr + 8 + needed)).mem (b.addr + 8 + needed) =
        b.size - needed - 8 + 0
      rw [hdr_add_freeblock _ _ _ (by rw [hs2f]; omega) (by omega), hs2m]
      rw [hdr_set_hdr _ _ _ (by rw [WORD_eq]; omega)]
      rfl
    · exact key c (Or.inr hc)
  · intro c hc
    simp only [List.mem_append, List.mem_cons] at hc
    have hbs := h.size_ok b hbmem
    rcases hc with hc | hc | hc | hc
    · exact h.size_ok c (List.mem_append_left _ hc)
    · subst hc
      exact ⟨hn1, hn2⟩
    · subst hc
      refine ⟨by show _ ≤ b.size - needed - 8; omega, ?_⟩
      show 8 ∣ b.size - needed - 8
      omega
    · exact h.size_ok c (List.mem_append_right _ (List.mem_cons_of_mem _ hc))
  · exact add_freeblock_links hlinks2 hne (by omega) (by omega) h.node_lt h.nodup hcfar h.node_far
  · refine List.nodup_cons.mpr ⟨?_, h.nodup⟩
    intro hc
    have := hnode _ hc
    omega
  · intro y
    simp only [List.mem_append, List.mem_cons]
    constructor
    · rintro (hy | hy)
      · exact ⟨⟨b.addr + 8 + needed, b.size - needed - 8, true⟩, Or.inr (Or.inr (Or.inl rfl)),
          hy.symm, rfl⟩
      · obtain ⟨c, hc, hcy, hcf⟩ := (h.free_iff y).mp hy
        simp only [List.mem_append, List.mem_cons] at hc
        rcases hc with hc | hc | hc
        · exact ⟨c, Or.inl hc, hcy, hcf⟩
        · subst hc
          exact ⟨⟨c.addr, needed, c.free⟩, Or.inr (Or.inl rfl), hcy, hcf⟩
        · exact ⟨c, Or.inr (Or.inr (Or.inr hc)), hcy, hcf⟩
    · rintro ⟨c, hc, hcy, hcf⟩
      rcases hc with hc | hc | hc | hc
      · right
        exact (h.free_iff y).mpr ⟨c, List.mem_append_left _ hc, hcy, hcf⟩
      · right
        subst hc
        exact (h.free_iff y).mpr ⟨b, hbmem, hcy, hcf⟩
      · left
        subst hc
        exact hcy.symm
      · right
        exact (h.free_iff y).mpr ⟨c, List.mem_append_right _ (List.mem_cons_of_mem _ hc), hcy, hcf⟩
  · rw [add_freeblock_counter, hs2c, h.counter]
    have := h.length_lt
    rw [wadd_eq (by omega)]
    rfl

theorem absorbed_append (l1 l2 : List Block) :
    absorbed (l1 ++ l2) = absorbed l1 + absorbed l2 := by
  unfold absorbed
  rw [List.map_append, List.sum_append]

/-- Splitting a block of a well-formed heap, whatever the free list holds: the headers
describe the blocks with the block cut in two, the remainder is the head of the free
list and the counter has gone up by one. -/
theorem split_blocks {cfg : Config} {s : Heap} {L R : List Block} {b : Block}
    {fl : List Nat} (h : WellFormed cfg s (L ++ b :: R) fl)
    {needed : Nat} (hn1 : 2 * cfg.ALIGNMENT ≤ needed) (hn2 : 8 ∣ needed)
    (hsplit : needed + 8 + 2 * cfg.ALIGNMENT ≤ b.size) :
    (split_block_if_poss cfg s b.addr needed).segment_begin = s.segment_begin ∧
    (split_block_if_poss cfg s b.addr needed).segment_end = s.segment_end ∧
    Tiling s.segment_begin
      (L ++ ⟨b.addr, needed, b.free⟩ :: ⟨b.addr + 8 + needed, b.size - needed - 8, true⟩ :: R)
      s.segment_end ∧
    (∀ c ∈ L ++ ⟨b.addr, needed, b.free⟩ :: ⟨b.addr + 8 + needed, b.size - needed - 8, true⟩ :: R,
      hdr (split_block_if_poss cfg s b.addr needed).mem c.addr = c.word ∧
      2 * cfg.ALIGNMENT ≤ c.size ∧ 8 ∣ c.size) ∧
    (split_block_if_poss cfg s b.addr needed).first_freenode = b.addr + 8 + needed ∧
    (split_block_if_poss cfg s b.addr needed).free_blocks = s.free_blocks + 1 := by
  have hbmem : b ∈ L ++ b :: R := by simp
  have hbb := h.block_bounds hbmem
  have hlen := h.length_lt
  have hseg : (split_block_if_poss cfg s b.addr needed).segment_begin = s.segment_begin ∧
      (split_block_if_poss cfg s b.addr needed).segment_end = s.segment_end := by
    rw [split_eq h hbmem hsplit]
    exact ⟨(add_freeblock_segment _ _).1, (add_freeblock_segment _ _).2.1⟩
  have hfirst : (split_block_if_poss cfg s b.addr needed).first_freenode = b.addr + 8 + needed := by
    rw [split_eq h hbmem hsplit]
    exact add_freeblock_first _ _
  have hcount : (split_block_if_poss cfg s b.addr needed).free_blocks = s.free_blocks + 1 := by
    rw [split_eq h hbmem hsplit, add_freeblock_counter]
    show wadd s.free_blocks 1 = s.free_blocks + 1
    rw [h.counter]
    exact wadd_eq (by omega)
  by_cases hne : fl = []
  · subst hne
    have hmid := Tiling_mid h.tiling
    have hf0 : s.first_freenode = 0 := h.first_eq
    unfold Block.stop header_size at hbb
    refine ⟨hseg.1, hseg.2, ?_, ?_, hfirst, hcount⟩
    · refine Tiling_append.mpr ⟨b.addr, hmid.2.2.1, rfl, ?_, ?_⟩
      · rfl
      · have e : Block.stop ⟨b.addr + 8 + needed, b.size - needed - 8, true⟩ = b.stop := by
          unfold Block.stop header_size
          show b.addr + 8 + needed + 8 + (b.size - needed - 8) = b.addr + 8 + b.size
          omega
        rw [e]
        exact hmid.2.2.2.1
    · have hmem : (split_block_if_poss cfg s b.addr needed).mem =
          set_hdr (set_hdr s.mem b.addr (needed + (if b.free then 0 else 1)))
            (b.addr + 8 + needed) (b.size - needed - 8) := by
        rw [split_eq h hbmem hsplit]
        exact add_freeblock_mem_empty _ _ hf0
      have hst : (if b.free then 0 else 1 : Nat) ≤ 1 := by cases b.free <;> simp
      have key : ∀ c, c ∈ L ∨ c ∈ R →
          hdr (split_block_if_poss cfg s b.addr needed).mem c.addr = c.word ∧
          2 * cfg.ALIGNMENT ≤ c.size ∧ 8 ∣ c.size := by
        intro c hc
        have hcm : c ∈ L ++ b :: R := by
          rcases hc with hc | hc
          · exact List.mem_append_left _ hc
          · exact List.mem_append_right _ (List.mem_cons_of_mem _ hc)
        have hcb := h.block_bounds hcm
        have hfar : c.addr + 24 ≤ b.addr ∨ b.addr + 8 + b.size ≤ c.addr := by
          rcases hc with hc | hc
          · have := (hmid.1 c hc).2; omega
          · have := (hmid.2.1 c hc).1; unfold Block.stop header_size at this; omega
        refine ⟨?_, h.size_ok c hcm⟩
        rw [hmem]
        unfold set_hdr
        rw [hdr_write64 _ _ _ _ (by omega), hdr_write64 _ _ _ _ (by omega)]
        exact h.hdr_ok c hcm
      intro c hc
      simp only [List.mem_append, List.mem_cons] at hc
      have hbs := h.size_ok b hbmem
      rcases hc with hc | hc | hc | hc
      · exact key c (Or.inl hc)
      · subst hc
        refine ⟨?_, hn1, hn2⟩
        show hdr (split_block_if_poss cfg s b.addr needed).mem b.addr =
          needed + (if b.free then 0 else 1)
        rw [hmem]
        unfold set_hdr
        rw [hdr_write64 _ _ _ _ (by omega)]
        exact hdr_set_hdr _ _ _ (by rw [WORD_eq]; omega)
      · subst hc
        refine ⟨?_, by show _ ≤ b.size - needed - 8; omega, by show 8 ∣ b.size - needed - 8; omega⟩
        show hdr (split_block_if_poss cfg s b.addr needed).mem (b.addr + 8 + needed) =
          b.size - needed - 8 + 0
        rw [hmem, hdr_set_hdr _ _ _ (by rw [WORD_eq]; omega)]
        rfl
      · exact key c (Or.inr hc)
  · have hw := split_wellFormed h hne hn1 hn2 hsplit
    refine ⟨hseg.1, hseg.2, ?_, ?_, hfirst, hcount⟩
    · have := hw.tiling
      rw [hseg.1, hseg.2] at this
      exact this
    · intro c hc
      exact ⟨hw.hdr_ok c hc, hw.size_ok c hc⟩

/-! ### `coalesce_right` -/

theorem mem_remove_of_ne {pre post : List Nat} {a y : Nat} (hy : y ∈ pre ++ a :: post)
    (hne : y ≠ a) : y ∈ pre ++ post := by
  simp only [List.mem_append, List.mem_cons] at hy ⊢
  rcases hy with hy | hy | hy
  · exact Or.inl hy
  · exact absurd hy hne
  · exact Or.inr hy

theorem mem_of_mem_remove {pre post : List Nat} {a y : Nat} (hy : y ∈ pre ++ post) :
    y ∈ pre ++ a :: post := by
  simp only [List.mem_append, List.mem_cons] at hy ⊢
  rcases hy with hy | hy
  · exact Or.inl hy
  · exact Or.inr (Or.inr hy)

theorem ne_of_mem_remove {pre post : List Nat} {a y : Nat} (hnd : (pre ++ a :: post).Nodup)
    (hy : y ∈ pre ++ post) : y ≠ a := by
  rcases List.mem_append.mp hy with hy | hy
  · exact ne_of_nodup_append hnd hy (List.mem_cons_self _ _)
  · exact ne_of_nodup_cons (List.nodup_append.mp hnd).2.1 hy

theorem nodup_remove {pre post : List Nat} {a : Nat} (hnd : (pre ++ a :: post).Nodup) :
    (pre ++ post).Nodup :=
  (List.nodup_append.mp hnd).1.append (List.nodup_cons.mp (List.nodup_append.mp hnd).2.1).2
    (fun _ hx1 hx2 => (List.nodup_append.mp hnd).2.2 hx1 (List.mem_cons_of_mem _ hx2))

theorem coalesce_eq {cfg : Config} {s : Heap} {L R : List Block} {A r : Block}
    {pre post : List Nat}
    (h : WellFormed cfg s (L ++ A :: r :: R) (pre ++ r.addr :: post)) :
    coalesce_right s A.addr =
      { remove_freeblock s r.addr with
        mem := set_hdr (unlink s.mem (pre.getLastD 0) (post.headD 0)) A.addr
          (A.size + 8 + r.size + (if A.free then 0 else 1)) } := by
  have hAmem : A ∈ L ++ A :: r :: R := by simp
  have hrmem : r ∈ L ++ A :: r :: R := by simp
  have hAb := h.block_bounds hAmem
  have hrb := h.block_bounds hrmem
  have hmid := Tiling_mid h.tiling
  have hra : r.addr = A.stop := hmid.2.2.2.1.1
  obtain ⟨_, hmem⟩ := remove_freeblock_links h.links h.nodup h.node_far
  have hq := pred_zero_or_mem pre r.addr post
  have hx := succ_zero_or_mem pre r.addr post
  have hst : (if A.free then 0 else 1 : Nat) ≤ 1 := by cases A.free <;> simp
  unfold Block.stop header_size at hAb hrb hra
  have e1 : wadd (wadd A.addr header_size) (extract_size s.mem A.addr) = r.addr := by
    rw [h.extract_size_block hAmem]
    have e0 : wadd A.addr header_size = A.addr + 8 := wadd_eq (by unfold header_size; omega)
    rw [e0, wadd_eq (by omega)]
    omega
  have e2 : hdr (unlink s.mem (pre.getLastD 0) (post.headD 0)) A.addr = A.word := by
    rw [hdr_unlink _ _ _ _ (h.apart_of_mem hAmem hq) (h.apart_of_mem hAmem hx)]
    exact h.hdr_ok A hAmem
  have e3 : extract_size (unlink s.mem (pre.getLastD 0) (post.headD 0)) r.addr = r.size := by
    rw [extract_size_eq, hdr_unlink _ _ _ _ (h.apart_of_mem hrmem hq) (h.apart_of_mem hrmem hx),
      ← extract_size_eq]
    exact h.extract_size_block hrmem
  have e4 : wadd header_size r.size = 8 + r.size :=
    wadd_eq (by unfold header_size; rw [WORD_eq]; omega)
  have e5 : wadd A.word (8 + r.size) = A.size + 8 + r.size + (if A.free then 0 else 1) := by
    unfold Block.word
    rw [wadd_eq (by rw [WORD_eq]; omega)]
    omega
  unfold coalesce_right
  simp only []
  rw [e1, hmem, e2, e3, e4, e5]

/-- Merging a free right neighbour `r` into the block `A` keeps the heap well formed. -/
theorem coalesce_wellFormed {cfg : Config} {s : Heap} {L R : List Block} {A r : Block}
    {pre post : List Nat}
    (h : WellFormed cfg s (L ++ A :: r :: R) (pre ++ r.addr :: post)) (hr : r.free = true) :
    WellFormed cfg (coalesce_right s A.addr)
      (L ++ ⟨A.addr, A.size + 8 + r.size, A.free⟩ :: R) (pre ++ post) := by
  have hAmem : A ∈ L ++ A :: r :: R := by simp
  have hrmem : r ∈ L ++ A :: r :: R := by simp
  have hramem : r.addr ∈ pre ++ r.addr :: post := by simp
  have hAb := h.block_bounds hAmem
  have hrb := h.block_bounds hrmem
  have hmid := Tiling_mid h.tiling
  have hra : r.addr = A.stop := hmid.2.2.2.1.1
  have htR : Tiling r.stop R s.segment_end := hmid.2.2.2.1.2
  have hRb := (Tiling_bounds htR).2
  obtain ⟨hlinks, hmem⟩ := remove_freeblock_links h.links h.nodup h.node_far
  have hq := pred_zero_or_mem pre r.addr post
  have hx := succ_zero_or_mem pre r.addr post
  have hst : (if A.free then 0 else 1 : Nat) ≤ 1 := by cases A.free <;> simp
  have hsmall := h.small
  have hend := h.end_lt
  norm_num at hsmall
  unfold Block.stop header_size at hAb hrb hra
  have hother : ∀ c, c ∈ L ∨ c ∈ R → c ∈ L ++ A :: r :: R ∧
      (c.addr + 24 ≤ A.addr ∨ r.addr + 8 + r.size ≤ c.addr) := by
    intro c hc
    rcases hc with hc | hc
    · have hcm : c ∈ L ++ A :: r :: R := List.mem_append_left _ hc
      have hcb := h.block_bounds hcm
      have := (hmid.1 c hc).2
      exact ⟨hcm, by omega⟩
    · have hcm : c ∈ L ++ A :: r :: R :=
        List.mem_append_right _ (List.mem_cons_of_mem _ (List.mem_cons_of_mem _ hc))
      have := (hRb c hc).1
      unfold Block.stop header_size at this
      exact ⟨hcm, by omega⟩
  rw [coalesce_eq h]
  refine
    { cfg_valid := h.cfg_valid
      begin_pos := h.begin_pos
      end_lt := h.end_lt
      seg_size := h.seg_size
      small := h.small
      tiling := ?_
      hdr_ok := ?_
      size_ok := ?_
      links := ?_
      nodup := nodup_remove h.nodup
      free_iff := ?_
      counter := ?_ }
  · refine Tiling_append.mpr ⟨A.addr, hmid.2.2.1, rfl, ?_⟩
    have e : Block.stop ⟨A.addr, A.size + 8 + r.size, A.free⟩ = r.stop := by
      unfold Block.stop header_size
      show A.addr + 8 + (A.size + 8 + r.size) = r.addr + 8 + r.size
      omega
    rw [e]
    exact htR
  · intro c hc
    simp only [List.mem_append, List.mem_cons] at hc
    have key : ∀ c, c ∈ L ∨ c ∈ R →
        hdr (set_hdr (unlink s.mem (pre.getLastD 0) (post.headD 0)) A.addr
          (A.size + 8 + r.size + (if A.free then 0 else 1))) c.addr = c.word := by
      intro c hc
      obtain ⟨hcm, hfar⟩ := hother c hc
      unfold set_hdr
      rw [hdr_write64 _ _ _ _ (by omega),
        hdr_unlink _ _ _ _ (h.apart_of_mem hcm hq) (h.apart_of_mem hcm hx)]
      exact h.hdr_ok c hcm
    rcases hc with hc | hc | hc
    · exact key c (Or.inl hc)
    · subst hc
      show hdr (set_hdr _ A.addr _) A.addr = A.size + 8 + r.size + (if A.free then 0 else 1)
      exact hdr_set_hdr _ _ _ (by rw [WORD_eq]; omega)
    · exact key c (Or.inr hc)
  · intro c hc
    simp only [List.mem_append, List.mem_cons] at hc
    rcases hc with hc | hc | hc
    · exact h.size_ok c (List.mem_append_left _ hc)
    · subst hc
      have := h.size_ok A hAmem
      refine ⟨by show _ ≤ A.size + 8 + r.size; omega, ?_⟩
      show 8 ∣ A.size + 8 + r.size
      omega
    · exact h.size_ok c
        (List.mem_append_right _ (List.mem_cons_of_mem _ (List.mem_cons_of_mem _ hc)))
  · unfold DList at hlinks ⊢
    rw [hmem] at hlinks
    apply DSeg_congr _ hlinks
    intro n hn
    have hn1 : n ∈ pre ++ r.addr :: post := mem_of_mem_remove hn
    have := h.block_node hAmem hn1
    unfold Block.stop header_size at this
    unfold set_hdr
    exact ⟨prev_write64 _ _ _ _ (by omega), next_write64 _ _ _ _ (by omega)⟩
  · intro y
    constructor
    · intro hy
      have hy1 : y ∈ pre ++ r.addr :: post := mem_of_mem_remove hy
      have hy2 : y ≠ r.addr := ne_of_mem_remove h.nodup hy
      obtain ⟨c, hc, hcy, hcf⟩ := (h.free_iff y).mp hy1
      simp only [List.mem_append, List.mem_cons] at hc ⊢
      rcases hc with hc | hc | hc | hc
      · exact ⟨c, Or.inl hc, hcy, hcf⟩
      · subst hc
        exact ⟨⟨c.addr, c.size + 8 + r.size, c.free⟩, Or.inr (Or.inl rfl), hcy, hcf⟩
      · subst hc
        exact absurd hcy.symm hy2
      · exact ⟨c, Or.inr (Or.inr hc), hcy, hcf⟩
    · rintro ⟨c, hc, hcy, hcf⟩
      simp only [List.mem_append, List.mem_cons] at hc
      have key : ∀ c, c ∈ L ++ A :: r :: R → c.addr ≠ r.addr → c.free = true →
          c.addr ∈ pre ++ post := by
        intro c hcm hne hcf
        exact mem_remove_of_ne ((h.free_iff c.addr).mpr ⟨c, hcm, rfl, hcf⟩) hne
      rcases hc with hc | hc | hc
      · obtain ⟨hcm, hfar⟩ := hother c (Or.inl hc)
        rw [← hcy]
        exact key c hcm (by omega) hcf
      · subst hc
        rw [← hcy]
        exact key A hAmem (by omega) hcf
      · obtain ⟨hcm, hfar⟩ := hother c (Or.inr hc)
        rw [← hcy]
        exact key c hcm (by omega) hcf
  · show wsub s.free_blocks 1 = (pre ++ post).length
    rw [h.counter]
    have := h.length_lt
    simp only [List.length_append, List.length_cons] at this ⊢
    rw [wsub_eq (by omega) (by omega)]
    omega

/-- `coalesce_right` writes only the header of the surviving block and link fields of
free-list nodes. -/
theorem coalesce_byte {cfg : Config} {s : Heap} {L R : List Block} {A r : Block}
    {pre post : List Nat}
    (h : WellFormed cfg s (L ++ A :: r :: R) (pre ++ r.addr :: post))
    (y : Nat) (hyA : y < A.addr ∨ A.addr + 8 ≤ y)
    (hy : ∀ n ∈ pre ++ r.addr :: post, y < n + 8 ∨ n + 24 ≤ y) :
    (coalesce_right s A.addr).mem y = s.mem y := by
  rw [coalesce_eq h]
  show set_hdr (unlink s.mem _ _) A.addr _ y = s.mem y
  unfold set_hdr
  rw [write64_other _ _ _ _ (by omega)]
  apply unlink_byte
  · rcases pred_zero_or_mem pre r.addr post with e | e
    · exact Or.inl e
    · right; have := hy _ e; omega
  · rcases succ_zero_or_mem pre r.addr post with e | e
    · exact Or.inl e
    · right; have := hy _ e; omega

/-! ### `myfree`: clearing the status bit and pushing the block -/

theorem release_hdr {cfg : Config} {s : Heap} {bs : List Block} {fl : List Nat}
    (h : WellFormed cfg s bs fl) {A : Block} (hA : A ∈ bs) (hfree : A.free = false) :
    wsub (hdr s.mem A.addr) 1 = A.size := by
  have hb := h.block_bounds hA
  rw [h.hdr_ok A hA]
  unfold Block.word
  rw [hfree]
  simp only [Bool.false_eq_true, if_false]
  rw [wsub_eq (by omega) (by rw [WORD_eq]; omega)]
  omega

/-- An allocated block is not on the free list. -/
theorem WellFormed.not_mem_of_allocated {cfg : Config} {s : Heap} {bs : List Block}
    {fl : List Nat} (h : WellFormed cfg s bs fl) {A : Block} (hA : A ∈ bs)
    (hfree : A.free = false) : A.addr ∉ fl := by
  intro hmem
  obtain ⟨c, hc, hca, hcf⟩ := h.block_of_node hmem
  have := h.same_block hc hA hca
  subst this
  rw [hfree] at hcf
  exact Bool.noConfusion hcf

/-- Releasing an allocated block into a non-empty free list keeps the heap well formed
(before any coalescing). -/
theorem release_wellFormed {cfg : Config} {s : Heap} {L R : List Block} {A : Block}
    {fl : List Nat} (h : WellFormed cfg s (L ++ A :: R) fl) (hfree : A.free = false)
    (hne : fl ≠ []) :
    WellFormed cfg
      (add_freeblock { s with mem := set_hdr s.mem A.addr (wsub (hdr s.mem A.addr) 1) } A.addr)
      (L ++ ⟨A.addr, A.size, true⟩ :: R) (A.addr :: fl) := by
  have hAmem : A ∈ L ++ A :: R := by simp
  have hAb := h.block_bounds hAmem
  have hmid := Tiling_mid h.tiling
  have hnot := h.not_mem_of_allocated hAmem hfree
  rw [release_hdr h hAmem hfree]
  generalize hs2 : ({ s with mem := set_hdr s.mem A.addr A.size } : Heap) = s2
  have hs2m : s2.mem = set_hdr s.mem A.addr A.size := by rw [← hs2]
  have hs2f : s2.first_freenode = s.first_freenode := by rw [← hs2]
  have hs2b : s2.segment_begin = s.segment_begin := by rw [← hs2]
  have hs2e : s2.segment_end = s.segment_end := by rw [← hs2]
  have hs2s : s2.segment_size = s.segment_size := by rw [← hs2]
  have hs2c : s2.free_blocks = s.free_blocks := by rw [← hs2]
  have hfirstmem : s.first_freenode ∈ fl := by
    rw [h.first_eq]
    cases fl with
    | nil => exact absurd rfl hne
    | cons n l => exact List.mem_cons_self _ _
  unfold Block.stop header_size at hAb
  have hnode : ∀ n ∈ fl, A.addr + 8 + A.size ≤ n ∨ n + 24 ≤ A.addr := by
    intro n hn
    have := h.block_node hAmem hn
    unfold Block.stop header_size at this
    rcases this with e | e
    · rw [← e] at hn; exact absurd hn hnot
    · exact e
  have hlinks2 : DList s2.mem s2.first_freenode fl := by
    rw [hs2m, hs2f]
    have hl := h.links
    unfold DList at hl ⊢
    apply DSeg_congr _ hl
    intro n hn
    have := hnode n hn
    unfold set_hdr
    exact ⟨prev_write64 _ _ _ _ (by omega), next_write64 _ _ _ _ (by omega)⟩
  have hother : ∀ c, c ∈ L ∨ c ∈ R → c ∈ L ++ A :: R ∧
      (c.addr + 24 ≤ A.addr ∨ A.addr + 8 + A.size ≤ c.addr) := by
    intro c hc
    rcases hc with hc | hc
    · have hcm : c ∈ L ++ A :: R := List.mem_append_left _ hc
      have hcb := h.block_bounds hcm
      have := (hmid.1 c hc).2
      exact ⟨hcm, by omega⟩
    · have hcm : c ∈ L ++ A :: R := List.mem_append_right _ (List.mem_cons_of_mem _ hc)
      have := (hmid.2.1 c hc).1
      unfold Block.stop header_size at this
      exact ⟨hcm, by omega⟩
  have hfnode := hnode _ hfirstmem
  refine
    { cfg_valid := h.cfg_valid
      begin_pos := by rw [(add_freeblock_segment _ _).1, hs2b]; exact h.begin_pos
      end_lt := by rw [(add_freeblock_segment _ _).2.1, hs2e]; exact h.end_lt
      seg_size := by
        rw [(add_freeblock_segment _ _).2.1, (add_freeblock_segment _ _).2.2,
          (add_freeblock_segment _ _).1, hs2b, hs2e, hs2s]
        exact h.seg_size
      small := by
        rw [(add_freeblock_segment _ _).2.1, (add_freeblock_segment _ _).1, hs2b, hs2e]
        exact h.small
      tiling := ?_
      hdr_ok := ?_
      size_ok := ?_
      links := ?_
      nodup := List.nodup_cons.mpr ⟨hnot, h.nodup⟩
      free_iff := ?_
      counter := ?_ }
  · rw [(add_freeblock_segment _ _).2.1, (add_freeblock_segment _ _).1, hs2b, hs2e]
    exact Tiling_append.mpr ⟨A.addr, hmid.2.2.1, rfl, hmid.2.2.2.1⟩
  · intro c hc
    simp only [List.mem_append, List.mem_cons] at hc
    rcases hc with hc | hc | hc
    · obtain ⟨hcm, hfar⟩ := hother c (Or.inl hc)
      have hcn := h.block_node hcm hfirstmem
      have hcb := h.block_bounds hcm
      rw [hdr_add_freeblock _ _ _ (by rw [hs2f]; omega) (by omega), hs2m]
      unfold set_hdr
      rw [hdr_write64 _ _ _ _ (by omega)]
      exact h.hdr_ok c hcm
    · subst hc
      show hdr (add_freeblock s2 A.addr).mem A.addr = A.size + 0
      rw [hdr_add_freeblock _ _ _ (by rw [hs2f]; omega) (by omega), hs2m]
      exact hdr_set_hdr _ _ _ (by rw [WORD_eq]; omega)
    · obtain ⟨hcm, hfar⟩ := hother c (Or.inr hc)
      have hcn := h.block_node hcm hfirstmem
      have hcb := h.block_bounds hcm
      rw [hdr_add_freeblock _ _ _ (by rw [hs2f]; omega) (by omega), hs2m]
      unfold set_hdr
      rw [hdr_write64 _ _ _ _ (by omega)]
      exact h.hdr_ok c hcm
  · intro c hc
    simp only [List.mem_append, List.mem_cons] at hc
    rcases hc with hc | hc | hc
    · exact h.size_ok c (List.mem_append_left _ hc)
    · subst hc
      exact h.size_ok A hAmem
    · exact h.size_ok c (List.mem_append_right _ (List.mem_cons_of_mem _ hc))
  · refine add_freeblock_links hlinks2 hne (by omega) (by omega) h.node_lt h.nodup ?_ h.node_far
    intro n hn
    have := hnode n hn
    unfold Far
    omega
  · intro y
    simp only [List.mem_append, List.mem_cons]
    constructor
    · rintro (hy | hy)
      · exact ⟨⟨A.addr, A.size, true⟩, Or.inr (Or.inl rfl), hy.symm, rfl⟩
      · obtain ⟨c, hc, hcy, hcf⟩ := (h.free_iff y).mp hy
        simp only [List.mem_append, List.mem_cons] at hc
        rcases hc with hc | hc | hc
        · exact ⟨c, Or.inl hc, hcy, hcf⟩
        · subst hc
          rw [hfree] at hcf
          exact Bool.noConfusion hcf
        · exact ⟨c, Or.inr (Or.inr hc), hcy, hcf⟩
    · rintro ⟨c, hc, hcy, hcf⟩
      rcases hc with hc | hc | hc
      · right
        exact (h.free_iff y).mpr ⟨c, List.mem_append_left _ hc, hcy, hcf⟩
      · left
        subst hc
        exact hcy.symm
      · right
        exact (h.free_iff y).mpr ⟨c, List.mem_append_right _ (List.mem_cons_of_mem _ hc), hcy, hcf⟩
  · rw [add_freeblock_counter, hs2c, h.counter]
    have := h.length_lt
    rw [wadd_eq (by omega)]
    rfl

/-- Stores into payload bytes of allocated blocks keep the heap well formed. -/
theorem WellFormed.of_payload_store {cfg : Config} {s : Heap} {bs : List Block}
    {fl : List Nat} (h : WellFormed cfg s bs fl) (m1 : Mem)
    (hm : ∀ y, m1 y ≠ s.mem y → ∃ c ∈ bs, c.free = false ∧ c.addr + 8 ≤ y ∧ y < c.stop) :
    WellFormed cfg { s with mem := m1 } bs fl := by
  have hsame : ∀ y, (∀ c ∈ bs, c.free = false → y < c.addr + 8 ∨ c.stop ≤ y) → m1 y = s.mem y := by
    intro y hy
    by_contra hne
    obtain ⟨c, hc, hcf, h1, h2⟩ := hm y hne
    have := hy c hc hcf
    omega
  refine
    { cfg_valid := h.cfg_valid
      begin_pos := h.begin_pos
      end_lt := h.end_lt
      seg_size := h.seg_size
      small := h.small
      tiling := h.tiling
      hdr_ok := ?_
      size_ok := h.size_ok
      links := ?_
      nodup := h.nodup
      free_iff := h.free_iff
      counter := h.counter }
  · intro b hb
    rw [← h.hdr_ok b hb]
    show read64 m1 b.addr = read64 s.mem b.addr
    apply read64_congr
    intro y h1 h2
    apply hsame
    intro c hc _
    by_cases e : c.addr = b.addr
    · omega
    · have := Tiling_disjoint h.tiling c hc b hb e
      have hcb := h.block_bounds hc
      have hbb := h.block_bounds hb
      omega
  · have hl := h.links
    unfold DList at hl ⊢
    apply DSeg_congr _ hl
    intro n hn
    have key : ∀ y, n + 8 ≤ y → y < n + 24 → m1 y = s.mem y := by
      intro y h1 h2
      apply hsame
      intro c hc hcf
      have := h.block_node hc hn
      have hcb := h.block_bounds hc
      rcases this with e | e
      · exfalso
        obtain ⟨d, hd, hdn, hdf⟩ := h.block_of_node hn
        have := h.same_block hc hd (by rw [e, hdn])
        subst this
        rw [hcf] at hdf
        exact Bool.noConfusion hdf
      · omega
    constructor
    · show read64 m1 (n + 8) = read64 s.mem (n + 8)
      apply read64_congr
      intro y h1 h2
      exact key y (by omega) (by omega)
    · show read64 m1 (n + 16) = read64 s.mem (n + 16)
      apply read64_congr
      intro y h1 h2
      exact key y (by omega) (by omega)

/-! ### The coalescing loop of `myfree` -/

theorem WellFormed.right_neighbor {cfg : Config} {s : Heap} {bs : List Block} {fl : List Nat}
    (h : WellFormed cfg s bs fl) {b : Block} (hb : b ∈ bs) :
    wadd (wadd b.addr header_size) (extract_size s.mem b.addr) = b.stop := by
  have hbb := h.block_bounds hb
  unfold Block.stop header_size at *
  have e0 : wadd b.addr 8 = b.addr + 8 := wadd_eq (by omega)
  rw [h.extract_size_block hb, e0, wadd_eq (by omega)]

theorem absorbed_cons (r : Block) (rs : List Block) :
    absorbed (r :: rs) = 8 + r.size + absorbed rs := by
  unfold absorbed header_size
  simp

/-- The coalescing loop on a well-formed heap: it ends, having merged into `A` the
maximal run `Rf` of free blocks that follow it. -/
theorem myfree_loop_spec {cfg : Config} :
    ∀ (R L : List Block) (A : Block) (fl : List Nat) (s : Heap) (fuel : Nat),
      WellFormed cfg s (L ++ A :: R) fl → R.length < fuel →
      ∃ s1 Rf R1 fl1, R = Rf ++ R1 ∧ (∀ r ∈ Rf, r.free = true) ∧
        (∀ r, R1.head? = some r → r.free = false) ∧
        myfree_loop A.addr fuel s = some s1 ∧
        WellFormed cfg s1 (L ++ ⟨A.addr, A.size + absorbed Rf, A.free⟩ :: R1) fl1 ∧
        (∀ a, a ∈ fl1 ↔ a ∈ fl ∧ ∀ r ∈ Rf, a ≠ r.addr) ∧
        fl1.length + Rf.length = fl.length ∧
        (∀ y, (y < A.addr ∨ A.addr + 8 ≤ y) → (∀ n ∈ fl, y < n + 8 ∨ n + 24 ≤ y) →
          s1.mem y = s.mem y) ∧
        s1.segment_begin = s.segment_begin ∧ s1.segment_end = s.segment_end := by
  intro R
  induction R with
  | nil =>
    intro L A fl s fuel h hf
    have hAmem : A ∈ L ++ [A] := by simp
    have hstop : A.stop = s.segment_end := (Tiling_mid h.tiling).2.2.2.1
    cases fuel with
    | zero => simp at hf
    | succ f =>
      refine ⟨s, [], [], fl, rfl, (by intro r hr; cases hr), (by intro r hr; simp at hr), ?_, ?_,
        (by intro a; simp), (by simp), (by intro y _ _; rfl), rfl, rfl⟩
      · unfold myfree_loop
        simp only []
        rw [h.right_neighbor hAmem, hstop, if_neg (by simp)]
      · have e : (⟨A.addr, A.size + absorbed [], A.free⟩ : Block) = A := by
          cases A
          simp [absorbed]
        rw [e]
        exact h
  | cons r R ih =>
    intro L A fl s fuel h hf
    have hAmem : A ∈ L ++ A :: r :: R := by simp
    have hrmem : r ∈ L ++ A :: r :: R := by simp
    have hmid := Tiling_mid h.tiling
    have hra : r.addr = A.stop := hmid.2.2.2.1.1
    have hrb := h.block_bounds hrmem
    cases fuel with
    | zero => simp at hf
    | succ f =>
      cases hrf : r.free
      · -- the right neighbour is allocated: the loop stops
        refine ⟨s, [], r :: R, fl, rfl, (by intro r hr; cases hr), ?_, ?_, ?_,
          (by intro a; simp), (by simp), (by intro y _ _; rfl), rfl, rfl⟩
        · intro r1 hr1
          simp only [List.head?_cons, Option.some.injEq] at hr1
          rw [← hr1]
          exact hrf
        · unfold myfree_loop
          simp only []
          rw [h.right_neighbor hAmem, ← hra, h.is_free_block hrmem, hrf, if_neg (by simp)]
        · have e : (⟨A.addr, A.size + absorbed [], A.free⟩ : Block) = A := by
            cases A
            simp [absorbed]
          rw [e]
          exact h
      · -- the right neighbour is free: merge it and go on
        have hrfl : r.addr ∈ fl := (h.free_iff r.addr).mpr ⟨r, hrmem, rfl, hrf⟩
        obtain ⟨pre, post, hfl⟩ := List.append_of_mem hrfl
        subst hfl
        have h1 := coalesce_wellFormed h hrf
        obtain ⟨s1, Rf, R1, fl1, hR, hRf, hR1, hloop, hwf, hiff, hlen, hbyte, hsb, hse⟩ :=
          ih L ⟨A.addr, A.size + 8 + r.size, A.free⟩ (pre ++ post) (coalesce_right s A.addr) f h1
            (by simp at hf; omega)
        refine ⟨s1, r :: Rf, R1, fl1, (by rw [hR]; rfl), ?_, hR1, ?_, ?_, ?_, ?_, ?_,
          (by rw [hsb]; rfl), (by rw [hse]; rfl)⟩
        · intro r1 hr1
          rcases List.mem_cons.mp hr1 with e | e
          · rw [e]; exact hrf
          · exact hRf r1 e
        · unfold myfree_loop
          simp only []
          rw [h.right_neighbor hAmem, ← hra, h.is_free_block hrmem, hrf,
            if_pos ⟨by omega, rfl⟩]
          exact hloop
        · have e : A.size + 8 + r.size + absorbed Rf = A.size + absorbed (r :: Rf) := by
            rw [absorbed_cons]; omega
          rw [← e]
          exact hwf
        · intro a
          rw [hiff a]
          constructor
          · rintro ⟨ha1, ha2⟩
            refine ⟨mem_of_mem_remove ha1, ?_⟩
            intro r1 hr1
            rcases List.mem_cons.mp hr1 with e | e
            · rw [e]; exact ne_of_mem_remove h.nodup ha1
            · exact ha2 r1 e
          · rintro ⟨ha1, ha2⟩
            exact ⟨mem_remove_of_ne ha1 (ha2 r (List.mem_cons_self _ _)),
              fun r1 hr1 => ha2 r1 (List.mem_cons_of_mem _ hr1)⟩
        · simp only [List.length_append, List.length_cons] at hlen ⊢
          omega
        · intro y hyA hy
          rw [hbyte y hyA (fun n hn => hy n (mem_of_mem_remove hn))]
          exact coalesce_byte h y hyA hy

/-- The effect of `myfree` on a well-formed heap, for the pointer of the allocated block
`A`: the call returns, `A` is free and has absorbed the maximal run `Rf` of free blocks
after it, what follows is the segment end or an allocated block, and only the first 24
bytes of `A` and link fields of free-list nodes were written.  When the free list was
not empty the heap is again well formed. -/
theorem myfree_spec {cfg : Config} {s : Heap} {L R : List Block} {A : Block} {fl : List Nat}
    (h : WellFormed cfg s (L ++ A :: R) fl) (hA : A.free = false) (fuel : Nat)
    (hfuel : R.length < fuel) :
    ∃ s1 Rf R1, R = Rf ++ R1 ∧ (∀ r ∈ Rf, r.free = true) ∧
      (∀ r, R1.head? = some r → r.free = false) ∧
      myfree fuel s (A.addr + header_size) = some s1 ∧
      hdr s1.mem A.addr = A.size + absorbed Rf ∧
      s1.segment_begin = s.segment_begin ∧ s1.segment_end = s.segment_end ∧
      s1.free_blocks + Rf.length = fl.length + 1 ∧
      (A.addr + header_size + (A.size + absorbed Rf) = s1.segment_end ∨
        is_free s1.mem (A.addr + header_size + (A.size + absorbed Rf)) = false) ∧
      (fl ≠ [] → ∃ fl1,
        WellFormed cfg s1 (L ++ ⟨A.addr, A.size + absorbed Rf, true⟩ :: R1) fl1 ∧
        (∀ a, a ∈ fl1 ↔ (a = A.addr ∨ a ∈ fl) ∧ ∀ r ∈ Rf, a ≠ r.addr)) ∧
      (fl = [] → Rf = [] ∧ s1.first_freenode = A.addr) ∧
      (∀ y, (y < A.addr ∨ A.addr + 24 ≤ y) → (∀ n ∈ fl, y < n + 8 ∨ n + 24 ≤ y) →
        s1.mem y = s.mem y) := by
  have hAmem : A ∈ L ++ A :: R := by simp
  have hAb := h.block_bounds hAmem
  have hmid := Tiling_mid h.tiling
  unfold Block.stop header_size at hAb
  have hptr : A.addr + header_size ≠ 0 := by unfold header_size; omega
  have hnode : wsub (A.addr + header_size) header_size = A.addr := by
    unfold header_size
    rw [wsub_eq (by omega) (by omega)]
    omega
  have hmy : myfree fuel s (A.addr + header_size) =
      myfree_loop A.addr fuel (add_freeblock
        { s with mem := set_hdr s.mem A.addr (wsub (hdr s.mem A.addr) 1) } A.addr) := by
    unfold myfree
    rw [if_neg hptr]
    simp only []
    rw [hnode]
  rw [hmy]
  by_cases hne : fl = []
  · -- empty free list: nothing can be merged
    subst hne
    have hfirst : s.first_freenode = 0 := h.first_eq
    have hs2 : add_freeblock { s with mem := set_hdr s.mem A.addr (wsub (hdr s.mem A.addr) 1) }
        A.addr = { s with mem := set_hdr s.mem A.addr A.size, first_freenode := A.addr,
                          free_blocks := wadd s.free_blocks 1 } := by
      unfold add_freeblock
      rw [release_hdr h hAmem hA]
      simp [hfirst]
    rw [hs2]
    have hhdr : hdr (set_hdr s.mem A.addr A.size) A.addr = A.size :=
      hdr_set_hdr _ _ _ (by rw [WORD_eq]; omega)
    have hext : extract_size (set_hdr s.mem A.addr A.size) A.addr = A.size := by
      rw [extract_size_eq, hhdr]
      omega
    have hrn : wadd (wadd A.addr header_size) A.size = A.addr + 8 + A.size := by
      have e0 : wadd A.addr header_size = A.addr + 8 := wadd_eq (by unfold header_size; omega)
      rw [e0, wadd_eq (by omega)]
    have hexit : A.addr + 8 + A.size = s.segment_end ∨
        is_free (set_hdr s.mem A.addr A.size) (A.addr + 8 + A.size) = false := by
      cases R with
      | nil => left; exact hmid.2.2.2.1
      | cons r R0 =>
        right
        have hrmem : r ∈ L ++ A :: r :: R0 := by simp
        have hra : r.addr = A.stop := hmid.2.2.2.1.1
        unfold Block.stop header_size at hra
        have hrf : r.free = false := by
          cases hrf : r.free
          · rfl
          · have := (h.free_iff r.addr).mpr ⟨r, hrmem, rfl, hrf⟩
            simp at this
        rw [← hra, is_free_eq_false_iff]
        unfold set_hdr
        rw [hdr_write64 _ _ _ _ (by omega)]
        have := h.is_free_block hrmem
        rw [hrf, is_free_eq_false_iff] at this
        exact this
    cases fuel with
    | zero => simp at hfuel
    | succ f =>
      refine ⟨{ s with mem := set_hdr s.mem A.addr A.size, first_freenode := A.addr,
                       free_blocks := wadd s.free_blocks 1 }, [], R, rfl,
        (by intro r hr; cases hr), ?_, ?_, ?_, rfl, rfl, ?_, ?_,
        (by intro hcon; exact absurd rfl hcon), (by intro _; exact ⟨rfl, rfl⟩), ?_⟩
      · intro r hr
        cases R with
        | nil => simp at hr
        | cons r0 R0 =>
          simp only [List.head?_cons, Option.some.injEq] at hr
          subst hr
          cases hrf : r0.free
          · rfl
          · have := (h.free_iff r0.addr).mpr ⟨r0, by simp, rfl, hrf⟩
            simp at this
      · unfold myfree_loop
        simp only []
        rw [hext, hrn]
        rcases hexit with e | e
        · rw [if_neg (by simp [e])]
        · rw [if_neg (by simp [e])]
      · show hdr (set_hdr s.mem A.addr A.size) A.addr = A.size + absorbed []
        rw [hhdr]
        simp [absorbed]
      · show wadd s.free_blocks 1 + 0 = 0 + 1
        rw [h.counter]
        rfl
      · show A.addr + header_size + (A.size + absorbed []) = s.segment_end ∨
          is_free (set_hdr s.mem A.addr A.size) (A.addr + header_size + (A.size + absorbed []))
            = false
        have e : A.addr + header_size + (A.size + absorbed []) = A.addr + 8 + A.size := by
          simp [absorbed, header_size]
        rw [e]
        exact hexit
      · intro y hy _
        show set_hdr s.mem A.addr A.size y = s.mem y
        unfold set_hdr
        exact write64_other _ _ _ _ (by omega)
  · -- non-empty free list: the heap stays well formed throughout
    have h2 := release_wellFormed h hA hne
    obtain ⟨s1, Rf, R1, fl1, hR, hRf, hR1, hloop, hwf, hiff, hlen, hbyte, hsb, hse⟩ :=
      myfree_loop_spec R L ⟨A.addr, A.size, true⟩ (A.addr :: fl) _ fuel h2 hfuel
    have hnewmem : (⟨A.addr, A.size + absorbed Rf, true⟩ : Block) ∈
        L ++ ⟨A.addr, A.size + absorbed Rf, true⟩ :: R1 := by simp
    have hfirstmem : s.first_freenode ∈ fl := by
      rw [h.first_eq]
      cases fl with
      | nil => exact absurd rfl hne
      | cons n l => exact List.mem_cons_self _ _
    refine ⟨s1, Rf, R1, hR, hRf, hR1, hloop, ?_, ?_, ?_, ?_, ?_, ?_,
      (by intro hcon; exact absurd hcon hne), ?_⟩
    · have := hwf.hdr_ok _ hnewmem
      rw [this]
      simp [Block.word]
    · rw [hsb, (add_freeblock_segment _ _).1]
    · rw [hse, (add_freeblock_segment _ _).2.1]
    · rw [hwf.counter]
      simp only [List.length_cons] at hlen
      omega
    · have ht := (Tiling_mid hwf.tiling).2.2.2.1
      have hstop : Block.stop ⟨A.addr, A.size + absorbed Rf, true⟩ =
          A.addr + header_size + (A.size + absorbed Rf) := rfl
      rw [hstop] at ht
      cases R1 with
      | nil => left; exact ht
      | cons r R0 =>
        right
        have hr1 : r.addr = A.addr + header_size + (A.size + absorbed Rf) := ht.1
        rw [← hr1, hwf.is_free_block (by simp)]
        exact hR1 r rfl
    · intro _
      refine ⟨fl1, hwf, ?_⟩
      intro a
      rw [hiff a]
      simp only [List.mem_cons]
    · intro y hy hyn
      rw [hbyte y (by show y < A.addr ∨ A.addr + 8 ≤ y; omega) (by
        intro n hn
        rcases List.mem_cons.mp hn with e | e
        · rw [e]; omega
        · exact hyn n e)]
      have hf := hyn _ hfirstmem
      have e := add_freeblock_byte
        ({ s with mem := set_hdr s.mem A.addr (wsub (hdr s.mem A.addr) 1) } : Heap) A.addr y
        (by show y < s.first_freenode + 8 ∨ s.first_freenode + 16 ≤ y; omega) (by omega)
      rw [e]
      show set_hdr s.mem A.addr _ y = s.mem y
      unfold set_hdr
      exact write64_other _ _ _ _ (by omega)

theorem Tiling_absorbed : ∀ {l : List Block} {a e : Nat}, Tiling a l e → e = a + absorbed l := by
  intro l
  induction l with
  | nil =>
    intro a e h
    have : a = e := h
    simp [absorbed, this]
  | cons b l ih =>
    intro a e h
    obtain ⟨h1, h2⟩ := h
    rw [ih h2, absorbed_cons, ← h1]
    unfold Block.stop header_size
    omega

theorem absorbed_dvd (l : List Block) (h : ∀ r ∈ l, 8 ∣ r.size) : 8 ∣ absorbed l := by
  induction l with
  | nil => simp [absorbed]
  | cons b l ih =>
    rw [absorbed_cons]
    have h1 := h b (List.mem_cons_self _ _)
    have h2 := ih (fun r hr => h r (List.mem_cons_of_mem _ hr))
    omega

/-- The run of blocks absorbed by `A` ends inside the segment and has a size that is a
multiple of 8. -/
theorem WellFormed.absorbed_bound {cfg : Config} {s : Heap} {L Rf R1 : List Block} {A : Block}
    {fl : List Nat} (h : WellFormed cfg s (L ++ A :: (Rf ++ R1)) fl) :
    A.stop + absorbed Rf ≤ s.segment_end ∧ 8 ∣ absorbed Rf := by
  have hmid := Tiling_mid h.tiling
  obtain ⟨mid, h1, h2⟩ := Tiling_append.mp hmid.2.2.2.1
  have := Tiling_absorbed h1
  have := (Tiling_bounds h2).1
  refine ⟨by omega, absorbed_dvd Rf ?_⟩
  intro r hr
  exact (h.size_ok r (by simp [hr])).2

/-- Two ways of cutting a list into a run of free blocks and a rest that does not begin
with a free block are the same. -/
theorem free_run_unique : ∀ (Rf Rf2 R1 R2 : List Block), Rf ++ R1 = Rf2 ++ R2 →
    (∀ r ∈ Rf, r.free = true) → (∀ r, R1.head? = some r → r.free = false) →
    (∀ r ∈ Rf2, r.free = true) → (∀ r, R2.head? = some r → r.free = false) →
    Rf = Rf2 ∧ R1 = R2 := by
  intro Rf
  induction Rf with
  | nil =>
    intro Rf2 R1 R2 he _ h1 h2 _
    cases Rf2 with
    | nil => exact ⟨rfl, he⟩
    | cons r t =>
      have e : R1 = r :: (t ++ R2) := he
      have a := h1 r (by rw [e]; rfl)
      have b := h2 r (List.mem_cons_self _ _)
      rw [b] at a
      exact Bool.noConfusion a
  | cons r t ih =>
    intro Rf2 R1 R2 he hf h1 h2 h3
    cases Rf2 with
    | nil =>
      have e : R2 = r :: (t ++ R1) := he.symm
      have a := h3 r (by rw [e]; rfl)
      have b := hf r (List.mem_cons_self _ _)
      rw [b] at a
      exact Bool.noConfusion a
    | cons r2 t2 =>
      have e := List.cons.inj he
      obtain ⟨e1, e2⟩ := ih t2 R1 R2 e.2 (fun x hx => hf x (List.mem_cons_of_mem _ hx)) h1
        (fun x hx => h2 x (List.mem_cons_of_mem _ hx)) h3
      exact ⟨by rw [e.1, e1], e2⟩

/-! ### The free-list scan of `mymalloc` -/

theorem mymalloc_scan_miss (cfg : Config) (needed : Nat) (s : Heap) :
    ∀ (l : List Nat) (cur p fuel : Nat), DSeg s.mem cur p l 0 →
      (∀ x ∈ l, extract_size s.mem x < needed) → l.length < fuel →
      mymalloc_scan cfg needed fuel s cur = some (0, s) := by
  intro l
  induction l with
  | nil =>
    intro cur p fuel hd _ hf
    have hc : cur = 0 := hd
    cases fuel with
    | zero => omega
    | succ f => simp [mymalloc_scan, hc]
  | cons n l ih =>
    intro cur p fuel hd hs hf
    obtain ⟨h1, h2, _, h4⟩ := hd
    cases fuel with
    | zero => omega
    | succ f =>
      have hlt := hs n (List.mem_cons_self _ _)
      subst h1
      unfold mymalloc_scan
      rw [if_neg h2, if_neg (by omega)]
      exact ih _ _ f h4 (fun x hx => hs x (List.mem_cons_of_mem _ hx))
        (by simp at hf; omega)

theorem mymalloc_scan_hit (cfg : Config) (needed : Nat) (s : Heap) (a : Nat) (post : List Nat) :
    ∀ (pre : List Nat) (cur p fuel : Nat), DSeg s.mem cur p (pre ++ a :: post) 0 →
      (∀ x ∈ pre, extract_size s.mem x < needed) → needed ≤ extract_size s.mem a →
      pre.length < fuel →
      mymalloc_scan cfg needed fuel s cur =
        some (wadd a header_size, mymalloc_take cfg s a needed) := by
  intro pre
  induction pre with
  | nil =>
    intro cur p fuel hd _ ha hf
    obtain ⟨h1, h2, _, _⟩ := hd
    cases fuel with
    | zero => omega
    | succ f =>
      subst h1
      unfold mymalloc_scan
      rw [if_neg h2, if_pos ha]
      rfl
  | cons n l ih =>
    intro cur p fuel hd hs ha hf
    obtain ⟨h1, h2, _, h4⟩ := hd
    cases fuel with
    | zero => omega
    | succ f =>
      have hlt := hs n (List.mem_cons_self _ _)
      subst h1
      unfold mymalloc_scan
      rw [if_neg h2, if_neg (by omega)]
      exact ih _ _ f h4 (fun x hx => hs x (List.mem_cons_of_mem _ hx)) ha
        (by simp at hf; omega)

theorem mymalloc_scan_null (cfg : Config) (needed : Nat) (s : Heap) :
    ∀ (l : List Nat) (cur p fuel : Nat) (s1 : Heap), DSeg s.mem cur p l 0 →
      (∀ x ∈ l, x + 8 < WORD) →
      mymalloc_scan cfg needed fuel s cur = some (0, s1) → s1 = s := by
  intro l
  induction l with
  | nil =>
    intro cur p fuel s1 hd _ hr
    have hc : cur = 0 := hd
    cases fuel with
    | zero => simp [mymalloc_scan] at hr
    | succ f =>
      simp [mymalloc_scan, hc] at hr
      exact hr.symm
  | cons n l ih =>
    intro cur p fuel s1 hd hb hr
    obtain ⟨h1, h2, _, h4⟩ := hd
    cases fuel with
    | zero => simp [mymalloc_scan] at hr
    | succ f =>
      subst h1
      unfold mymalloc_scan at hr
      rw [if_neg h2] at hr
      by_cases hfit : extract_size s.mem cur ≥ needed
      · rw [if_pos hfit] at hr
        have hlt := hb cur (List.mem_cons_self _ _)
        have e : wadd cur header_size = cur + 8 := wadd_eq hlt
        simp only [Option.some.injEq, Prod.mk.injEq] at hr
        omega
      · rw [if_neg hfit] at hr
        exact ih _ _ f s1 h4 (fun x hx => hb x (List.mem_cons_of_mem _ hx)) hr

/-- The decomposition of a list at the first element that satisfies a predicate. -/
theorem exists_first_fit (P : Nat → Prop) [DecidablePred P] :
    ∀ (l : List Nat), (∃ x ∈ l, P x) →
      ∃ pre a post, l = pre ++ a :: post ∧ (∀ x ∈ pre, ¬ P x) ∧ P a := by
  intro l
  induction l with
  | nil => rintro ⟨x, hx, _⟩; cases hx
  | cons n l ih =>
    rintro ⟨x, hx, hp⟩
    by_cases hn : P n
    · exact ⟨[], n, l, rfl, (by intro y hy; cases hy), hn⟩
    · rcases List.mem_cons.mp hx with rfl | hx
      · exact absurd hp hn
      · obtain ⟨pre, a, post, h1, h2, h3⟩ := ih ⟨x, hx, hp⟩
        refine ⟨n :: pre, a, post, by rw [h1]; rfl, ?_, h3⟩
        intro y hy
        rcases List.mem_cons.mp hy with rfl | hy
        · exact hn
        · exact h2 y hy

/-! ### `mymalloc` on a well-formed heap -/

/-- The blocks after `mymalloc` has taken the free block `b` for a request of `needed`
bytes. -/
theorem mymalloc_take_wellFormed {cfg : Config} {s : Heap} {L R : List Block} {b : Block}
    {pre post : List Nat}
    (h : WellFormed cfg s (L ++ b :: R) (pre ++ b.addr :: post)) (hfree : b.free = true)
    {needed : Nat} (hn1 : 2 * cfg.ALIGNMENT ≤ needed) (hn2 : 8 ∣ needed)
    (hfit : needed ≤ b.size) :
    (needed + 8 + 2 * cfg.ALIGNMENT ≤ b.size ∧
      WellFormed cfg (mymalloc_take cfg s b.addr needed)
        (L ++ ⟨b.addr, needed, false⟩ :: ⟨b.addr + 8 + needed, b.size - needed - 8, true⟩ :: R)
        ((b.addr + 8 + needed) :: (pre ++ post))) ∨
    (b.size < needed + 8 + 2 * cfg.ALIGNMENT ∧
      WellFormed cfg (mymalloc_take cfg s b.addr needed)
        (L ++ ⟨b.addr, b.size, false⟩ :: R) (pre ++ post)) := by
  have hbmem : b ∈ L ++ b :: R := by simp
  by_cases hsplit : needed + 8 + 2 * cfg.ALIGNMENT ≤ b.size
  · left
    refine ⟨hsplit, ?_⟩
    have h1 := split_wellFormed h (by simp) hn1 hn2 hsplit
    rw [hfree] at h1
    have h2 := take_wellFormed
      (show WellFormed cfg (split_block_if_poss cfg s b.addr needed)
        (L ++ (⟨b.addr, needed, true⟩ : Block) ::
          (⟨b.addr + 8 + needed, b.size - needed - 8, true⟩ :: R))
        (((b.addr + 8 + needed) :: pre) ++ (⟨b.addr, needed, true⟩ : Block).addr :: post)
        from h1) rfl
    exact h2
  · right
    have hlt : b.size < needed + 8 + 2 * cfg.ALIGNMENT := by omega
    refine ⟨hlt, ?_⟩
    have h2 := take_wellFormed h hfree
    unfold mymalloc_take
    rw [split_none h hbmem hfit hlt]
    exact h2

/-- Every free-list node of a well-formed heap is the address of a free block, whose
size is what `extract_size` reads. -/
theorem WellFormed.node_block {cfg : Config} {s : Heap} {bs : List Block} {fl : List Nat}
    (h : WellFormed cfg s bs fl) {a : Nat} (ha : a ∈ fl) :
    ∃ L b R, bs = L ++ b :: R ∧ b.addr = a ∧ b.free = true ∧
      extract_size s.mem a = b.size := by
  obtain ⟨b, hb, hba, hbf⟩ := h.block_of_node ha
  obtain ⟨L, R, hLR⟩ := List.append_of_mem hb
  exact ⟨L, b, R, hLR, hba, hbf, by rw [← hba]; exact h.extract_size_block hb⟩

/-- The result of `mymalloc` on a well-formed heap whose first fitting free-list node
is `a`. -/
theorem mymalloc_fit {cfg : Config} {s : Heap} {bs : List Block} {fl : List Nat}
    (h : WellFormed cfg s bs fl) (n : Nat) (h1 : 1 ≤ n) (hn : n ≤ cfg.MAX_REQUEST_SIZE)
    (fuel : Nat) (hfuel : fl.length < fuel) {pre post : List Nat} {a : Nat}
    (hfl : fl = pre ++ a :: post)
    (hpre : ∀ x ∈ pre, extract_size s.mem x < malloc_needed cfg n)
    (hfit : malloc_needed cfg n ≤ extract_size s.mem a) :
    ∃ L b R, bs = L ++ b :: R ∧ b.addr = a ∧ b.free = true ∧
      mymalloc cfg fuel s n = some (a + header_size, mymalloc_take cfg s a (malloc_needed cfg n)) ∧
      ((malloc_needed cfg n + 8 + 2 * cfg.ALIGNMENT ≤ b.size ∧
        WellFormed cfg (mymalloc_take cfg s a (malloc_needed cfg n))
          (L ++ ⟨a, malloc_needed cfg n, false⟩ ::
            ⟨a + 8 + malloc_needed cfg n, b.size - malloc_needed cfg n - 8, true⟩ :: R)
          ((a + 8 + malloc_needed cfg n) :: (pre ++ post))) ∨
       (b.size < malloc_needed cfg n + 8 + 2 * cfg.ALIGNMENT ∧
        WellFormed cfg (mymalloc_take cfg s a (malloc_needed cfg n))
          (L ++ ⟨a, b.size, false⟩ :: R) (pre ++ post))) := by
  have hamem : a ∈ fl := by rw [hfl]; simp
  obtain ⟨L, b, R, hbs, hba, hbf, hsz⟩ := h.node_block hamem
  refine ⟨L, b, R, hbs, hba, hbf, ?_, ?_⟩
  · unfold mymalloc
    rw [if_neg (by omega)]
    have hl := h.links
    unfold DList at hl
    rw [hfl] at hl
    have hb : b ∈ bs := by rw [hbs]; simp
    have hbb := h.block_bounds hb
    rw [mymalloc_scan_hit cfg _ s a post pre _ 0 fuel hl hpre hfit (by rw [hfl] at hfuel; simp at hfuel; omega)]
    rw [wadd_eq (by unfold header_size Block.stop at *; omega)]
  · subst hbs
    subst hfl
    subst hba
    have hA := h.cfg_valid.align
    have hsp := malloc_needed_spec h.cfg_valid n h1 hn
    have h8 : 8 ∣ malloc_needed cfg n := Dvd.dvd.trans hA.2.2 hsp.2.1
    exact mymalloc_take_wellFormed h hbf hsp.1 h8 (by rw [← hsz]; exact hfit)

/-! ### What `mymalloc` writes -/

theorem WellFormed.node_outside {cfg : Config} {s : Heap} {bs : List Block} {fl : List Nat}
    (h : WellFormed cfg s bs fl) {y : Nat} (hy : ¬ InFree bs y) :
    ∀ n ∈ fl, y < n ∨ n + 24 ≤ y := by
  intro n hn
  obtain ⟨b, hb, hbn, hbf⟩ := h.block_of_node hn
  have hbb := h.block_bounds hb
  by_contra hcon
  apply hy
  exact ⟨b, hb, hbf, by omega, by omega⟩

theorem take_byte {cfg : Config} {s : Heap} {L R : List Block} {b : Block}
    {pre post : List Nat}
    (h : WellFormed cfg s (L ++ b :: R) (pre ++ b.addr :: post)) (hfree : b.free = true)
    (y : Nat) (hy : ∀ n ∈ pre ++ b.addr :: post, y < n ∨ n + 24 ≤ y) :
    set_hdr (remove_freeblock s b.addr).mem b.addr
        (wadd (hdr (remove_freeblock s b.addr).mem b.addr) 1) y = s.mem y := by
  rw [take_mem h hfree]
  have ha := hy b.addr (by simp)
  unfold set_hdr
  rw [write64_other _ _ _ _ (by omega)]
  apply unlink_byte
  · rcases pred_zero_or_mem pre b.addr post with e | e
    · exact Or.inl e
    · right; have := hy _ e; omega
  · rcases succ_zero_or_mem pre b.addr post with e | e
    · exact Or.inl e
    · right; have := hy _ e; omega

theorem split_byte {cfg : Config} {s : Heap} {bs : List Block} {fl : List Nat}
    (h : WellFormed cfg s bs fl) {b : Block} (hb : b ∈ bs) {needed : Nat}
    (hfit : needed ≤ b.size) (y : Nat) (hyb : y < b.addr ∨ b.stop ≤ y)
    (hyf : y < s.first_freenode + 8 ∨ s.first_freenode + 16 ≤ y) :
    (split_block_if_poss cfg s b.addr needed).mem y = s.mem y := by
  by_cases hsplit : needed + 8 + 2 * cfg.ALIGNMENT ≤ b.size
  · rw [split_eq h hb hsplit]
    have hbb := h.block_bounds hb
    have hA := h.cfg_valid.align
    unfold Block.stop header_size at hbb hyb
    have e := add_freeblock_byte ({ s with mem := set_hdr (set_hdr s.mem b.addr
      (needed + (if b.free then 0 else 1))) (b.addr + 8 + needed) (b.size - needed - 8) } : Heap)
      (b.addr + 8 + needed) y hyf (by omega)
    rw [e]
    show set_hdr (set_hdr s.mem b.addr _) _ _ y = _
    unfold set_hdr
    rw [write64_other _ _ _ _ (by omega), write64_other _ _ _ _ (by omega)]
  · rw [split_none h hb hfit (by omega)]

/-- `mymalloc` changes no byte outside the free blocks. -/
theorem mymalloc_take_byte {cfg : Config} {s : Heap} {L R : List Block} {b : Block}
    {pre post : List Nat}
    (h : WellFormed cfg s (L ++ b :: R) (pre ++ b.addr :: post)) (hfree : b.free = true)
    {needed : Nat} (hn1 : 2 * cfg.ALIGNMENT ≤ needed) (hn2 : 8 ∣ needed)
    (hfit : needed ≤ b.size) (y : Nat) (hy : ¬ InFree (L ++ b :: R) y) :
    (mymalloc_take cfg s b.addr needed).mem y = s.mem y := by
  have hbmem : b ∈ L ++ b :: R := by simp
  have hbb := h.block_bounds hbmem
  have hA := h.cfg_valid.align
  have hnodes := h.node_outside hy
  have hyb : y < b.addr ∨ b.stop ≤ y := by
    by_contra hcon
    exact hy ⟨b, hbmem, hfree, by omega, by omega⟩
  have hfirst : y < s.first_freenode + 8 ∨ s.first_freenode + 16 ≤ y := by
    have : s.first_freenode ∈ pre ++ b.addr :: post := by
      rw [h.first_eq]
      cases pre <;> simp
    have := hnodes _ this
    omega
  have hs1 := split_byte h hbmem hfit y hyb hfirst
  by_cases hsplit : needed + 8 + 2 * cfg.ALIGNMENT ≤ b.size
  · have h1 := split_wellFormed h (by simp) hn1 hn2 hsplit
    rw [hfree] at h1
    have h2 := take_byte
      (show WellFormed cfg (split_block_if_poss cfg s b.addr needed)
        (L ++ (⟨b.addr, needed, true⟩ : Block) ::
          (⟨b.addr + 8 + needed, b.size - needed - 8, true⟩ :: R))
        (((b.addr + 8 + needed) :: pre) ++ (⟨b.addr, needed, true⟩ : Block).addr :: post)
        from h1) rfl y (by
          intro n hn
          rcases List.mem_cons.mp hn with e | e
          · unfold Block.stop header_size at hyb hbb
            rw [e]
            omega
          · exact hnodes n e)
    unfold mymalloc_take
    exact h2.trans hs1
  · have h2 := take_byte h hfree y hnodes
    unfold mymalloc_take
    rw [split_none h hbmem hfit (by omega)]
    exact h2

/-! ### What `mymalloc` and `myfree` leave alone on a well-formed heap -/

/-- A byte of an allocated block lies in no free block. -/
theorem WellFormed.not_inFree_of_allocated {cfg : Config} {s : Heap} {bs : List Block}
    {fl : List Nat} (h : WellFormed cfg s bs fl) {c : Block} (hc : c ∈ bs)
    (hcf : c.free = false) {y : Nat} (h1 : c.addr ≤ y) (h2 : y < c.stop) : ¬ InFree bs y := by
  rintro ⟨d, hd, hdf, h3, h4⟩
  by_cases e : d.addr = c.addr
  · have := h.same_block hd hc e
    rw [this, hcf] at hdf
    exact Bool.noConfusion hdf
  · have := Tiling_disjoint h.tiling d hd c hc e
    omega

/-- On a well-formed heap `mymalloc` returns, given fuel for the scan, and changes no
byte outside the free blocks: headers and payloads of allocated blocks stay as they
are. -/
theorem WellFormed.mymalloc_frame {cfg : Config} {s : Heap} {bs : List Block} {fl : List Nat}
    (h : WellFormed cfg s bs fl) (n fuel : Nat) (hfuel : fl.length < fuel) :
    ∃ p s1, mymalloc cfg fuel s n = some (p, s1) ∧
      ∀ y, ¬ InFree bs y → s1.mem y = s.mem y := by
  by_cases hbad : n > cfg.MAX_REQUEST_SIZE ∨ n = 0
  · refine ⟨0, s, ?_, fun _ _ => rfl⟩
    unfold mymalloc
    rw [if_pos hbad]
  · have h1 : 1 ≤ n := by omega
    have hn : n ≤ cfg.MAX_REQUEST_SIZE := by omega
    by_cases hex : ∃ a ∈ fl, malloc_needed cfg n ≤ extract_size s.mem a
    · obtain ⟨pre, a, post, hfl, hpre, hfit⟩ :=
        exists_first_fit (fun x => malloc_needed cfg n ≤ extract_size s.mem x) fl hex
      obtain ⟨L, b, R, hbs, hba, hbf, hm, _⟩ := mymalloc_fit h n h1 hn fuel hfuel hfl
        (fun x hx => Nat.lt_of_not_le (hpre x hx)) hfit
      subst hbs hfl hba
      have hsp := malloc_needed_spec h.cfg_valid n h1 hn
      have h8 : 8 ∣ malloc_needed cfg n := Dvd.dvd.trans h.cfg_valid.align.2.2 hsp.2.1
      have hsz : malloc_needed cfg n ≤ b.size := by
        rw [← h.extract_size_block (by simp : b ∈ L ++ b :: R)]
        exact hfit
      exact ⟨_, _, hm, fun y hy => mymalloc_take_byte h hbf hsp.1 h8 hsz y hy⟩
    · refine ⟨0, s, ?_, fun _ _ => rfl⟩
      unfold mymalloc
      rw [if_neg hbad]
      exact mymalloc_scan_miss cfg _ s fl _ 0 fuel h.links
        (fun x hx => Nat.lt_of_not_le (fun hle => hex ⟨x, hx, hle⟩)) hfuel

/-- On a well-formed heap `myfree` of the pointer of an allocated block `A` returns and
changes no payload byte of any other allocated block. -/
theorem WellFormed.myfree_frame {cfg : Config} {s : Heap} {L R : List Block} {A : Block}
    {fl : List Nat} (h : WellFormed cfg s (L ++ A :: R) fl) (hA : A.free = false)
    (fuel : Nat) (hfuel : R.length < fuel) :
    ∃ s1, myfree fuel s (A.addr + header_size) = some s1 ∧
      ∀ c ∈ L ++ A :: R, c.free = false → c.addr ≠ A.addr →
        ∀ y, c.addr + header_size ≤ y → y < c.stop → s1.mem y = s.mem y := by
  obtain ⟨s1, _, _, _, _, _, hfree, _, _, _, _, _, _, _, hfoot⟩ := myfree_spec h hA fuel hfuel
  refine ⟨s1, hfree, ?_⟩
  intro c hc hcf hne y hy1 hy2
  have hAmem : A ∈ L ++ A :: R := by simp
  have hAb := h.block_bounds hAmem
  have hdis := Tiling_disjoint h.tiling c hc A hAmem hne
  have hnot := h.not_inFree_of_allocated hc hcf (by unfold header_size at hy1; omega) hy2
  have hnodes := h.node_outside hnot
  unfold header_size at hy1
  refine hfoot y (by omega) ?_
  intro n hn
  have := hnodes n hn
  omega

/-! ### `myinit` -/

theorem myinit_eq {cfg : Config} (hc : cfg.Valid) (s0 : Heap) (start heap_size : Nat)
    (hend : start + heap_size < WORD) (hmin : 3 * cfg.ALIGNMENT ≤ heap_size) :
    myinit cfg s0 start heap_size =
      (true, { mem := set_next (set_prev (set_hdr s0.mem start (heap_size - 8)) start 0) start 0,
               segment_begin := start, segment_size := heap_size - 8,
               segment_end := start + heap_size, free_blocks := 1,
               first_freenode := start }) := by
  have hA := hc.align
  have e0 : cfg.ALIGNMENT * 3 % WORD = cfg.ALIGNMENT * 3 :=
    Nat.mod_eq_of_lt (by rw [WORD_eq]; omega)
  have e1 : wsub heap_size header_size = heap_size - 8 :=
    wsub_eq (by unfold header_size; omega) (by omega)
  have e2 : wadd start heap_size = start + heap_size := wadd_eq hend
  unfold myinit
  rw [e0, if_neg (by omega)]
  simp only []
  rw [e1, e2]

/-- After a successful `myinit` on a segment of at most 4 GiB the heap is well formed
and consists of one free block. -/
theorem myinit_wellFormed {cfg : Config} (hc : cfg.Valid) (s0 : Heap) (start heap_size : Nat)
    (hs : 0 < start) (hend : start + heap_size < WORD) (h8 : 8 ∣ heap_size)
    (hmin : 3 * cfg.ALIGNMENT ≤ heap_size) (hmax : heap_size ≤ 2 ^ 32) :
    WellFormed cfg (myinit cfg s0 start heap_size).2 [⟨start, heap_size - 8, true⟩] [start] := by
  have hA := hc.align
  rw [myinit_eq hc s0 start heap_size hend hmin]
  have hmax1 : heap_size ≤ 4294967296 := by norm_num at hmax; exact hmax
  have hW : heap_size - 8 < WORD := by rw [WORD_eq]; omega
  refine
    { cfg_valid := hc
      begin_pos := hs
      end_lt := hend
      seg_size := by show heap_size - 8 + header_size = start + heap_size - start; unfold header_size; omega
      small := by show start + heap_size - start ≤ 2 ^ 32; norm_num; omega
      tiling := ?_
      hdr_ok := ?_
      size_ok := ?_
      links := ?_
      nodup := by simp
      free_iff := ?_
      counter := rfl }
  · refine ⟨rfl, ?_⟩
    show start + header_size + (heap_size - 8) = start + heap_size
    unfold header_size
    omega
  · intro b hb
    simp only [List.mem_singleton] at hb
    subst hb
    show hdr (set_next (set_prev (set_hdr s0.mem start (heap_size - 8)) start 0) start 0) start
      = heap_size - 8 + 0
    unfold set_next set_prev
    rw [hdr_write64 _ _ _ _ (by omega), hdr_write64 _ _ _ _ (by omega),
      hdr_set_hdr _ _ _ hW]
    rfl
  · intro b hb
    simp only [List.mem_singleton] at hb
    subst hb
    refine ⟨by show 2 * cfg.ALIGNMENT ≤ heap_size - 8; omega, ?_⟩
    show 8 ∣ heap_size - 8
    omega
  · refine ⟨rfl, by omega, ?_, ?_⟩
    · show prev (set_next (set_prev (set_hdr s0.mem start (heap_size - 8)) start 0) start 0) start = 0
      unfold set_next
      rw [prev_write64 _ _ _ _ (by omega)]
      exact prev_set_prev _ _ _ (by rw [WORD_eq]; omega)
    · show next (set_next (set_prev (set_hdr s0.mem start (heap_size - 8)) start 0) start 0) start = 0
      exact next_set_next _ _ _ (by rw [WORD_eq]; omega)
  · intro a
    simp only [List.mem_singleton]
    constructor
    · intro ha
      exact ⟨_, rfl, ha.symm, rfl⟩
    · rintro ⟨b, hb, hba, _⟩
      subst hb
      exact hba.symm

/-! ### `myrealloc` -/

/-- `myrealloc` and `mymalloc` search for the same size. -/
theorem realloc_needed_eq {cfg : Config} (hc : cfg.Valid) (n : Nat) (h1 : 1 ≤ n)
    (hn : n ≤ cfg.MAX_REQUEST_SIZE) : realloc_needed cfg n = malloc_needed cfg n := by
  obtain ⟨k, hk1, hk2, hk3⟩ := hc.pow2
  have hmax := hc.max_req
  have hA : 2 ^ k ≤ 2 ^ 30 := Nat.pow_le_pow_right (by norm_num) hk2
  have hA0 : 0 < 2 ^ k := Nat.pos_pow_of_pos k (by norm_num)
  have hr := roundup_spec n k hk2 h1 (by omega)
  unfold realloc_needed malloc_needed
  rw [hk3]
  have e : 2 ^ k * 2 % WORD = 2 * 2 ^ k := by rw [WORD_eq]; omega
  rw [e]
  by_cases hlt : n < 2 * 2 ^ k
  · rw [if_pos hlt, if_pos (by omega)]
  · rw [if_neg hlt]
    by_cases heq : n = 2 * 2 ^ k
    · rw [if_pos (by omega)]
      obtain ⟨⟨t, ht⟩, h3, h4⟩ := hr
      rw [ht] at h3 h4 ⊢
      have ht3 : t < 3 := by
        by_contra hcon
        have : 2 ^ k * 3 ≤ 2 ^ k * t := Nat.mul_le_mul_left _ (by omega)
        omega
      have ht2 : 2 ≤ t := by
        by_contra hcon
        have : 2 ^ k * t ≤ 2 ^ k * 1 := Nat.mul_le_mul_left _ (by omega)
        omega
      have : t = 2 := by omega
      rw [this]
      omega
    · rw [if_neg (by omega)]

/-- The in-place loop of `myrealloc` does nothing when the block is followed by the
segment end or by an allocated block. -/
theorem myrealloc_loop_none {cfg : Config} {s : Heap} {L R : List Block} {A : Block}
    {fl : List Nat} (h : WellFormed cfg s (L ++ A :: R) fl)
    (hright : ∀ r, R.head? = some r → r.free = false) (needed fuel : Nat) (hfuel : 0 < fuel) :
    myrealloc_loop cfg A.addr needed fuel s = some (false, s) := by
  have hAmem : A ∈ L ++ A :: R := by simp
  have hmid := Tiling_mid h.tiling
  cases fuel with
  | zero => omega
  | succ f =>
    unfold myrealloc_loop
    simp only []
    rw [h.right_neighbor hAmem]
    cases R with
    | nil =>
      have : A.stop = s.segment_end := hmid.2.2.2.1
      rw [if_neg (by simp [this])]
    | cons r R0 =>
      have hra : r.addr = A.stop := hmid.2.2.2.1.1
      have hrf := hright r rfl
      rw [← hra, h.is_free_block (by simp), hrf, if_neg (by simp)]

theorem copy_bytes_inside (m : Mem) (dst src n i : Nat) (hi : i < n) :
    copy_bytes m dst src n (dst + i) = m (src + i) := by
  unfold copy_bytes
  rw [if_pos ⟨by omega, by omega⟩]
  congr 1
  omega

theorem copy_bytes_outside (m : Mem) (dst src n y : Nat) (hy : y < dst ∨ dst + n ≤ y) :
    copy_bytes m dst src n y = m y := by
  unfold copy_bytes
  rw [if_neg (by omega)]

/-- A copy between two disjoint ranges of the segment is defined. -/
theorem memcpy_eq (s : Heap) (dst src n : Nat) (h1 : s.segment_begin ≤ src)
    (h2 : src + n ≤ s.segment_end) (h3 : s.segment_begin ≤ dst) (h4 : dst + n ≤ s.segment_end)
    (h5 : src + n ≤ dst ∨ dst + n ≤ src) :
    memcpy s dst src n = some (copy_bytes s.mem dst src n) := by
  unfold memcpy
  rw [if_pos ⟨h1, h2, h3, h4, h5⟩]

/-- A copy that reads past the end of the segment has no result. -/
theorem memcpy_past_end (s : Heap) (dst src n : Nat) (h : s.segment_end < src + n) :
    memcpy s dst src n = none := by
  unfold memcpy
  rw [if_neg (by omega)]

/-! ### The sequential pass of `validate_heap` -/

theorem extract_size_le (m : Mem) (n : Nat) : extract_size m n ≤ 4294967294 := by
  rw [extract_size_eq]
  omega

/-- Once the sequential pass has counted two free blocks it reports at least two: the
counter cannot wrap, because every step advances `total_mem` by at least 8 bytes. -/
theorem validate_seq_count_ge (s : Heap) (hend : s.segment_end + 8589934592 ≤ WORD)
    (hbe : s.segment_begin ≤ s.segment_end) :
    ∀ (fuel total cnt t c : Nat), 2 ≤ cnt → 8 * cnt ≤ total + 16 →
      s.segment_begin + total < WORD →
      validate_seq s fuel total cnt = some (t, c) → 2 ≤ c := by
  intro fuel
  induction fuel with
  | zero => intro total cnt t c _ _ _ hr; simp [validate_seq] at hr
  | succ f ih =>
    intro total cnt t c h2 h8 hW hr
    unfold validate_seq at hr
    simp only [] at hr
    have e1 : wadd s.segment_begin total = s.segment_begin + total := wadd_eq hW
    rw [e1] at hr
    by_cases hlt : s.segment_begin + total < s.segment_end
    · rw [if_pos hlt] at hr
      have hsz := extract_size_le s.mem (s.segment_begin + total)
      have e2 : wadd header_size (extract_size s.mem (s.segment_begin + total)) =
          8 + extract_size s.mem (s.segment_begin + total) :=
        wadd_eq (by unfold header_size; rw [WORD_eq]; omega)
      have e3 : wadd total (8 + extract_size s.mem (s.segment_begin + total)) =
          total + (8 + extract_size s.mem (s.segment_begin + total)) :=
        wadd_eq (by rw [WORD_eq] at *; omega)
      have e4 : wadd cnt 1 = cnt + 1 := wadd_eq (by rw [WORD_eq] at *; omega)
      rw [e2, e3, e4] at hr
      by_cases hfree : is_free s.mem (s.segment_begin + total) = true
      · rw [if_pos hfree] at hr
        exact ih _ _ t c (by omega) (by omega) (by rw [WORD_eq] at *; omega) hr
      · rw [if_neg hfree] at hr
        exact ih _ _ t c (by omega) (by omega) (by rw [WORD_eq] at *; omega) hr
    · rw [if_neg hlt] at hr
      simp only [Option.some.injEq, Prod.mk.injEq] at hr
      omega

/-- If `validate_heap` returns true, the sequential count equals `free_blocks`. -/
theorem validate_heap_true_count {cfg : Config} {fuel : Nat} {s : Heap}
    (h : validate_heap cfg fuel s = some true) :
    ∃ t, validate_seq s fuel 0 0 = some (t, s.free_blocks) := by
  unfold validate_heap at h
  cases hseq : validate_seq s fuel 0 0 with
  | none => rw [hseq] at h; simp at h
  | some r =>
    obtain ⟨t, c⟩ := r
    rw [hseq] at h
    simp only [] at h
    cases hlist : validate_list s fuel s.first_freenode 0 with
    | none => rw [hlist] at h; simp at h
    | some fll =>
      rw [hlist] at h
      simp only [] at h
      by_cases h1 : fll ≠ s.free_blocks
      · rw [if_pos h1] at h; simp at h
      · rw [if_neg h1] at h
        by_cases h2 : c ≠ s.free_blocks
        · rw [if_pos h2] at h; simp at h
        · have : c = s.free_blocks := by omega
          exact ⟨t, by rw [this]⟩

/-! ### `validate_heap` accepts well-formed heaps -/

/-- The sequential pass over blocks that tile the rest of the segment. -/
theorem validate_seq_tiling {cfg : Config} {s : Heap} {bs : List Block} {fl : List Nat}
    (h : WellFormed cfg s bs fl) :
    ∀ (l : List Block) (fuel total cnt : Nat), (∀ b ∈ l, b ∈ bs) →
      Tiling (s.segment_begin + total) l s.segment_end → 24 * cnt ≤ total → l.length < fuel →
      validate_seq s fuel total cnt =
        some (s.segment_end - s.segment_begin, cnt + (l.filter (fun b => b.free)).length) := by
  intro l
  induction l with
  | nil =>
    intro fuel total cnt _ ht _ hf
    have he : s.segment_begin + total = s.segment_end := ht
    have := h.end_lt
    cases fuel with
    | zero => simp at hf
    | succ f =>
      unfold validate_seq
      simp only []
      rw [wadd_eq (by omega), if_neg (by omega)]
      simp only [List.filter_nil, List.length_nil, Nat.add_zero, Option.some.injEq, Prod.mk.injEq,
        and_true]
      omega
  | cons b l ih =>
    intro fuel total cnt hmem ht hc hf
    obtain ⟨hba, htl⟩ := ht
    have hb : b ∈ bs := hmem b (List.mem_cons_self _ _)
    have hbb := h.block_bounds hb
    have := h.end_lt
    unfold Block.stop header_size at hbb
    cases fuel with
    | zero => simp at hf
    | succ f =>
      have e1 : wadd s.segment_begin total = b.addr := by rw [wadd_eq (by omega), hba]
      have e2 : wadd header_size b.size = 8 + b.size :=
        wadd_eq (by unfold header_size; rw [WORD_eq]; omega)
      have e3 : wadd total (8 + b.size) = total + (8 + b.size) := wadd_eq (by omega)
      unfold validate_seq
      simp only []
      rw [e1, if_pos (by omega), h.extract_size_block hb, h.is_free_block hb, e2, e3]
      have htl2 : Tiling (s.segment_begin + (total + (8 + b.size))) l s.segment_end := by
        have e : s.segment_begin + (total + (8 + b.size)) = b.stop := by
          unfold Block.stop header_size
          omega
        rw [e]
        exact htl
      cases hfree : b.free
      · simp only [Bool.false_eq_true, if_false]
        rw [ih f _ cnt (fun c hc => hmem c (List.mem_cons_of_mem _ hc)) htl2 (by omega)
          (by simp at hf; omega)]
        simp [List.filter_cons, hfree]
      · simp only [if_true]
        rw [wadd_eq (by rw [WORD_eq] at *; omega),
          ih f _ (cnt + 1) (fun c hc => hmem c (List.mem_cons_of_mem _ hc)) htl2 (by omega)
            (by simp at hf; omega)]
        simp [List.filter_cons, hfree]
        omega

/-- The list pass over a well-linked list of free nodes. -/
theorem validate_list_links {s : Heap} :
    ∀ (l : List Nat) (fuel cur p cnt : Nat), DSeg s.mem cur p l 0 →
      (∀ x ∈ l, is_free s.mem x = true) → cnt + l.length < WORD → l.length < fuel →
      validate_list s fuel cur cnt = some (cnt + l.length) := by
  intro l
  induction l with
  | nil =>
    intro fuel cur p cnt hd _ _ hf
    have hc : cur = 0 := hd
    cases fuel with
    | zero => simp at hf
    | succ f =>
      unfold validate_list
      simp [hc]
  | cons n l ih =>
    intro fuel cur p cnt hd hfree hW hf
    obtain ⟨h1, h2, _, h4⟩ := hd
    subst h1
    cases fuel with
    | zero => simp at hf
    | succ f =>
      unfold validate_list
      simp only [List.length_cons] at hW hf ⊢
      rw [if_pos h2, if_pos (hfree cur (List.mem_cons_self _ _)), wadd_eq (by omega),
        ih f _ cur (cnt + 1) h4 (fun x hx => hfree x (List.mem_cons_of_mem _ hx)) (by omega)
          (by omega)]
      congr 1
      omega

/-- In a well-formed heap the number of free blocks is the length of the free list. -/
theorem WellFormed.free_count {cfg : Config} {s : Heap} {bs : List Block} {fl : List Nat}
    (h : WellFormed cfg s bs fl) : (bs.filter (fun b => b.free)).length = fl.length := by
  have hp := Tiling_pairwise h.tiling
  have hnd : (bs.map (fun b => b.addr)).Nodup := by
    unfold List.Nodup
    rw [List.pairwise_map]
    refine List.Pairwise.imp_of_mem ?_ hp
    intro b c hb _ hbc
    have := h.block_bounds hb
    omega
  have hnd2 : ((bs.filter (fun b => b.free)).map (fun b => b.addr)).Nodup :=
    (List.Sublist.map _ (List.filter_sublist _)).nodup hnd
  have hperm : ((bs.filter (fun b => b.free)).map (fun b => b.addr)).Perm fl := by
    rw [List.perm_ext_iff_of_nodup hnd2 h.nodup]
    intro a
    rw [h.free_iff a]
    simp only [List.mem_map, List.mem_filter]
    constructor
    · rintro ⟨b, ⟨hb, hf⟩, hba⟩
      exact ⟨b, hb, hba, hf⟩
    · rintro ⟨b, hb, hba, hf⟩
      exact ⟨b, ⟨hb, hf⟩, hba⟩
  have := hperm.length_eq
  rw [List.length_map] at this
  exact this

/-- A well-formed heap whose size is a multiple of `ALIGNMENT` passes `validate_heap`,
given fuel for the two passes. -/
theorem WellFormed.validate {cfg : Config} {s : Heap} {bs : List Block} {fl : List Nat}
    (h : WellFormed cfg s bs fl) (halign : cfg.ALIGNMENT ∣ s.segment_end - s.segment_begin)
    (fuel : Nat) (hf1 : bs.length < fuel) (hf2 : fl.length < fuel) :
    validate_heap cfg fuel s = some true := by
  have hseq := validate_seq_tiling h bs fuel 0 0 (fun b hb => hb) h.tiling (by omega) hf1
  have hfree : ∀ x ∈ fl, is_free s.mem x = true := by
    intro x hx
    obtain ⟨b, hb, hbx, hbf⟩ := h.block_of_node hx
    rw [← hbx, h.is_free_block hb, hbf]
  have hlen := h.length_lt
  have hlist := validate_list_links fl fuel s.first_freenode 0 0 h.links hfree (by omega) hf2
  have hsz := h.seg_size
  have hend := h.end_lt
  unfold validate_heap
  rw [hseq, hlist]
  simp only [Nat.zero_add]
  rw [h.free_count, h.counter]
  have e : wadd s.segment_size header_size = s.segment_end - s.segment_begin := by
    rw [wadd_eq (by omega)]
    exact hsz
  rw [e, if_neg (by simp), if_neg (by simp), if_neg (by simp [Nat.mod_eq_zero_of_dvd halign]),
    if_neg (by simp)]

/-- After `myinit` on a segment of at most 4 GiB whose size is a multiple of `ALIGNMENT`
and of 8, `validate_heap` returns true: the heap is one free block of
`heap_size - header_size` bytes, alone on the free list, and `free_blocks` is 1. -/
theorem myinit_validate_small {cfg : Config} (hc : cfg.Valid) (s0 : Heap)
    (start heap_size : Nat) (hs : 0 < start) (hend : start + heap_size < WORD)
    (h8 : 8 ∣ heap_size) (hA : cfg.ALIGNMENT ∣ heap_size)
    (hmin : 3 * cfg.ALIGNMENT ≤ heap_size) (hmax : heap_size ≤ 2 ^ 32)
    (fuel : Nat) (hfuel : 1 < fuel) :
    (myinit cfg s0 start heap_size).1 = true ∧
    WellFormed cfg (myinit cfg s0 start heap_size).2 [⟨start, heap_size - 8, true⟩] [start] ∧
    (myinit cfg s0 start heap_size).2.free_blocks = 1 ∧
    validate_heap cfg fuel (myinit cfg s0 start heap_size).2 = some true := by
  have hwf := myinit_wellFormed hc s0 start heap_size hs hend h8 hmin hmax
  refine ⟨by rw [myinit_eq hc s0 start heap_size hend hmin], hwf, hwf.counter, ?_⟩
  apply hwf.validate _ fuel (by simpa using hfuel) (by simpa using hfuel)
  rw [myinit_eq hc s0 start heap_size hend hmin]
  show cfg.ALIGNMENT ∣ start + heap_size - start
  rw [Nat.add_sub_cancel_left]
  exact hA

/-! ### `dump_heap` on well-formed heaps -/

/-- The walk of `dump_heap` over blocks that tile the rest of the segment reports each
of them with its status and size. -/
theorem dump_heap_walk_tiling {cfg : Config} {s : Heap} {bs : List Block} {fl : List Nat}
    (h : WellFormed cfg s bs fl) :
    ∀ (l : List Block) (fuel a : Nat), (∀ b ∈ l, b ∈ bs) → Tiling a l s.segment_end →
      l.length < fuel →
      dump_heap_walk s fuel a = some (l.map (fun b => (b.free, b.size))) := by
  intro l
  induction l with
  | nil =>
    intro fuel a _ ht hf
    have he : a = s.segment_end := ht
    cases fuel with
    | zero => simp at hf
    | succ f =>
      unfold dump_heap_walk
      rw [if_neg (by omega)]
      rfl
  | cons b l ih =>
    intro fuel a hmem ht hf
    obtain ⟨hba, htl⟩ := ht
    subst hba
    have hb : b ∈ bs := hmem b (List.mem_cons_self _ _)
    have hbb := h.block_bounds hb
    unfold Block.stop header_size at hbb
    cases fuel with
    | zero => simp at hf
    | succ f =>
      have e1 : wadd b.addr header_size = b.addr + 8 :=
        wadd_eq (by unfold header_size; omega)
      have e2 : wadd (b.addr + 8) b.size = b.stop := by
        unfold Block.stop header_size
        exact wadd_eq (by omega)
      unfold dump_heap_walk
      rw [if_pos (by omega), h.extract_size_block hb, h.is_free_block hb, e1, e2,
        ih f b.stop (fun c hc => hmem c (List.mem_cons_of_mem _ hc)) htl
          (by simp at hf; omega)]
      rfl

/-- On a well-formed heap `dump_heap` reports exactly the blocks of the heap, in address
order. -/
theorem WellFormed.dump {cfg : Config} {s : Heap} {bs : List Block} {fl : List Nat}
    (h : WellFormed cfg s bs fl) (fuel : Nat) (hf : bs.length < fuel) :
    dump_heap fuel s = some (bs.map (fun b => (b.free, b.size))) :=
  dump_heap_walk_tiling h bs fuel s.segment_begin (fun _ hb => hb) h.tiling hf

/-! ## The claims -/

theorem cfg8_valid : cfg8.Valid :=
  ⟨⟨3, by decide, by decide, rfl⟩, by decide⟩

theorem cfg16_valid : cfg16.Valid :=
  ⟨⟨4, by decide, by decide, rfl⟩, by decide⟩

/-- The heap right after `myinit(4096, 48)` with `ALIGNMENT = 8` is well formed: one
free block of 40 bytes. -/
theorem init48_wellFormed :
    WellFormed cfg8 (myinit cfg8 heap0 4096 48).2 [⟨4096, 40, true⟩] [4096] :=
  myinit_wellFormed cfg8_valid heap0 4096 48 (by decide) (by decide) (by decide) (by decide)
    (by decide)

/-- C3: on a well-formed heap and for a request `1 ≤ n ≤ MAX_REQUEST_SIZE`, with
`needed = max (2 * ALIGNMENT) (roundup n ALIGNMENT)`, `mymalloc` returns (given fuel for
the scan) and the result is `NULL` exactly when no free-list node has size `≥ needed`;
otherwise the free list splits as `pre ++ a :: post` with `a` the first node of size
`≥ needed`, the result is `a + header_size`, block `a` is marked allocated and the free
list of the new state does not contain `a`. -/
theorem mymalloc_first_fit {cfg : Config} {s : Heap} {bs : List Block} {fl : List Nat}
    (h : WellFormed cfg s bs fl) (n : Nat) (h1 : 1 ≤ n) (hn : n ≤ cfg.MAX_REQUEST_SIZE)
    (fuel : Nat) (hfuel : fl.length < fuel) :
    ((∃ s1, mymalloc cfg fuel s n = some (0, s1)) ↔
        ∀ a ∈ fl, extract_size s.mem a < max (2 * cfg.ALIGNMENT) (roundup n cfg.ALIGNMENT)) ∧
    ((∃ a ∈ fl, max (2 * cfg.ALIGNMENT) (roundup n cfg.ALIGNMENT) ≤ extract_size s.mem a) →
      ∃ pre a post s1 fl1, fl = pre ++ a :: post ∧
        (∀ x ∈ pre, extract_size s.mem x < max (2 * cfg.ALIGNMENT) (roundup n cfg.ALIGNMENT)) ∧
        max (2 * cfg.ALIGNMENT) (roundup n cfg.ALIGNMENT) ≤ extract_size s.mem a ∧
        mymalloc cfg fuel s n = some (a + header_size, s1) ∧
        is_free s.mem a = true ∧ is_free s1.mem a = false ∧
        DList s1.mem s1.first_freenode fl1 ∧ a ∉ fl1) := by
  rw [← malloc_needed_eq_max h.cfg_valid n h1 hn]
  have hit : (∃ a ∈ fl, malloc_needed cfg n ≤ extract_size s.mem a) →
      ∃ pre a post s1 fl1, fl = pre ++ a :: post ∧
        (∀ x ∈ pre, extract_size s.mem x < malloc_needed cfg n) ∧
        malloc_needed cfg n ≤ extract_size s.mem a ∧
        mymalloc cfg fuel s n = some (a + header_size, s1) ∧
        is_free s.mem a = true ∧ is_free s1.mem a = false ∧
        DList s1.mem s1.first_freenode fl1 ∧ a ∉ fl1 := by
    intro hex
    obtain ⟨pre, a, post, hfl, hpre, hfit⟩ :=
      exists_first_fit (fun x => malloc_needed cfg n ≤ extract_size s.mem x) fl hex
    have hpre1 : ∀ x ∈ pre, extract_size s.mem x < malloc_needed cfg n := by
      intro x hx
      have := hpre x hx
      omega
    obtain ⟨L, b, R, hbs, hba, hbf, hres, hwf⟩ := mymalloc_fit h n h1 hn fuel hfuel hfl hpre1 hfit
    have hb : b ∈ bs := by rw [hbs]; simp
    have hfree0 : is_free s.mem a = true := by rw [← hba, h.is_free_block hb]; exact hbf
    have hnd := h.nodup
    rw [hfl] at hnd
    have hane : a ∉ pre ++ post := by
      intro ha
      rcases List.mem_append.mp ha with ha | ha
      · exact ne_of_nodup_append hnd ha (List.mem_cons_self _ _) rfl
      · exact ne_of_nodup_cons (List.nodup_append.mp hnd).2.1 ha rfl
    rcases hwf with ⟨_, hwf⟩ | ⟨_, hwf⟩
    · refine ⟨pre, a, post, _, _, hfl, hpre1, hfit, hres, hfree0, ?_, hwf.links, ?_⟩
      · have := hwf.is_free_block
          (show (⟨a, malloc_needed cfg n, false⟩ : Block) ∈ _ by simp)
        exact this
      · intro ha
        rcases List.mem_cons.mp ha with ha | ha
        · omega
        · exact hane ha
    · refine ⟨pre, a, post, _, _, hfl, hpre1, hfit, hres, hfree0, ?_, hwf.links, hane⟩
      have := hwf.is_free_block (show (⟨a, b.size, false⟩ : Block) ∈ _ by simp)
      exact this
  refine ⟨⟨?_, ?_⟩, hit⟩
  · rintro ⟨s1, hs1⟩ a ha
    by_contra hcon
    obtain ⟨pre, a1, post, s2, fl1, hfl, _, _, hres, _⟩ := hit ⟨a, ha, by omega⟩
    rw [hres] at hs1
    simp only [Option.some.injEq, Prod.mk.injEq] at hs1
    unfold header_size at hs1
    omega
  · intro hall
    refine ⟨s, ?_⟩
    unfold mymalloc
    rw [if_neg (by omega)]
    exact mymalloc_scan_miss cfg _ s fl _ 0 fuel h.links hall hfuel

/-- Witness for C3: on the heap initialised by `myinit(4096, 48)`, `mymalloc(16)` returns
the payload of the block at 4096 and marks it allocated. -/
theorem mymalloc_first_fit_witness :
    ∃ s1, mymalloc cfg8 2 (myinit cfg8 heap0 4096 48).2 16 = some (4104, s1) ∧
      is_free s1.mem 4096 = false := by
  obtain ⟨pre, a, post, s1, fl1, hfl, _, _, hres, _, hfree, _⟩ :=
    (mymalloc_first_fit init48_wellFormed 16 (by decide) (by decide) 2 (by decide)).2
      ⟨4096, by simp, by decide⟩
  have ha : a = 4096 := by
    have : a ∈ [4096] := by rw [hfl]; simp
    simpa using this
  subst ha
  exact ⟨s1, hres, hfree⟩

/-- C4: `mymalloc(0)` and `mymalloc(n)` with `n > MAX_REQUEST_SIZE` return `NULL` and
the state they were called in; on a well-formed heap every call of `mymalloc` that
returns `NULL` returns the state unchanged, and a valid request that no free-list node
can satisfy does return `NULL` (given fuel for the scan). -/
theorem mymalloc_null_unchanged (cfg : Config) (s : Heap) :
    (∀ fuel n, n = 0 ∨ cfg.MAX_REQUEST_SIZE < n → mymalloc cfg fuel s n = some (0, s)) ∧
    (∀ bs fl, WellFormed cfg s bs fl →
      (∀ fuel n s1, mymalloc cfg fuel s n = some (0, s1) → s1 = s) ∧
      (∀ fuel n, 1 ≤ n → n ≤ cfg.MAX_REQUEST_SIZE → fl.length < fuel →
        (∀ a ∈ fl, extract_size s.mem a < malloc_needed cfg n) →
        mymalloc cfg fuel s n = some (0, s))) := by
  refine ⟨?_, ?_⟩
  · intro fuel n hn
    unfold mymalloc
    rw [if_pos (by omega)]
  · intro bs fl h
    refine ⟨?_, ?_⟩
    · intro fuel n s1 hres
      unfold mymalloc at hres
      by_cases hbad : n > cfg.MAX_REQUEST_SIZE ∨ n = 0
      · rw [if_pos hbad] at hres
        simp only [Option.some.injEq, Prod.mk.injEq, true_and] at hres
        exact hres.symm
      · rw [if_neg hbad] at hres
        refine mymalloc_scan_null cfg _ s fl _ 0 fuel s1 h.links ?_ hres
        intro x hx
        obtain ⟨b, hb, hbx, _⟩ := h.block_of_node hx
        have := h.block_bounds hb
        unfold Block.stop header_size at this
        omega
    · intro fuel n h1 hn hfuel hall
      unfold mymalloc
      rw [if_neg (by omega)]
      exact mymalloc_scan_miss cfg _ s fl _ 0 fuel h.links hall hfuel

/-- Witness for C4: on the heap initialised by `myinit(4096, 48)`, `mymalloc(0)` and
`mymalloc(100)` (which no block can hold) return `NULL` and leave the state as it was. -/
theorem mymalloc_null_unchanged_witness :
    mymalloc cfg8 2 (myinit cfg8 heap0 4096 48).2 0 = some (0, (myinit cfg8 heap0 4096 48).2) ∧
    mymalloc cfg8 2 (myinit cfg8 heap0 4096 48).2 100
      = some (0, (myinit cfg8 heap0 4096 48).2) :=
  ⟨(mymalloc_null_unchanged cfg8 (myinit cfg8 heap0 4096 48).2).1 2 0 (Or.inl rfl),
   ((mymalloc_null_unchanged cfg8 (myinit cfg8 heap0 4096 48).2).2 _ _ init48_wellFormed).2
      2 100 (by decide) (by decide) (by decide) (by decide)⟩

/-- C1 (fails on the code): `add_freeblock` does not clear the link fields of a node it
pushes onto an empty free list.  (1), (2): a client allocates the whole heap, stores the
address of a later word of its own payload in the second payload word (where `next`
lives once the block is free) and calls `myfree`; the list pass of `validate_heap` then
follows that word, counts two free nodes against `free_blocks = 1`, and returns false
(`ALIGNMENT = 8`, 56-byte heap; `ALIGNMENT = 16`, 64-byte heap).  (3): without any client
store, after `a = mymalloc; b = mymalloc; myfree(a); myfree(b); mymalloc; mymalloc;
myfree(b); myfree(a)` the head of the free list is its own `next`, so the list pass
never ends (here it uses up its fuel). -/
theorem validate_heap_false_after_free :
    (session cfg8 56 [Call.malloc 48, Call.store 4112 4120, Call.free 4104]).map
        (fun r => (r.1, validate_heap cfg8 8 r.2)) = some ([4104, 0, 0], some false) ∧
    (session cfg16 64 [Call.malloc 48, Call.store 4112 4120, Call.free 4104]).map
        (fun r => (r.1, validate_heap cfg16 8 r.2)) = some ([4104, 0, 0], some false) ∧
    (session cfg8 48 [Call.malloc 16, Call.malloc 16, Call.free 4104, Call.free 4128,
        Call.malloc 16, Call.malloc 16, Call.free 4128, Call.free 4104]).map
        (fun r => (r.1, r.2.first_freenode, next r.2.mem r.2.first_freenode,
          validate_heap cfg8 8 r.2))
      = some ([4104, 4128, 0, 0, 4128, 4104, 0, 0], 4096, 4096, none) := by
  refine ⟨?_, ?_, ?_⟩ <;> decide

/-- C2 (fails on the code): without any client store, after
`a = mymalloc; b = mymalloc; myfree(a); myfree(b); mymalloc; mymalloc; myfree(b)` the
free list is `b`'s block followed by `a`'s block (a stale `next` that `add_freeblock`
left in place when it pushed onto the empty list), although `a`'s block is allocated:
its pointer 4104 was returned by the last `mymalloc` and not freed since. -/
theorem allocated_block_on_free_list :
    (session cfg8 48 [Call.malloc 16, Call.malloc 16, Call.free 4104, Call.free 4128,
        Call.malloc 16, Call.malloc 16, Call.free 4128]).map
        (fun r => (r.1, r.2.first_freenode, next r.2.mem r.2.first_freenode,
          is_free r.2.mem 4096))
      = some ([4104, 4128, 0, 0, 4128, 4104, 0], 4120, 4096, false) ∧
    (session cfg16 80 [Call.malloc 32, Call.malloc 32, Call.free 4104, Call.free 4144,
        Call.malloc 32, Call.malloc 32, Call.free 4144]).map
        (fun r => (r.1, r.2.first_freenode, next r.2.mem r.2.first_freenode,
          is_free r.2.mem 4096))
      = some ([4104, 4144, 0, 0, 4144, 4104, 0], 4136, 4096, false) := by
  constructor <;> decide

/-- C5 (fails on the code): the move path of `myrealloc` does not test the result of
`mymalloc`.  With two allocated blocks filling the heap (the old block at 4096 is
allocated), `myrealloc(a, 100)` finds no room: in place nothing can be merged, and
`mymalloc(100)` returns `NULL`.  The code goes on with `memcpy(NULL, a, 100)`, a store
outside the segment, so the call has no defined result; it does not return `NULL` with
the old block intact.  Where the store through `NULL` lands (`copy_bytes`), the
statement that follows, `myfree(a)`, clears the status bit of the old block, makes it
the head of the free list and sets `free_blocks` to 1, and `NULL` is returned.  (1),
(3) list: the pointers returned by the two `mymalloc`, `is_free` of the old block, the
result of `mymalloc(100)`, the exit of the in-place loop, and whether `memcpy` and
`myrealloc` have a result; (2), (4) give the state `myfree` leaves after a copy that
landed. -/
theorem myrealloc_failure_frees_old_block :
    (session cfg8 48 [Call.malloc 16, Call.malloc 16]).map
        (fun r => (r.1, is_free r.2.mem 4096, (mymalloc cfg8 8 r.2 100).map (fun x => x.1),
          (myrealloc_loop cfg8 4096 (realloc_needed cfg8 100) 8 r.2).map (fun x => x.1),
          (memcpy r.2 0 4104 100).isSome, (myrealloc cfg8 8 r.2 4104 100).isSome))
      = some ([4104, 4128], false, some 0, some false, false, false) ∧
    (session cfg8 48 [Call.malloc 16, Call.malloc 16]).map
        (fun r => (myfree 8 { r.2 with mem := copy_bytes r.2.mem 0 4104 100 } 4104).map
          (fun s1 => (is_free s1.mem 4096, s1.first_freenode, s1.free_blocks)))
      = some (some (true, 4096, 1)) ∧
    (session cfg16 80 [Call.malloc 32, Call.malloc 32]).map
        (fun r => (r.1, is_free r.2.mem 4096, (mymalloc cfg16 8 r.2 100).map (fun x => x.1),
          (myrealloc_loop cfg16 4096 (realloc_needed cfg16 100) 8 r.2).map (fun x => x.1),
          (memcpy r.2 0 4104 100).isSome, (myrealloc cfg16 8 r.2 4104 100).isSome))
      = some ([4104, 4144], false, some 0, some false, false, false) ∧
    (session cfg16 80 [Call.malloc 32, Call.malloc 32]).map
        (fun r => (myfree 8 { r.2 with mem := copy_bytes r.2.mem 0 4104 100 } 4104).map
          (fun s1 => (is_free s1.mem 4096, s1.first_freenode, s1.free_blocks)))
      = some (some (true, 4096, 1)) := by
  refine ⟨?_, ?_, ?_, ?_⟩ <;> decide

/-- C7 (fails on the code): allocate `A`, then `B` (the rest of the heap), store one
word into `B`'s payload, release `B`, and grow `A` in place.  `myrealloc` returns `A`
and the blocks are right (`A` of the rounded size, then one free block), but the split
pushed the remainder onto the empty free list without clearing its `next` field, which
holds the word the client stored: `validate_heap` returns false. -/
theorem validate_heap_false_after_inplace_growth :
    (session cfg8 80 [Call.malloc 16, Call.malloc 48, Call.store 4144 4152, Call.free 4128,
        Call.realloc 4104 24]).map
        (fun r => (r.1, dump_heap 8 r.2, validate_heap cfg8 8 r.2))
      = some ([4104, 4128, 0, 0, 4104], some [(false, 24), (true, 40)], some false) ∧
    (session cfg16 128 [Call.malloc 32, Call.malloc 80, Call.store 4168 4176, Call.free 4144,
        Call.realloc 4104 48]).map
        (fun r => (r.1, dump_heap 8 r.2, validate_heap cfg16 8 r.2))
      = some ([4104, 4144, 0, 0, 4104], some [(false, 48), (true, 64)], some false) := by
  constructor <;> decide

/-- C9 (fails on the code): `p = mymalloc(48)` takes the only free block, the client
stores a word into the payload, `myfree(p)` pushes the block onto the empty list without
clearing `next`, and `mymalloc(48)` returns `p` again but makes the stored word the new
`first_freenode`: `validate_heap` returns false. -/
theorem validate_heap_false_after_round_trip :
    (session cfg8 56 [Call.malloc 48, Call.store 4112 4120, Call.free 4104,
        Call.malloc 48]).map
        (fun r => (r.1, r.2.first_freenode, validate_heap cfg8 8 r.2))
      = some ([4104, 0, 0, 4104], 4120, some false) ∧
    (session cfg16 64 [Call.malloc 48, Call.store 4112 4120, Call.free 4104,
        Call.malloc 48]).map
        (fun r => (r.1, r.2.first_freenode, validate_heap cfg16 8 r.2))
      = some ([4104, 0, 0, 4104], 4120, some false) := by
  constructor <;> decide

/-- C8 (counterexample): three adjacent 16-byte blocks `A`, `B`, `C` fill a 72-byte heap;
after releasing `A`, then `C`, then `B` the sequential walk finds two free blocks, `A`
(16 bytes) and the merger of `B` and `C` (40 bytes), adjacent and both free, and
`validate_heap` accepts that heap. -/
theorem two_adjacent_free_blocks :
    (session cfg8 72 [Call.malloc 16, Call.malloc 16, Call.malloc 16, Call.free 4104,
        Call.free 4152, Call.free 4128]).map
        (fun r => (r.1, dump_heap 8 r.2, validate_heap cfg8 8 r.2))
      = some ([4104, 4128, 4152, 0, 0, 0], some [(true, 16), (true, 40)], some true) := by
  decide

/-- C10 (fails on the code): `extract_size` masks the header with `0xfffffffe`, which
drops every size bit from bit 32 up.  For `heap_size = 2 ^ 32 + 16` (a multiple of both
8 and 16) `myinit` returns true, but the one block it wrote decodes to size 8 instead of
`heap_size - header_size`; the sequential pass of `validate_heap` therefore goes on
inside the block, takes the zeroed `next` field for a second, free, header, and ends
with at least two free blocks against `free_blocks = 1`: whatever the fuel,
`validate_heap` does not return true. -/
theorem myinit_large_heap_not_valid :
    (myinit cfg8 heap0 4096 (2 ^ 32 + 16)).1 = true ∧
    hdr (myinit cfg8 heap0 4096 (2 ^ 32 + 16)).2.mem 4096 = 2 ^ 32 + 8 ∧
    extract_size (myinit cfg8 heap0 4096 (2 ^ 32 + 16)).2.mem 4096 = 8 ∧
    (∀ fuel, validate_heap cfg8 fuel (myinit cfg8 heap0 4096 (2 ^ 32 + 16)).2 ≠ some true) ∧
    (myinit cfg16 heap0 4096 (2 ^ 32 + 16)).1 = true ∧
    (∀ fuel, validate_heap cfg16 fuel (myinit cfg16 heap0 4096 (2 ^ 32 + 16)).2 ≠ some true) := by
  have key : ∀ cfg : Config, (myinit cfg heap0 4096 (2 ^ 32 + 16)).1 = true →
      ∀ fuel, validate_heap cfg fuel (myinit cfg heap0 4096 (2 ^ 32 + 16)).2 ≠ some true := by
    intro cfg hinit fuel hv
    obtain ⟨t, ht⟩ := validate_heap_true_count hv
    have hs : (myinit cfg heap0 4096 (2 ^ 32 + 16)).2 =
        (myinit cfg8 heap0 4096 (2 ^ 32 + 16)).2 := by
      unfold myinit at hinit ⊢
      by_cases hlt : 2 ^ 32 + 16 < cfg.ALIGNMENT * 3 % WORD
      · rw [if_pos hlt] at hinit
        simp at hinit
      · rw [if_neg hlt]
        rfl
    rw [hs] at ht
    have hfb : (myinit cfg8 heap0 4096 (2 ^ 32 + 16)).2.free_blocks = 1 := by decide
    rw [hfb] at ht
    cases fuel with
    | zero => simp [validate_seq] at ht
    | succ f1 =>
      cases f1 with
      | zero =>
        have : validate_seq (myinit cfg8 heap0 4096 (2 ^ 32 + 16)).2 1 0 0 = none := by decide
        rw [this] at ht
        simp at ht
      | succ f2 =>
        have hstep : validate_seq (myinit cfg8 heap0 4096 (2 ^ 32 + 16)).2 (f2 + 1 + 1) 0 0 =
            validate_seq (myinit cfg8 heap0 4096 (2 ^ 32 + 16)).2 f2 24 2 := by
          have e1 : validate_seq (myinit cfg8 heap0 4096 (2 ^ 32 + 16)).2 (f2 + 1 + 1) 0 0 =
              validate_seq (myinit cfg8 heap0 4096 (2 ^ 32 + 16)).2 (f2 + 1) 16 1 := by
            rw [validate_seq]
            have c1 : wadd (myinit cfg8 heap0 4096 (2 ^ 32 + 16)).2.segment_begin 0 = 4096 := by
              decide
            have c2 : (4096 < (myinit cfg8 heap0 4096 (2 ^ 32 + 16)).2.segment_end) = True := by
              decide
            have c3 : is_free (myinit cfg8 heap0 4096 (2 ^ 32 + 16)).2.mem 4096 = true := by
              decide
            have c4 : wadd 0 (wadd header_size
                (extract_size (myinit cfg8 heap0 4096 (2 ^ 32 + 16)).2.mem 4096)) = 16 := by
              decide
            have c5 : wadd 0 1 = 1 := by decide
            simp only [c1, c2, c3, c4, c5, if_true]
          have e2 : validate_seq (myinit cfg8 heap0 4096 (2 ^ 32 + 16)).2 (f2 + 1) 16 1 =
              validate_seq (myinit cfg8 heap0 4096 (2 ^ 32 + 16)).2 f2 24 2 := by
            rw [validate_seq]
            have c1 : wadd (myinit cfg8 heap0 4096 (2 ^ 32 + 16)).2.segment_begin 16 = 4112 := by
              decide
            have c2 : (4112 < (myinit cfg8 heap0 4096 (2 ^ 32 + 16)).2.segment_end) = True := by
              decide
            have c3 : is_free (myinit cfg8 heap0 4096 (2 ^ 32 + 16)).2.mem 4112 = true := by
              decide
            have c4 : wadd 16 (wadd header_size
                (extract_size (myinit cfg8 heap0 4096 (2 ^ 32 + 16)).2.mem 4112)) = 24 := by
              decide
            have c5 : wadd 1 1 = 2 := by decide
            simp only [c1, c2, c3, c4, c5, if_true]
          rw [e1, e2]
        rw [hstep] at ht
        have := validate_seq_count_ge (myinit cfg8 heap0 4096 (2 ^ 32 + 16)).2 (by decide)
          (by decide) f2 24 2 t 1 (by decide) (by decide) (by decide) ht
        omega
  refine ⟨by decide, by decide, by decide, key cfg8 (by decide), by decide, key cfg16 (by decide)⟩

/-- The state `heap_two_allocs` is the one the three calls produce. -/
theorem heap_two_allocs_eq :
    session cfg8 96 [Call.malloc 16, Call.malloc 16] = some ([4104, 4128], heap_two_allocs) := by
  rfl

theorem heap_two_allocs_wellFormed :
    WellFormed cfg8 heap_two_allocs
      [⟨4096, 16, false⟩, ⟨4120, 16, false⟩, ⟨4144, 40, true⟩] [4144] := by
  refine
    { cfg_valid := cfg8_valid
      begin_pos := by decide
      end_lt := by decide
      seg_size := by decide
      small := by decide
      tiling := ⟨rfl, rfl, rfl, rfl⟩
      hdr_ok := by decide
      size_ok := by decide
      links := ⟨rfl, by decide, by decide, (by decide : next heap_two_allocs.mem 4144 = 0)⟩
      nodup := by decide
      free_iff := ?_
      counter := by decide }
  intro a
  constructor
  · intro ha
    have e : a = 4144 := List.mem_singleton.mp ha
    exact ⟨⟨4144, 40, true⟩,
      List.mem_cons_of_mem _ (List.mem_cons_of_mem _ (List.mem_singleton.mpr rfl)), e.symm, rfl⟩
  · rintro ⟨b, hb, hba, hbf⟩
    simp only [List.mem_cons, List.mem_singleton, List.not_mem_nil, or_false] at hb
    rcases hb with e | e | e
    · rw [e] at hbf; exact Bool.noConfusion hbf
    · rw [e] at hbf; exact Bool.noConfusion hbf
    · rw [e] at hba; exact List.mem_singleton.mpr hba.symm

/-- The state `heap_three_allocs` is the one the four calls produce. -/
theorem heap_three_allocs_eq :
    session cfg8 120 [Call.malloc 16, Call.malloc 16, Call.malloc 16]
      = some ([4104, 4128, 4152], heap_three_allocs) := by
  rfl

theorem heap_three_allocs_wellFormed :
    WellFormed cfg8 heap_three_allocs
      [⟨4096, 16, false⟩, ⟨4120, 16, false⟩, ⟨4144, 16, false⟩, ⟨4168, 40, true⟩] [4168] := by
  refine
    { cfg_valid := cfg8_valid
      begin_pos := by decide
      end_lt := by decide
      seg_size := by decide
      small := by decide
      tiling := ⟨rfl, rfl, rfl, rfl, rfl⟩
      hdr_ok := by decide
      size_ok := by decide
      links := ⟨rfl, by decide, by decide, (by decide : next heap_three_allocs.mem 4168 = 0)⟩
      nodup := by decide
      free_iff := ?_
      counter := by decide }
  intro a
  constructor
  · intro ha
    have e : a = 4168 := List.mem_singleton.mp ha
    exact ⟨⟨4168, 40, true⟩,
      List.mem_cons_of_mem _ (List.mem_cons_of_mem _ (List.mem_cons_of_mem _
        (List.mem_singleton.mpr rfl))), e.symm, rfl⟩
  · rintro ⟨b, hb, hba, hbf⟩
    simp only [List.mem_cons, List.mem_singleton, List.not_mem_nil, or_false] at hb
    rcases hb with e | e | e | e
    · rw [e] at hbf; exact Bool.noConfusion hbf
    · rw [e] at hbf; exact Bool.noConfusion hbf
    · rw [e] at hbf; exact Bool.noConfusion hbf
    · rw [e] at hba; exact List.mem_singleton.mpr hba.symm

/-! ## The move path of `myrealloc` -/

theorem split_block_if_poss_segment (cfg : Config) (s : Heap) (c needed : Nat) :
    (split_block_if_poss cfg s c needed).segment_begin = s.segment_begin ∧
    (split_block_if_poss cfg s c needed).segment_end = s.segment_end := by
  unfold split_block_if_poss
  split
  · exact ⟨(add_freeblock_segment _ _).1, (add_freeblock_segment _ _).2.1⟩
  · exact ⟨rfl, rfl⟩

theorem mymalloc_take_segment (cfg : Config) (s : Heap) (c needed : Nat) :
    (mymalloc_take cfg s c needed).segment_begin = s.segment_begin ∧
    (mymalloc_take cfg s c needed).segment_end = s.segment_end :=
  split_block_if_poss_segment cfg s c needed

/-- The move path where its copy is defined.  On a well-formed heap, for an allocated
block `A` followed by the segment end or by an allocated block, and a request `n` larger
than `A`'s size for which some free-list node is large enough: if the `n` bytes that
`memcpy` reads from the old pointer end inside the segment (`hsrc`) and reach no
free-list node (`hfar`, so that they do not overlap the new block),
`myrealloc(A + header_size, n)` returns (given fuel) a pointer that is not `NULL` and
differs from the old one, and the first `A.size` bytes at that pointer equal the bytes
`A`'s payload held before the call. -/
theorem myrealloc_move_copies {cfg : Config} {s : Heap} {L R : List Block} {A : Block}
    {fl : List Nat} (h : WellFormed cfg s (L ++ A :: R) fl) (hA : A.free = false)
    (hright : ∀ r, R.head? = some r → r.free = false)
    (n : Nat) (hn : A.size < n) (hmax : n ≤ cfg.MAX_REQUEST_SIZE)
    (havail : ∃ a ∈ fl, malloc_needed cfg n ≤ extract_size s.mem a)
    (hsrc : A.addr + header_size + n ≤ s.segment_end)
    (hfar : ∀ x ∈ fl, x < A.addr ∨ A.addr + n ≤ x)
    (fuel : Nat) (hfuel : (L ++ A :: R).length + 1 < fuel) :
    ∃ q s1, myrealloc cfg fuel s (A.addr + header_size) n = some (q, s1) ∧ q ≠ 0 ∧
      q ≠ A.addr + header_size ∧
      ∀ i < A.size, s1.mem (q + i) = s.mem (A.addr + header_size + i) := by
  have hAmem : A ∈ L ++ A :: R := by simp
  have hAb := h.block_bounds hAmem
  have hn1 : 1 ≤ n := by omega
  have hnd := malloc_needed_spec h.cfg_valid n hn1 hmax
  have hAv := h.cfg_valid.align
  have h8 : 8 ∣ malloc_needed cfg n := Dvd.dvd.trans hAv.2.2 hnd.2.1
  have hfl_len : fl.length < fuel := by
    have := h.free_count
    have := List.length_filter_le (fun b : Block => b.free) (L ++ A :: R)
    omega
  -- the free-list scan of the inner `mymalloc`
  obtain ⟨pre, a, post, hfl, hpre, hfit⟩ :=
    exists_first_fit (fun x => malloc_needed cfg n ≤ extract_size s.mem x) fl havail
  have hpre1 : ∀ x ∈ pre, extract_size s.mem x < malloc_needed cfg n := by
    intro x hx
    have := hpre x hx
    omega
  obtain ⟨Lb, b, Rb, hbs, hba, hbf, hres, hwf⟩ :=
    mymalloc_fit h n hn1 hmax fuel hfl_len hfl hpre1 hfit
  have hbmem : b ∈ L ++ A :: R := by rw [hbs]; simp
  have hbb := h.block_bounds hbmem
  have hbsz : malloc_needed cfg n ≤ b.size := by
    rw [← h.extract_size_block hbmem, hba]; exact hfit
  have hAb_ne : A.addr ≠ b.addr := by
    intro e
    have := h.same_block hAmem hbmem e
    rw [this, hbf] at hA
    exact Bool.noConfusion hA
  have hdisj := Tiling_disjoint h.tiling A hAmem b hbmem hAb_ne
  unfold Block.stop header_size at hAb hbb hdisj
  -- the old block is still an allocated block of the heap after `mymalloc`
  have hAother : A ∈ Lb ∨ A ∈ Rb := by
    have : A ∈ Lb ++ b :: Rb := by rw [← hbs]; exact hAmem
    simp only [List.mem_append, List.mem_cons] at this
    rcases this with e | e | e
    · exact Or.inl e
    · rw [e] at hAb_ne; exact absurd rfl hAb_ne
    · exact Or.inr e
  have hpayload : ∀ i < A.size, (mymalloc_take cfg s a (malloc_needed cfg n)).mem
      (A.addr + header_size + i) = s.mem (A.addr + header_size + i) := by
    intro i hi
    have hwf0 : WellFormed cfg s (Lb ++ b :: Rb) (pre ++ b.addr :: post) := by
      rw [← hbs, hba, ← hfl]; exact h
    rw [← hba]
    apply mymalloc_take_byte hwf0 hbf hnd.1 h8 hbsz
    rw [← hbs]
    rintro ⟨c, hc, hcf, hc1, hc2⟩
    have hcb := h.block_bounds hc
    by_cases e : c.addr = A.addr
    · have := h.same_block hc hAmem e
      rw [this, hA] at hcf
      exact Bool.noConfusion hcf
    · have := Tiling_disjoint h.tiling c hc A hAmem e
      unfold Block.stop header_size at this hc2
      unfold header_size at hc1
      omega
  -- the state after `mymalloc`, in both cases of the split
  have hpost : ∃ bs1 fl1 sz, WellFormed cfg (mymalloc_take cfg s a (malloc_needed cfg n)) bs1 fl1 ∧
      A ∈ bs1 ∧ (⟨a, sz, false⟩ : Block) ∈ bs1 ∧ malloc_needed cfg n ≤ sz ∧
      bs1.length ≤ (L ++ A :: R).length + 1 := by
    rcases hwf with ⟨_, hwf⟩ | ⟨_, hwf⟩
    · refine ⟨_, _, malloc_needed cfg n, hwf, ?_, by simp, le_refl _, ?_⟩
      · simp only [List.mem_append, List.mem_cons]
        rcases hAother with e | e
        · exact Or.inl e
        · exact Or.inr (Or.inr (Or.inr e))
      · rw [hbs]; simp; omega
    · refine ⟨_, _, b.size, hwf, ?_, by simp, hbsz, ?_⟩
      · simp only [List.mem_append, List.mem_cons]
        rcases hAother with e | e
        · exact Or.inl e
        · exact Or.inr (Or.inr e)
      · rw [hbs]; simp
  obtain ⟨bs1, fl1, sz, hwf1, hA1, hb1, hsz, hlen1⟩ := hpost
  have hb1b := hwf1.block_bounds hb1
  -- the copy goes into the payload of the new block
  have hwf2 := hwf1.of_payload_store
    (copy_bytes (mymalloc_take cfg s a (malloc_needed cfg n)).mem (a + header_size)
      (A.addr + header_size) n) (by
      intro y hy
      refine ⟨_, hb1, rfl, ?_⟩
      by_contra hcon
      apply hy
      apply copy_bytes_outside
      unfold Block.stop at hcon
      unfold header_size at hcon ⊢
      simp only [] at hcon
      omega)
  -- the copy stays inside the segment and its two ranges are disjoint
  have hA1b := hwf1.block_bounds hA1
  have hcopy : memcpy (mymalloc_take cfg s a (malloc_needed cfg n)) (a + header_size)
      (A.addr + header_size) n =
      some (copy_bytes (mymalloc_take cfg s a (malloc_needed cfg n)).mem (a + header_size)
        (A.addr + header_size) n) := by
    have hseg := (mymalloc_take_segment cfg s a (malloc_needed cfg n)).2
    have hfa := hfar a (by rw [hfl]; simp)
    have hlo : (mymalloc_take cfg s a (malloc_needed cfg n)).segment_begin ≤ a := hb1b.2.1
    have hhi : a + header_size + sz ≤ (mymalloc_take cfg s a (malloc_needed cfg n)).segment_end :=
      hb1b.2.2.1
    unfold header_size at hhi
    apply memcpy_eq
    · unfold header_size; omega
    · rw [hseg]; exact hsrc
    · unfold header_size; omega
    · unfold header_size
      omega
    · unfold header_size
      rw [← hba] at hfa ⊢
      omega
  -- `myfree` of the old block
  obtain ⟨L1, R1, hbs1⟩ := List.append_of_mem hA1
  subst hbs1
  obtain ⟨s3, Rf, R2, _, _, _, hfree, _, _, _, _, _, _, _, hbyte⟩ :=
    myfree_spec hwf2 hA fuel (by simp at hlen1 hfuel ⊢; omega)
  refine ⟨a + header_size, s3, ?_, by unfold header_size; omega, ?_, ?_⟩
  · unfold myrealloc
    have e1 : A.addr + header_size ≠ 0 := by unfold header_size; omega
    have e2 : n ≠ 0 := by omega
    have e3 : get_hdrptr (A.addr + header_size) = A.addr := by
      unfold get_hdrptr header_size
      rw [wsub_eq (by omega) (by omega)]
      omega
    rw [if_neg e1, if_neg e2]
    simp only []
    rw [e3, realloc_needed_eq h.cfg_valid n hn1 hmax, h.extract_size_block hAmem,
      if_neg (by omega), myrealloc_loop_none h hright _ fuel (by omega)]
    simp only []
    unfold myrealloc_move
    rw [hres]
    simp only []
    rw [hcopy]
    simp only []
    rw [hfree]
  · rw [← hba]
    unfold header_size
    omega
  · intro i hi
    have hfp := hbyte (a + header_size + i) (by unfold header_size; rw [← hba] at *; omega) (by
      intro m hm
      have hnode := hwf1.block_node hb1 hm
      have hnot := hwf1.not_mem_of_allocated hb1 rfl
      unfold Block.stop at hnode
      unfold header_size at hnode ⊢
      simp only [] at hnode hnot
      rcases hnode with e | e
      · rw [← e] at hm; exact absurd hm hnot
      · omega)
    rw [hfp]
    show copy_bytes _ (a + header_size) (A.addr + header_size) n (a + header_size + i) = _
    rw [copy_bytes_inside _ _ _ _ _ (by omega)]
    exact hpayload i hi

/-- The move path where its copy leaves the segment.  On a well-formed heap, for an
allocated block `A` followed by the segment end or by an allocated block, and a request
`n` larger than `A`'s size for which some free-list node is large enough: if the `n`
bytes read from the old pointer end past `segment_end`, the call has no result, whatever
the fuel. -/
theorem myrealloc_move_past_end {cfg : Config} {s : Heap} {L R : List Block} {A : Block}
    {fl : List Nat} (h : WellFormed cfg s (L ++ A :: R) fl)
    (hright : ∀ r, R.head? = some r → r.free = false)
    (n : Nat) (hn : A.size < n) (hmax : n ≤ cfg.MAX_REQUEST_SIZE)
    (havail : ∃ a ∈ fl, malloc_needed cfg n ≤ extract_size s.mem a)
    (hpast : s.segment_end < A.addr + header_size + n)
    (fuel : Nat) (hfuel : (L ++ A :: R).length + 1 < fuel) :
    myrealloc cfg fuel s (A.addr + header_size) n = none := by
  have hAmem : A ∈ L ++ A :: R := by simp
  have hAb := h.block_bounds hAmem
  have hn1 : 1 ≤ n := by omega
  have hfl_len : fl.length < fuel := by
    have := h.free_count
    have := List.length_filter_le (fun b : Block => b.free) (L ++ A :: R)
    omega
  obtain ⟨pre, a, post, hfl, hpre, hfit⟩ :=
    exists_first_fit (fun x => malloc_needed cfg n ≤ extract_size s.mem x) fl havail
  obtain ⟨_, _, _, _, _, _, hres, _⟩ :=
    mymalloc_fit h n hn1 hmax fuel hfl_len hfl (fun x hx => Nat.lt_of_not_le (hpre x hx)) hfit
  unfold Block.stop header_size at hAb
  have e1 : A.addr + header_size ≠ 0 := by unfold header_size; omega
  have e2 : n ≠ 0 := by omega
  have e3 : get_hdrptr (A.addr + header_size) = A.addr := by
    unfold get_hdrptr header_size
    rw [wsub_eq (by omega) (by omega)]
    omega
  unfold myrealloc
  rw [if_neg e1, if_neg e2]
  simp only []
  rw [e3, realloc_needed_eq h.cfg_valid n hn1 hmax, h.extract_size_block hAmem,
    if_neg (by have := (malloc_needed_spec h.cfg_valid n hn1 hmax).2.2.1; omega),
    myrealloc_loop_none h hright _ fuel (by omega)]
  simp only []
  unfold myrealloc_move
  rw [hres]
  simp only []
  rw [memcpy_past_end _ _ _ _ (by
    rw [(mymalloc_take_segment cfg s a (malloc_needed cfg n)).2]
    exact hpast)]

/-- An instance of `myrealloc_move_copies`: in the heap with allocated blocks at 4096 and
4120 and a free block at 4144, `myrealloc(4104, 24)` moves the first block and keeps its
16 payload bytes; the copy reads `[4104, 4128)`, inside the segment. -/
theorem myrealloc_move_copies_witness :
    ∃ q s1, myrealloc cfg8 8 heap_two_allocs 4104 24 = some (q, s1) ∧ q ≠ 0 ∧ q ≠ 4104 ∧
      ∀ i < 16, s1.mem (q + i) = heap_two_allocs.mem (4104 + i) :=
  @myrealloc_move_copies cfg8 heap_two_allocs [] [⟨4120, 16, false⟩, ⟨4144, 40, true⟩]
    ⟨4096, 16, false⟩ [4144] heap_two_allocs_wellFormed rfl
    (by intro r hr; simp only [List.head?_cons, Option.some.injEq] at hr; rw [← hr])
    24 (by decide) (by decide) ⟨4144, List.mem_singleton.mpr rfl, by decide⟩
    (by decide) (by intro x hx; rw [List.mem_singleton.mp hx]; decide) 8 (by decide)

/-- C8 (amended): `myfree` merges the released block only with the free blocks that
follow it.  On a well-formed heap, `myfree` of the pointer of an allocated block `A`
returns, `A` is then free, and what follows `A` in address order is the segment end or
an allocated block.  A free block before `A` stays separate: when three adjacent
allocated blocks `A`, `B`, `C` are released in the order `A`, `C`, `B` (the free list
not being empty at the start), the heap is well formed with two adjacent free blocks,
`A` and a block that covers `B`, `C` and the free blocks `Rf` that followed `C`. -/
theorem myfree_coalesces_right_only {cfg : Config} {s : Heap} {fl : List Nat} (fuel : Nat) :
    (∀ (L R : List Block) (A : Block), WellFormed cfg s (L ++ A :: R) fl → A.free = false →
      R.length < fuel →
      ∃ s1, myfree fuel s (A.addr + header_size) = some s1 ∧ is_free s1.mem A.addr = true ∧
        (wadd (wadd A.addr header_size) (extract_size s1.mem A.addr) = s1.segment_end ∨
         is_free s1.mem (wadd (wadd A.addr header_size) (extract_size s1.mem A.addr))
           = false)) ∧
    (∀ (L R : List Block) (A B C : Block), WellFormed cfg s (L ++ A :: B :: C :: R) fl →
      fl ≠ [] → A.free = false → B.free = false → C.free = false → R.length + 2 < fuel →
      ∃ s1 s2 s3 Rf R1 fl3, R = Rf ++ R1 ∧ (∀ r ∈ Rf, r.free = true) ∧
        (∀ r, R1.head? = some r → r.free = false) ∧
        myfree fuel s (A.addr + header_size) = some s1 ∧
        myfree fuel s1 (C.addr + header_size) = some s2 ∧
        myfree fuel s2 (B.addr + header_size) = some s3 ∧
        WellFormed cfg s3
          (L ++ ⟨A.addr, A.size, true⟩ ::
            ⟨B.addr, B.size + header_size + C.size + absorbed Rf, true⟩ :: R1) fl3) := by
  constructor
  · intro L R A h hA hfuel
    obtain ⟨s1, Rf, R1, hR, _, _, hfree, hhdr, _, hse, _, hexit, _, _, _⟩ :=
      myfree_spec h hA fuel hfuel
    subst hR
    have hAmem : A ∈ L ++ A :: (Rf ++ R1) := by simp
    have hAb := h.block_bounds hAmem
    have hab := h.absorbed_bound
    have hsmall := h.small
    have hend := h.end_lt
    norm_num at hsmall
    unfold Block.stop header_size at hAb hab
    have hext : extract_size s1.mem A.addr = A.size + absorbed Rf := by
      rw [extract_size_eq, hhdr]
      omega
    have hrn : wadd (wadd A.addr header_size) (A.size + absorbed Rf) =
        A.addr + header_size + (A.size + absorbed Rf) := by
      unfold header_size
      have e0 : wadd A.addr 8 = A.addr + 8 := wadd_eq (by omega)
      rw [e0, wadd_eq (by omega)]
    refine ⟨s1, hfree, ?_, ?_⟩
    · rw [is_free_iff, hhdr]
      omega
    · rw [hext, hrn]
      exact hexit
  · intro L R A B C h hne hA hB hC hfuel
    -- release `A`: nothing is merged, `B` is allocated
    obtain ⟨s1, Rf1, R1', hR1, hRf1, _, hfree1, _, _, _, _, _, hwf1, _, _⟩ :=
      myfree_spec h hA fuel (by simp only [List.length_cons]; omega)
    have hRf1nil : Rf1 = [] := by
      cases Rf1 with
      | nil => rfl
      | cons r Rf' =>
        have e : B = r := (List.cons.inj hR1).1
        have := hRf1 r (List.mem_cons_self _ _)
        rw [← e, hB] at this
        exact Bool.noConfusion this
    subst hRf1nil
    have hR1eq : R1' = B :: C :: R := hR1.symm
    subst hR1eq
    obtain ⟨fl1, hwf1, hiff1⟩ := hwf1 hne
    have e0 : A.size + absorbed [] = A.size := by simp [absorbed]
    rw [e0] at hwf1
    have hne1 : fl1 ≠ [] := by
      have : A.addr ∈ fl1 := (hiff1 A.addr).mpr ⟨Or.inl rfl, by intro r hr; cases hr⟩
      intro e
      rw [e] at this
      cases this
    -- release `C`: it absorbs the free run `Rf` after it
    have hwf1' : WellFormed cfg s1 ((L ++ [⟨A.addr, A.size, true⟩, B]) ++ C :: R) fl1 := by
      have e : (L ++ [⟨A.addr, A.size, true⟩, B]) ++ C :: R =
          L ++ ⟨A.addr, A.size, true⟩ :: B :: C :: R := by simp
      rw [e]
      exact hwf1
    obtain ⟨s2, Rf, R2, hR2, hRf2, hR2head, hfree2, _, _, _, _, _, hwf2, _, _⟩ :=
      myfree_spec hwf1' hC fuel (by omega)
    obtain ⟨fl2, hwf2, hiff2⟩ := hwf2 hne1
    have hne2 : fl2 ≠ [] := by
      have : C.addr ∈ fl2 := (hiff2 C.addr).mpr ⟨Or.inl rfl, by
        intro r hr
        have hrmem : r ∈ (L ++ [⟨A.addr, A.size, true⟩, B]) ++ C :: R := by
          rw [hR2]; simp [hr]
        have hCmem : C ∈ (L ++ [⟨A.addr, A.size, true⟩, B]) ++ C :: R := by simp
        intro e
        have hCr := hwf1'.same_block hCmem hrmem e
        have hrf := hRf2 r hr
        rw [← hCr, hC] at hrf
        exact Bool.noConfusion hrf⟩
      intro e
      rw [e] at this
      cases this
    -- release `B`: it absorbs the block that `C` has become, and nothing more
    have hwf2' : WellFormed cfg s2
        ((L ++ [⟨A.addr, A.size, true⟩]) ++ B :: (⟨C.addr, C.size + absorbed Rf, true⟩ :: R2))
        fl2 := by
      have e : (L ++ [⟨A.addr, A.size, true⟩]) ++ B :: (⟨C.addr, C.size + absorbed Rf, true⟩ :: R2)
          = (L ++ [⟨A.addr, A.size, true⟩, B]) ++ ⟨C.addr, C.size + absorbed Rf, true⟩ :: R2 := by
        simp
      rw [e]
      exact hwf2
    obtain ⟨s3, Rf3, R3, hR3, hRf3, hR3head, hfree3, _, _, _, _, _, hwf3, _, _⟩ :=
      myfree_spec hwf2' hB fuel (by
        have : R2.length ≤ R.length := by rw [hR2]; simp
        simp only [List.length_cons]
        omega)
    obtain ⟨fl3, hwf3, _⟩ := hwf3 hne2
    have hshape : Rf3 = [⟨C.addr, C.size + absorbed Rf, true⟩] ∧ R3 = R2 := by
      cases Rf3 with
      | nil =>
        have e : R3 = ⟨C.addr, C.size + absorbed Rf, true⟩ :: R2 := hR3.symm
        have := hR3head ⟨C.addr, C.size + absorbed Rf, true⟩ (by rw [e]; rfl)
        exact Bool.noConfusion this
      | cons r Rf3' =>
        have e1 := (List.cons.inj hR3).1
        have e2 : R2 = Rf3' ++ R3 := (List.cons.inj hR3).2
        cases Rf3' with
        | nil => exact ⟨by rw [e1], e2.symm⟩
        | cons r' Rf3'' =>
          have h1 := hRf3 r' (List.mem_cons_of_mem _ (List.mem_cons_self _ _))
          have h2 := hR2head r' (by rw [e2]; rfl)
          rw [h1] at h2
          exact Bool.noConfusion h2
    obtain ⟨hRf3eq, hR3eq⟩ := hshape
    subst hRf3eq
    subst hR3eq
    refine ⟨s1, s2, s3, Rf, R3, fl3, hR2, hRf2, hR2head, hfree1, hfree2, hfree3, ?_⟩
    have e1 : B.size + absorbed [(⟨C.addr, C.size + absorbed Rf, true⟩ : Block)] =
        B.size + header_size + C.size + absorbed Rf := by
      rw [absorbed_cons]
      simp [absorbed, header_size]
      omega
    rw [e1] at hwf3
    have e2 : (L ++ [⟨A.addr, A.size, true⟩]) ++
        ⟨B.addr, B.size + header_size + C.size + absorbed Rf, true⟩ :: R3 =
        L ++ ⟨A.addr, A.size, true⟩ ::
          ⟨B.addr, B.size + header_size + C.size + absorbed Rf, true⟩ :: R3 := by simp
    rw [e2] at hwf3
    exact hwf3

/-- Witness for C8 (amended): releasing the first block of `heap_two_allocs`, and
releasing the three allocated blocks of `heap_three_allocs` in the order first, third,
second, which leaves the free block at 4096 next to the free block at 4120. -/
theorem myfree_coalesces_right_only_witness :
    (∃ s1, myfree 8 heap_two_allocs 4104 = some s1 ∧ is_free s1.mem 4096 = true ∧
      (wadd (wadd 4096 header_size) (extract_size s1.mem 4096) = s1.segment_end ∨
       is_free s1.mem (wadd (wadd 4096 header_size) (extract_size s1.mem 4096)) = false)) ∧
    (∃ s1 s2 s3 Rf R1 fl3, [(⟨4168, 40, true⟩ : Block)] = Rf ++ R1 ∧
      (∀ r ∈ Rf, r.free = true) ∧ (∀ r, R1.head? = some r → r.free = false) ∧
      myfree 8 heap_three_allocs 4104 = some s1 ∧ myfree 8 s1 4152 = some s2 ∧
      myfree 8 s2 4128 = some s3 ∧
      WellFormed cfg8 s3
        ([] ++ ⟨4096, 16, true⟩ :: ⟨4120, 16 + header_size + 16 + absorbed Rf, true⟩ :: R1) fl3) :=
  ⟨(myfree_coalesces_right_only 8).1 [] [⟨4120, 16, false⟩, ⟨4144, 40, true⟩] ⟨4096, 16, false⟩
      heap_two_allocs_wellFormed rfl (by decide),
   (myfree_coalesces_right_only 8).2 [] [⟨4168, 40, true⟩] ⟨4096, 16, false⟩ ⟨4120, 16, false⟩
      ⟨4144, 16, false⟩ heap_three_allocs_wellFormed (by decide) rfl rfl rfl (by decide)⟩

/-- C11: for a heap size that is a multiple of `ALIGNMENT` (as the comment of `myinit`
guarantees), or for any heap size when `ALIGNMENT` equals the header size, `myinit`
returns false exactly when `heap_size < header_size + 2 * ALIGNMENT`; and whenever it
returns false the state it returns is the state it was called in (globals and
memory). -/
theorem myinit_false_iff {cfg : Config} (hc : cfg.Valid) (s : Heap) (start heap_size : Nat)
    (hdiv : cfg.ALIGNMENT = header_size ∨ cfg.ALIGNMENT ∣ heap_size) :
    ((myinit cfg s start heap_size).1 = false ↔ heap_size < header_size + 2 * cfg.ALIGNMENT) ∧
    ((myinit cfg s start heap_size).1 = false → (myinit cfg s start heap_size).2 = s) := by
  have hA := hc.align
  have e0 : cfg.ALIGNMENT * 3 % WORD = cfg.ALIGNMENT * 3 :=
    Nat.mod_eq_of_lt (by rw [WORD_eq]; omega)
  have hiff : heap_size < cfg.ALIGNMENT * 3 ↔ heap_size < header_size + 2 * cfg.ALIGNMENT := by
    unfold header_size at *
    rcases hdiv with h | ⟨t, ht⟩
    · omega
    · constructor
      · intro hlt
        have ht3 : t < 3 := by
          by_contra hcon
          have : cfg.ALIGNMENT * 3 ≤ cfg.ALIGNMENT * t := Nat.mul_le_mul_left _ (by omega)
          omega
        have : cfg.ALIGNMENT * t ≤ cfg.ALIGNMENT * 2 := Nat.mul_le_mul_left _ (by omega)
        omega
      · intro hlt
        omega
  unfold myinit
  rw [e0]
  by_cases hlt : heap_size < cfg.ALIGNMENT * 3
  · rw [if_pos hlt]
    exact ⟨⟨fun _ => hiff.mp hlt, fun _ => rfl⟩, fun _ => rfl⟩
  · rw [if_neg hlt]
    refine ⟨⟨fun h => ?_, fun h => absurd (hiff.mpr h) hlt⟩, fun h => ?_⟩
    · exact Bool.noConfusion h
    · exact Bool.noConfusion h

/-- Witness for C11: with `ALIGNMENT = 16`, `myinit(4096, 32)` returns false and leaves
the state alone. -/
theorem myinit_false_iff_witness :
    ((myinit cfg16 heap0 4096 32).1 = false ↔ 32 < header_size + 2 * cfg16.ALIGNMENT) ∧
    ((myinit cfg16 heap0 4096 32).1 = false → (myinit cfg16 heap0 4096 32).2 = heap0) :=
  myinit_false_iff cfg16_valid heap0 4096 32 (Or.inr ⟨2, rfl⟩)

/-- C12: in every state, `myrealloc(NULL, n)` is `mymalloc(n)` (same result, same new
state), and for a pointer `p` other than `NULL`, `myrealloc(p, 0)` is `myfree(p)` with
result `NULL`; for the pointer of an allocated block of a well-formed heap both calls
return (given fuel for the coalescing loop). -/
theorem myrealloc_null_and_zero (cfg : Config) (fuel : Nat) (s : Heap) :
    (∀ n, myrealloc cfg fuel s 0 n = mymalloc cfg fuel s n) ∧
    (∀ p, p ≠ 0 → myrealloc cfg fuel s p 0 = (myfree fuel s p).map (fun s1 => (0, s1))) ∧
    (∀ (L R : List Block) (A : Block) (fl : List Nat), WellFormed cfg s (L ++ A :: R) fl →
      A.free = false → R.length < fuel →
      ∃ s1, myfree fuel s (A.addr + header_size) = some s1 ∧
        myrealloc cfg fuel s (A.addr + header_size) 0 = some (0, s1)) := by
  have hzero : ∀ p, p ≠ 0 →
      myrealloc cfg fuel s p 0 = (myfree fuel s p).map (fun s1 => (0, s1)) := by
    intro p hp
    unfold myrealloc
    rw [if_neg hp, if_pos rfl]
    cases myfree fuel s p <;> rfl
  refine ⟨?_, hzero, ?_⟩
  · intro n
    unfold myrealloc
    rw [if_pos rfl]
  · intro L R A fl h hA hfuel
    obtain ⟨s1, _, _, _, _, _, hfree, _⟩ := myfree_spec h hA fuel hfuel
    refine ⟨s1, hfree, ?_⟩
    rw [hzero _ (by unfold header_size; omega), hfree]
    rfl

/-- Witness for C12: on `heap_two_allocs`, `myrealloc(4104, 0)` returns `NULL` and the
state `myfree(4104)` returns. -/
theorem myrealloc_null_and_zero_witness :
    ∃ s1, myfree 8 heap_two_allocs 4104 = some s1 ∧
      myrealloc cfg8 8 heap_two_allocs 4104 0 = some (0, s1) :=
  (myrealloc_null_and_zero cfg8 8 heap_two_allocs).2.2 [] [⟨4120, 16, false⟩, ⟨4144, 40, true⟩]
    ⟨4096, 16, false⟩ [4144] heap_two_allocs_wellFormed rfl (by decide)

/-- A header word `s + b` with `s` even and below `2 ^ 32` decodes to `s` and `b`. -/
theorem header_decode_small (m : Mem) (n s b : Nat) (hs : s < 2 ^ 32) (h2 : 2 ∣ s)
    (hb : b ≤ 1) :
    extract_size (set_hdr m n (s + b)) n = s ∧ (is_free (set_hdr m n (s + b)) n = true ↔ b = 0) := by
  have hs1 : s < 4294967296 := by norm_num at hs; exact hs
  have hh : hdr (set_hdr m n (s + b)) n = s + b := hdr_set_hdr _ _ _ (by rw [WORD_eq]; omega)
  rw [extract_size_eq, is_free_iff, hh]
  constructor <;> omega

/-- C17 (fails on the code): `extract_size` masks the header with the 32-bit constant
`0xfffffffe`.  `myinit(4096, 2 ^ 32 + 8)` writes the header word `2 ^ 32` (payload size
`2 ^ 32`, a multiple of every `ALIGNMENT` up to `2 ^ 32`, status free), and
`extract_size` reads 0 from it; the header word `2 ^ 32 + 1` of the same block once
allocated also decodes to size 0.  `is_free` reads the status bit correctly. -/
theorem extract_size_drops_high_bits :
    (myinit cfg8 heap0 4096 (2 ^ 32 + 8)).1 = true ∧
    hdr (myinit cfg8 heap0 4096 (2 ^ 32 + 8)).2.mem 4096 = 2 ^ 32 ∧
    extract_size (myinit cfg8 heap0 4096 (2 ^ 32 + 8)).2.mem 4096 = 0 ∧
    is_free (myinit cfg8 heap0 4096 (2 ^ 32 + 8)).2.mem 4096 = true ∧
    extract_size (set_hdr heap0.mem 4096 (2 ^ 32 + 1)) 4096 = 0 ∧
    is_free (set_hdr heap0.mem 4096 (2 ^ 32 + 1)) 4096 = false := by
  refine ⟨?_, ?_, ?_, ?_, ?_, ?_⟩ <;> decide

/-- C19: for `ALIGNMENT = 2 ^ k` and a request `n ≥ 1` such that neither `2 * ALIGNMENT`
nor `n + ALIGNMENT` wraps around, `roundup n ALIGNMENT` is the least multiple of
`ALIGNMENT` that is at least `n`, and the size both `mymalloc` and `myrealloc` search
for is `max (2 * ALIGNMENT) (roundup n ALIGNMENT)`: a multiple of `ALIGNMENT`, at least
`n` and at least `2 * ALIGNMENT`. -/
theorem roundup_and_needed (cfg : Config) (k n : Nat) (hA : cfg.ALIGNMENT = 2 ^ k)
    (h2A : 2 * cfg.ALIGNMENT < WORD) (h1 : 1 ≤ n) (hnowrap : n + cfg.ALIGNMENT ≤ WORD) :
    (cfg.ALIGNMENT ∣ roundup n cfg.ALIGNMENT ∧ n ≤ roundup n cfg.ALIGNMENT ∧
      ∀ m, cfg.ALIGNMENT ∣ m → n ≤ m → roundup n cfg.ALIGNMENT ≤ m) ∧
    malloc_needed cfg n = max (2 * cfg.ALIGNMENT) (roundup n cfg.ALIGNMENT) ∧
    realloc_needed cfg n = max (2 * cfg.ALIGNMENT) (roundup n cfg.ALIGNMENT) ∧
    cfg.ALIGNMENT ∣ malloc_needed cfg n ∧ n ≤ malloc_needed cfg n ∧
    2 * cfg.ALIGNMENT ≤ malloc_needed cfg n := by
  have hr := roundup_least n k h1 (by rw [← hA]; exact hnowrap)
  rw [← hA] at hr
  obtain ⟨hr1, hr2, hr3⟩ := hr
  have e : cfg.ALIGNMENT * 2 % WORD = 2 * cfg.ALIGNMENT := by
    rw [Nat.mod_eq_of_lt (by omega)]
    omega
  have h2dvd : cfg.ALIGNMENT ∣ 2 * cfg.ALIGNMENT := Dvd.intro_left 2 rfl
  have hm : malloc_needed cfg n = max (2 * cfg.ALIGNMENT) (roundup n cfg.ALIGNMENT) := by
    unfold malloc_needed
    rw [e]
    by_cases hle : n ≤ 2 * cfg.ALIGNMENT
    · rw [if_pos hle]
      have := hr3 _ h2dvd hle
      omega
    · rw [if_neg hle]
      omega
  have hre : realloc_needed cfg n = max (2 * cfg.ALIGNMENT) (roundup n cfg.ALIGNMENT) := by
    unfold realloc_needed
    rw [e]
    by_cases hlt : n < 2 * cfg.ALIGNMENT
    · rw [if_pos hlt]
      have := hr3 _ h2dvd (by omega)
      omega
    · rw [if_neg hlt]
      omega
  refine ⟨⟨hr1, hr2, hr3⟩, hm, hre, ?_, ?_, ?_⟩
  · rw [hm]
    rcases Nat.le_total (2 * cfg.ALIGNMENT) (roundup n cfg.ALIGNMENT) with h | h
    · rw [Nat.max_eq_right h]; exact hr1
    · rw [Nat.max_eq_left h]; exact h2dvd
  · rw [hm]; omega
  · rw [hm]; omega

/-- Witness for C19: `ALIGNMENT = 8` and a request of 10 bytes. -/
theorem roundup_and_needed_witness :
    (8 ∣ roundup 10 8 ∧ 10 ≤ roundup 10 8 ∧ ∀ m, 8 ∣ m → 10 ≤ m → roundup 10 8 ≤ m) ∧
    malloc_needed cfg8 10 = max (2 * 8) (roundup 10 8) ∧
    realloc_needed cfg8 10 = max (2 * 8) (roundup 10 8) ∧
    8 ∣ malloc_needed cfg8 10 ∧ 10 ≤ malloc_needed cfg8 10 ∧ 2 * 8 ≤ malloc_needed cfg8 10 :=
  roundup_and_needed cfg8 3 10 rfl (by decide) (by decide) (by decide)

/-! ## Claims settled by traces of the code -/

/-- C14 (fails on the code): on an empty free list `add_freeblock` only sets
`first_freenode` and the counter; it leaves the node's `next` and `prev` fields as they
are.  In the state reached by `a = mymalloc(16); b = mymalloc(16); myfree(a); myfree(b);
mymalloc(16); mymalloc(16)` (48-byte heap, `ALIGNMENT = 8`, no client store) the free
list is empty, hence well formed, and the `next` field of `b`'s block 4120 still holds
4096 from its earlier time on the list.  After `add_freeblock(4120)` the head is 4120
and `free_blocks` went from 0 to 1, but `next` of 4120 is 4096, so the traversal is not
`[4120]`, and no list at all is well linked from the head. -/
theorem add_freeblock_empty_list_keeps_stale_next :
    heap_list_emptied.first_freenode = 0 ∧ heap_list_emptied.free_blocks = 0 ∧
    DList heap_list_emptied.mem heap_list_emptied.first_freenode [] ∧
    next heap_list_emptied.mem 4120 = 4096 ∧
    (add_freeblock heap_list_emptied 4120).first_freenode = 4120 ∧
    (add_freeblock heap_list_emptied 4120).free_blocks = 1 ∧
    next (add_freeblock heap_list_emptied 4120).mem 4120 = 4096 ∧
    ∀ fl, ¬ DList (add_freeblock heap_list_emptied 4120).mem
      (add_freeblock heap_list_emptied 4120).first_freenode fl := by
  refine ⟨by decide, by decide, (by decide : heap_list_emptied.first_freenode = 0), by decide,
    by decide, by decide, by decide, ?_⟩
  intro fl hfl
  have e1 : (add_freeblock heap_list_emptied 4120).first_freenode = 4120 := by decide
  have e2 : next (add_freeblock heap_list_emptied 4120).mem 4120 = 4096 := by decide
  have e3 : prev (add_freeblock heap_list_emptied 4120).mem 4096 = 0 := by decide
  unfold DList at hfl
  rw [e1] at hfl
  cases fl with
  | nil => exact absurd (hfl : 4120 = 0) (by decide : ¬ (4120 = 0))
  | cons n l =>
    obtain ⟨hn, _, _, hl⟩ := hfl
    subst hn
    rw [e2] at hl
    cases l with
    | nil => exact absurd (hl : 4096 = 0) (by decide : ¬ (4096 = 0))
    | cons n2 l2 =>
      obtain ⟨hn2, _, hp, _⟩ := hl
      subst hn2
      rw [e3] at hp
      exact absurd hp (by decide)

/-- C18 (fails on the code): the header check of the sequential pass of `validate_heap`
only prints a message; it does not make the function return false.  In the state
`heap_bad_status` both blocks visited by the sequential walk have the header word 20,
whose low three bits hold 4; the two passes count two free blocks, `free_blocks` is 2
and the byte total is the heap size 56, and `validate_heap` returns true. -/
theorem validate_heap_true_with_bad_status_bits :
    dump_heap 8 heap_bad_status = some [(true, 20), (true, 20)] ∧
    hdr heap_bad_status.mem 4096 % 8 = 4 ∧ hdr heap_bad_status.mem 4124 % 8 = 4 ∧
    validate_seq heap_bad_status 8 0 0 = some (56, 2) ∧
    validate_list heap_bad_status 8 heap_bad_status.first_freenode 0 = some 2 ∧
    heap_bad_status.free_blocks = 2 ∧
    validate_heap cfg8 8 heap_bad_status = some true := by
  refine ⟨?_, ?_, ?_, ?_, ?_, ?_, ?_⟩ <;> decide

/-- C20 (fails on the code): a pointer is handed out while it is still live.  With
`ALIGNMENT = 8` and a 48-byte heap, and no client store at all, the calls
`a = mymalloc(16); b = mymalloc(16); myfree(a); myfree(b); mymalloc(16); mymalloc(16);
myfree(b); mymalloc(16)` return `a = 4104, b = 4128, b, a, b`, so that `a` and `b` are
both live; the next `mymalloc(16)` returns `a = 4104` again, found through the stale
`next` field of `b`'s block, and raises the header of `a`'s block from 17 to 18.  The
same happens with `ALIGNMENT = 16`, an 80-byte heap and requests of 32 bytes. -/
theorem mymalloc_returns_live_pointer :
    (session cfg8 48 [Call.malloc 16, Call.malloc 16, Call.free 4104, Call.free 4128,
        Call.malloc 16, Call.malloc 16, Call.free 4128, Call.malloc 16]).map
        (fun r => (r.1, hdr r.2.mem 4096, hdr r.2.mem 4120, r.2.first_freenode))
      = some ([4104, 4128, 0, 0, 4128, 4104, 0, 4128], 17, 17, 4096) ∧
    (session cfg8 48 [Call.malloc 16, Call.malloc 16, Call.free 4104, Call.free 4128,
        Call.malloc 16, Call.malloc 16, Call.free 4128, Call.malloc 16, Call.malloc 16]).map
        (fun r => (r.1, hdr r.2.mem 4096, hdr r.2.mem 4120))
      = some ([4104, 4128, 0, 0, 4128, 4104, 0, 4128, 4104], 18, 17) ∧
    (session cfg16 80 [Call.malloc 32, Call.malloc 32, Call.free 4104, Call.free 4144,
        Call.malloc 32, Call.malloc 32, Call.free 4144, Call.malloc 32, Call.malloc 32]).map
        (fun r => (r.1, hdr r.2.mem 4096, hdr r.2.mem 4136))
      = some ([4104, 4144, 0, 0, 4144, 4104, 0, 4144, 4104], 34, 33) := by
  refine ⟨?_, ?_, ?_⟩ <;> decide

/-! ## The 256-byte scenario with 16-byte alignment -/

/-- C13: with `ALIGNMENT = 16` and a 256-byte segment at any address `start` (whatever
the memory held before): `myinit` succeeds and `validate_heap` returns true;
`mymalloc(10)` returns the non-NULL pointer `start + header_size`, after which
`dump_heap` reports an allocated block of size 32 followed by a free block of size 208
(all the remaining space, `256 - 8 - 32 - 8`) and `validate_heap` returns true;
`myfree` of that pointer returns, after which `dump_heap` reports one free block of
size `256 - header_size = 248` and `validate_heap` returns true. -/
theorem scenario_align16_heap256 (s0 : Heap) (start fuel : Nat) (hs : 0 < start)
    (hend : start + 256 < WORD) (hfuel : 2 < fuel) :
    (myinit cfg16 s0 start 256).1 = true ∧
    validate_heap cfg16 fuel (myinit cfg16 s0 start 256).2 = some true ∧
    dump_heap fuel (myinit cfg16 s0 start 256).2 = some [(true, 248)] ∧
    ∃ s2 s3, mymalloc cfg16 fuel (myinit cfg16 s0 start 256).2 10
        = some (start + header_size, s2) ∧
      start + header_size ≠ 0 ∧
      dump_heap fuel s2 = some [(false, 32), (true, 208)] ∧
      validate_heap cfg16 fuel s2 = some true ∧
      myfree fuel s2 (start + header_size) = some s3 ∧
      dump_heap fuel s3 = some [(true, 248)] ∧
      validate_heap cfg16 fuel s3 = some true := by
  obtain ⟨hinit, hwf0, _, hval0⟩ := myinit_validate_small cfg16_valid s0 start 256 hs hend
    ⟨32, rfl⟩ ⟨16, rfl⟩ (by decide) (by norm_num) fuel (by omega)
  have hA : cfg16.ALIGNMENT = 16 := rfl
  have hne : malloc_needed cfg16 10 = 32 := by decide
  have hes : extract_size (myinit cfg16 s0 start 256).2.mem start = 256 - 8 :=
    @WellFormed.extract_size_block _ _ _ _ hwf0 ⟨start, 256 - 8, true⟩
      (List.mem_singleton.mpr rfl)
  obtain ⟨L, b, R, hbs, hba, hbf, hmal, hcase⟩ :=
    @mymalloc_fit cfg16 _ _ _ hwf0 10 (by decide) (by decide) fuel
      (by simp only [List.length_singleton]; omega) [] [] start rfl
      (fun x hx => absurd hx (List.not_mem_nil x)) (by rw [hne, hes]; omega)
  rw [hne] at hmal hcase
  have hL : L = [] ∧ b = ⟨start, 256 - 8, true⟩ ∧ R = [] := by
    cases L with
    | nil =>
      simp only [List.nil_append, List.cons.injEq] at hbs
      exact ⟨rfl, hbs.1.symm, hbs.2.symm⟩
    | cons c L1 => simp at hbs
  obtain ⟨hL1, hb1, hR1⟩ := hL
  subst hL1 hb1 hR1
  have hwf2 : WellFormed cfg16 (mymalloc_take cfg16 (myinit cfg16 s0 start 256).2 start 32)
      [⟨start, 32, false⟩, ⟨start + 8 + 32, 208, true⟩] [start + 8 + 32] := by
    rcases hcase with ⟨_, hw⟩ | ⟨hlt, _⟩
    · exact hw
    · rw [hA] at hlt
      have hlt1 : 256 - 8 < 32 + 8 + 2 * 16 := hlt
      omega
  obtain ⟨hb2, _, he2⟩ := hwf2.tiling
  have hb3 : start = (mymalloc_take cfg16 (myinit cfg16 s0 start 256).2 start 32).segment_begin :=
    hb2
  have he3 : start + 8 + 32 + 8 + 208
      = (mymalloc_take cfg16 (myinit cfg16 s0 start 256).2 start 32).segment_end := he2
  obtain ⟨s3, Rf, R1, hR, hRf, hR1, hfree, _, hsb, hse, _, _, hwf3, _, _⟩ :=
    @myfree_spec cfg16 _ [] [⟨start + 8 + 32, 208, true⟩] ⟨start, 32, false⟩ [start + 8 + 32]
      hwf2 rfl fuel (by simp only [List.length_singleton]; omega)
  have hRf1 : Rf = [⟨start + 8 + 32, 208, true⟩] ∧ R1 = [] := by
    cases Rf with
    | nil =>
      simp only [List.nil_append] at hR
      subst hR
      have hR2 : true = false := hR1 _ rfl
      exact absurd hR2 (by decide)
    | cons r Rf1 =>
      simp only [List.cons_append, List.cons.injEq] at hR
      obtain ⟨hr, hrest⟩ := hR
      have := List.append_eq_nil.mp hrest.symm
      rw [← hr, this.1]
      exact ⟨rfl, this.2⟩
  obtain ⟨hRf2, hR12⟩ := hRf1
  subst hRf2 hR12
  obtain ⟨fl1, hwf3a, _⟩ := hwf3 (List.cons_ne_nil _ _)
  have hwf3b : WellFormed cfg16 s3 [⟨start, 248, true⟩] fl1 := hwf3a
  have hlen : 1 = fl1.length := hwf3b.free_count
  refine ⟨hinit, hval0, hwf0.dump fuel (by simp only [List.length_singleton]; omega),
    _, s3, hmal, by unfold header_size; omega,
    hwf2.dump fuel (by simp only [List.length_cons, List.length_nil]; omega),
    hwf2.validate (by rw [← hb3, ← he3, hA]; exact ⟨16, by omega⟩) fuel
      (by simp only [List.length_cons, List.length_nil]; omega)
      (by simp only [List.length_singleton]; omega),
    hfree, hwf3b.dump fuel (by simp only [List.length_singleton]; omega),
    hwf3b.validate (by rw [hsb, hse, ← hb3, ← he3, hA]; exact ⟨16, by omega⟩) fuel
      (by simp only [List.length_singleton]; omega) (by omega)⟩

/-- Witness for C13: the segment at address 4096 of a zeroed memory, fuel 8. -/
theorem scenario_align16_heap256_witness :
    (myinit cfg16 heap0 4096 256).1 = true ∧
    validate_heap cfg16 8 (myinit cfg16 heap0 4096 256).2 = some true ∧
    dump_heap 8 (myinit cfg16 heap0 4096 256).2 = some [(true, 248)] ∧
    ∃ s2 s3, mymalloc cfg16 8 (myinit cfg16 heap0 4096 256).2 10
        = some (4096 + header_size, s2) ∧
      4096 + header_size ≠ 0 ∧
      dump_heap 8 s2 = some [(false, 32), (true, 208)] ∧
      validate_heap cfg16 8 s2 = some true ∧
      myfree 8 s2 (4096 + header_size) = some s3 ∧
      dump_heap 8 s3 = some [(true, 248)] ∧
      validate_heap cfg16 8 s3 = some true :=
  scenario_align16_heap256 heap0 4096 8 (by decide) (by decide) (by decide)

/-! ## Coalescing of the maximal free run -/

/-- C16: on a well-formed heap whose blocks are `L ++ A :: (Rf ++ R1)`, where `A` is
allocated, `Rf` is the maximal run of free blocks after `A` (all of `Rf` free, `R1`
empty or beginning with an allocated block) and `absorbed Rf` is the sum of
`header_size + size` over `Rf`: `myfree` of the pointer of `A` returns (the loop ends);
afterwards the block at `A` is free with size `A.size + absorbed Rf`; what follows it is
`segment_end` or an allocated block; `free_blocks` is the old value plus 1 minus the
length of `Rf`; and when some block was absorbed the free list was not empty, the heap
is again well formed with `A` grown in place of `A :: Rf`, and no absorbed block is on
the free list. -/
theorem myfree_absorbs_maximal_free_run {cfg : Config} {s : Heap} {L Rf R1 : List Block}
    {A : Block} {fl : List Nat}
    (h : WellFormed cfg s (L ++ A :: (Rf ++ R1)) fl) (hA : A.free = false)
    (hRf : ∀ r ∈ Rf, r.free = true) (hR1 : ∀ r, R1.head? = some r → r.free = false)
    (fuel : Nat) (hfuel : (Rf ++ R1).length < fuel) :
    ∃ s1, myfree fuel s (A.addr + header_size) = some s1 ∧
      is_free s1.mem A.addr = true ∧
      extract_size s1.mem A.addr = A.size + absorbed Rf ∧
      (A.addr + header_size + (A.size + absorbed Rf) = s1.segment_end ∨
        is_free s1.mem (A.addr + header_size + (A.size + absorbed Rf)) = false) ∧
      s1.free_blocks + Rf.length = s.free_blocks + 1 ∧
      (Rf ≠ [] → fl ≠ []) ∧
      (fl ≠ [] → ∃ fl1,
        WellFormed cfg s1 (L ++ ⟨A.addr, A.size + absorbed Rf, true⟩ :: R1) fl1 ∧
        ∀ r ∈ Rf, r.addr ∉ fl1) := by
  obtain ⟨s1, Rf2, R2, hR, hRf2, hR2, hfree, hhdr, _, hse, hcnt, hexit, hwf, hempty, _⟩ :=
    myfree_spec h hA fuel hfuel
  obtain ⟨e1, e2⟩ := free_run_unique Rf Rf2 R1 R2 hR hRf hR1 hRf2 hR2
  subst e1 e2
  have hAmem : A ∈ L ++ A :: (Rf ++ R1) := by simp
  have hAb := h.block_bounds hAmem
  have hab := h.absorbed_bound
  have hsmall := h.small
  have hend := h.end_lt
  norm_num at hsmall
  unfold Block.stop header_size at hAb hab
  refine ⟨s1, hfree, ?_, ?_, hexit, ?_, ?_, ?_⟩
  · rw [is_free_iff, hhdr]
    omega
  · rw [extract_size_eq, hhdr]
    omega
  · rw [h.counter]
    exact hcnt
  · intro hne hfl
    exact hne (hempty hfl).1
  · intro hne
    obtain ⟨fl1, hw, hiff⟩ := hwf hne
    refine ⟨fl1, hw, ?_⟩
    intro r hr hmem
    exact ((hiff r.addr).mp hmem).2 r hr rfl

/-- Witness for C16: releasing the third allocated block of `heap_three_allocs`, which is
followed by one free block of 40 bytes that ends the segment. -/
theorem myfree_absorbs_maximal_free_run_witness :
    ∃ s1, myfree 8 heap_three_allocs (4144 + header_size) = some s1 ∧
      is_free s1.mem 4144 = true ∧
      extract_size s1.mem 4144 = 16 + absorbed [⟨4168, 40, true⟩] ∧
      (4144 + header_size + (16 + absorbed [⟨4168, 40, true⟩]) = s1.segment_end ∨
        is_free s1.mem (4144 + header_size + (16 + absorbed [⟨4168, 40, true⟩])) = false) ∧
      s1.free_blocks + [(⟨4168, 40, true⟩ : Block)].length = heap_three_allocs.free_blocks + 1 ∧
      ([(⟨4168, 40, true⟩ : Block)] ≠ [] → [4168] ≠ []) ∧
      ([4168] ≠ [] → ∃ fl1,
        WellFormed cfg8 s1 ([⟨4096, 16, false⟩, ⟨4120, 16, false⟩] ++
          ⟨4144, 16 + absorbed [⟨4168, 40, true⟩], true⟩ :: []) fl1 ∧
        ∀ r ∈ [(⟨4168, 40, true⟩ : Block)], r.addr ∉ fl1) :=
  @myfree_absorbs_maximal_free_run cfg8 heap_three_allocs [⟨4096, 16, false⟩, ⟨4120, 16, false⟩]
    [⟨4168, 40, true⟩] [] ⟨4144, 16, false⟩ [4168] heap_three_allocs_wellFormed rfl
    (fun r hr => by rw [List.mem_singleton.mp hr])
    (fun r hr => Option.noConfusion hr) 8 (by decide)

/-! ## Splitting -/

/-- C15: `split_block_if_poss(currnode, needed)` on a well-formed heap, for a block `b`
of size `S = b.size` (free, as in `mymalloc`, or allocated, as in `myrealloc`) and a
rounded request `2 * ALIGNMENT ≤ needed ≤ S`.  If `S - needed ≥ header_size +
2 * ALIGNMENT` the block is split: the headers then describe the old blocks with `b`
replaced by a block of size `needed` with the status of `b`, immediately followed by a
free block of size `S - needed - header_size`; that block is the head of the free list,
`free_blocks` has gone up by 1, the sum of `header_size + size` over the blocks
(`absorbed`) is unchanged, every block has size at least `2 * ALIGNMENT`, and if the
free list was not empty the heap is well formed again.  Otherwise the state is
unchanged.  The in-place path of `myrealloc` and the scan of `mymalloc` call it with the
block they take and their rounded request. -/
theorem split_block_if_poss_spec {cfg : Config} {s : Heap} {L R : List Block} {b : Block}
    {fl : List Nat} (h : WellFormed cfg s (L ++ b :: R) fl) {needed : Nat}
    (hn1 : 2 * cfg.ALIGNMENT ≤ needed) (hn2 : 8 ∣ needed) (hle : needed ≤ b.size) :
    (header_size + 2 * cfg.ALIGNMENT ≤ b.size - needed →
      (split_block_if_poss cfg s b.addr needed).segment_begin = s.segment_begin ∧
      (split_block_if_poss cfg s b.addr needed).segment_end = s.segment_end ∧
      Tiling s.segment_begin
        (L ++ ⟨b.addr, needed, b.free⟩ :: ⟨b.addr + 8 + needed, b.size - needed - 8, true⟩ :: R)
        s.segment_end ∧
      (∀ c ∈ L ++ ⟨b.addr, needed, b.free⟩ ::
            ⟨b.addr + 8 + needed, b.size - needed - 8, true⟩ :: R,
        hdr (split_block_if_poss cfg s b.addr needed).mem c.addr = c.word ∧
        2 * cfg.ALIGNMENT ≤ c.size) ∧
      extract_size (split_block_if_poss cfg s b.addr needed).mem b.addr = needed ∧
      is_free (split_block_if_poss cfg s b.addr needed).mem b.addr = b.free ∧
      extract_size (split_block_if_poss cfg s b.addr needed).mem (b.addr + 8 + needed)
        = b.size - needed - 8 ∧
      is_free (split_block_if_poss cfg s b.addr needed).mem (b.addr + 8 + needed) = true ∧
      (split_block_if_poss cfg s b.addr needed).first_freenode = b.addr + 8 + needed ∧
      (split_block_if_poss cfg s b.addr needed).free_blocks = s.free_blocks + 1 ∧
      absorbed (L ++ ⟨b.addr, needed, b.free⟩ ::
          ⟨b.addr + 8 + needed, b.size - needed - 8, true⟩ :: R) = absorbed (L ++ b :: R) ∧
      (fl ≠ [] → WellFormed cfg (split_block_if_poss cfg s b.addr needed)
        (L ++ ⟨b.addr, needed, b.free⟩ :: ⟨b.addr + 8 + needed, b.size - needed - 8, true⟩ :: R)
        ((b.addr + 8 + needed) :: fl))) ∧
    (b.size - needed < header_size + 2 * cfg.ALIGNMENT →
      split_block_if_poss cfg s b.addr needed = s ∧
      ∀ c ∈ L ++ b :: R, hdr s.mem c.addr = c.word ∧ 2 * cfg.ALIGNMENT ≤ c.size) ∧
    (∀ n fuel, n ≠ 0 → realloc_needed cfg n = needed →
      myrealloc cfg fuel s (b.addr + header_size) n
        = some (b.addr + header_size, split_block_if_poss cfg s b.addr needed)) ∧
    (∀ n fuel pre post, 1 ≤ n → n ≤ cfg.MAX_REQUEST_SIZE → malloc_needed cfg n = needed →
      fl = pre ++ b.addr :: post → (∀ x ∈ pre, extract_size s.mem x < needed) →
      fl.length < fuel →
      mymalloc cfg fuel s n
        = some (b.addr + header_size, mymalloc_take cfg s b.addr needed)) := by
  have hbmem : b ∈ L ++ b :: R := by simp
  have hbb := h.block_bounds hbmem
  refine ⟨?_, ?_, ?_, ?_⟩
  · intro hs
    unfold header_size at hs
    have hsplit : needed + 8 + 2 * cfg.ALIGNMENT ≤ b.size := by omega
    obtain ⟨hb1, he1, ht, hh, hf, hc⟩ := split_blocks h hn1 hn2 hsplit
    have hAw : hdr (split_block_if_poss cfg s b.addr needed).mem b.addr =
        needed + (if b.free then 0 else 1) :=
      (hh ⟨b.addr, needed, b.free⟩ (by simp)).1
    have hBw : hdr (split_block_if_poss cfg s b.addr needed).mem (b.addr + 8 + needed) =
        b.size - needed - 8 + 0 :=
      (hh ⟨b.addr + 8 + needed, b.size - needed - 8, true⟩ (by simp)).1
    refine ⟨hb1, he1, ht, fun c hc => ⟨(hh c hc).1, (hh c hc).2.1⟩, ?_, ?_, ?_, ?_, hf, hc, ?_,
      fun hne => split_wellFormed h hne hn1 hn2 hsplit⟩
    · rw [extract_size_eq, hAw]
      cases b.free
      · simp only [Bool.false_eq_true, if_false]
        omega
      · simp only [if_true]
        omega
    · cases hbf : b.free
      · rw [hbf] at hAw
        simp only [Bool.false_eq_true, if_false] at hAw
        rw [is_free_eq_false_iff, hAw]
        omega
      · rw [hbf] at hAw
        simp only [if_true] at hAw
        rw [is_free_iff, hAw]
        omega
    · rw [extract_size_eq, hBw]
      omega
    · rw [is_free_iff, hBw]
      omega
    · rw [absorbed_append, absorbed_append, absorbed_cons, absorbed_cons, absorbed_cons]
      show absorbed L + (8 + needed + (8 + (b.size - needed - 8) + absorbed R)) =
        absorbed L + (8 + b.size + absorbed R)
      omega
  · intro hs
    unfold header_size at hs
    refine ⟨split_none h hbmem hle (by omega), ?_⟩
    intro c hc
    exact ⟨h.hdr_ok c hc, (h.size_ok c hc).1⟩
  · intro n fuel hn hnd
    unfold Block.stop header_size at hbb
    have hb8 : b.addr + header_size ≠ 0 := by unfold header_size; omega
    have hg : get_hdrptr (b.addr + header_size) = b.addr := by
      unfold get_hdrptr header_size
      rw [wsub_eq (by omega) (by omega)]
      omega
    unfold myrealloc
    rw [if_neg hb8, if_neg hn]
    simp only []
    rw [hg, hnd, h.extract_size_block hbmem, if_pos hle]
  · intro n fuel pre post h1 hmax hnd hfl hpre hfuel
    obtain ⟨_, _, _, _, _, _, hm, _⟩ := @mymalloc_fit cfg s _ fl h n h1 hmax fuel hfuel pre post
      b.addr hfl (by rw [hnd]; exact hpre)
      (by rw [hnd, h.extract_size_block hbmem]; exact hle)
    rw [hnd] at hm
    exact hm

/-- Witness for C15: the free block of 40 bytes at 4144 in `heap_two_allocs`, for a
rounded request of 16 bytes with `ALIGNMENT = 8`; `40 - 16 = 24 = header_size + 16`, so
the block is split. -/
theorem split_block_if_poss_spec_witness :
    (header_size + 2 * cfg8.ALIGNMENT ≤ 40 - 16 →
      (split_block_if_poss cfg8 heap_two_allocs 4144 16).segment_begin
        = heap_two_allocs.segment_begin ∧
      (split_block_if_poss cfg8 heap_two_allocs 4144 16).segment_end
        = heap_two_allocs.segment_end ∧
      Tiling heap_two_allocs.segment_begin
        ([⟨4096, 16, false⟩, ⟨4120, 16, false⟩] ++ ⟨4144, 16, true⟩ ::
          ⟨4144 + 8 + 16, 40 - 16 - 8, true⟩ :: [])
        heap_two_allocs.segment_end ∧
      (∀ c ∈ [⟨4096, 16, false⟩, ⟨4120, 16, false⟩] ++ (⟨4144, 16, true⟩ : Block) ::
            ⟨4144 + 8 + 16, 40 - 16 - 8, true⟩ :: [],
        hdr (split_block_if_poss cfg8 heap_two_allocs 4144 16).mem c.addr = c.word ∧
        2 * cfg8.ALIGNMENT ≤ c.size) ∧
      extract_size (split_block_if_poss cfg8 heap_two_allocs 4144 16).mem 4144 = 16 ∧
      is_free (split_block_if_poss cfg8 heap_two_allocs 4144 16).mem 4144 = true ∧
      extract_size (split_block_if_poss cfg8 heap_two_allocs 4144 16).mem (4144 + 8 + 16)
        = 40 - 16 - 8 ∧
      is_free (split_block_if_poss cfg8 heap_two_allocs 4144 16).mem (4144 + 8 + 16) = true ∧
      (split_block_if_poss cfg8 heap_two_allocs 4144 16).first_freenode = 4144 + 8 + 16 ∧
      (split_block_if_poss cfg8 heap_two_allocs 4144 16).free_blocks
        = heap_two_allocs.free_blocks + 1 ∧
      absorbed ([⟨4096, 16, false⟩, ⟨4120, 16, false⟩] ++ ⟨4144, 16, true⟩ ::
          ⟨4144 + 8 + 16, 40 - 16 - 8, true⟩ :: [])
        = absorbed ([⟨4096, 16, false⟩, ⟨4120, 16, false⟩] ++ ⟨4144, 40, true⟩ :: []) ∧
      ([4144] ≠ [] → WellFormed cfg8 (split_block_if_poss cfg8 heap_two_allocs 4144 16)
        ([⟨4096, 16, false⟩, ⟨4120, 16, false⟩] ++ ⟨4144, 16, true⟩ ::
          ⟨4144 + 8 + 16, 40 - 16 - 8, true⟩ :: [])
        ((4144 + 8 + 16) :: [4144]))) ∧
    (40 - 16 < header_size + 2 * cfg8.ALIGNMENT →
      split_block_if_poss cfg8 heap_two_allocs 4144 16 = heap_two_allocs ∧
      ∀ c ∈ [⟨4096, 16, false⟩, ⟨4120, 16, false⟩] ++ (⟨4144, 40, true⟩ : Block) :: [],
        hdr heap_two_allocs.mem c.addr = c.word ∧ 2 * cfg8.ALIGNMENT ≤ c.size) ∧
    (∀ n fuel, n ≠ 0 → realloc_needed cfg8 n = 16 →
      myrealloc cfg8 fuel heap_two_allocs (4144 + header_size) n
        = some (4144 + header_size, split_block_if_poss cfg8 heap_two_allocs 4144 16)) ∧
    (∀ n fuel pre post, 1 ≤ n → n ≤ cfg8.MAX_REQUEST_SIZE → malloc_needed cfg8 n = 16 →
      [4144] = pre ++ 4144 :: post → (∀ x ∈ pre, extract_size heap_two_allocs.mem x < 16) →
      [4144].length < fuel →
      mymalloc cfg8 fuel heap_two_allocs n
        = some (4144 + header_size, mymalloc_take cfg8 heap_two_allocs 4144 16)) :=
  @split_block_if_poss_spec cfg8 heap_two_allocs [⟨4096, 16, false⟩, ⟨4120, 16, false⟩] []
    ⟨4144, 40, true⟩ [4144] heap_two_allocs_wellFormed 16 (by decide) (by decide) (by decide)

/-! ## Payloads of live blocks -/

/-- C21 (fails on the code): a call writes into the payload of a live block that was not
passed to it.  With `ALIGNMENT = 8` and a 48-byte heap, after `a = mymalloc(16);
b = mymalloc(16); myfree(a); myfree(b); mymalloc(16); mymalloc(16); myfree(b);
mymalloc(16)` (results `a = 4104, b = 4128, b, a, b`; no client store) both pointers are
live, the block of `a` at 4096 is allocated with size 16 and first payload word 0, and
it is the head of the free list, reached through the stale `next` that `add_freeblock`
left in `b`'s block.  (1), (2): `myfree(b)` then stores 4120 into the first payload
word of `a` (the `prev` field of the old head).  (3), (4): when the client has stored 7
in the first payload word of `a`, a later `mymalloc(16)`, which returns `b`, overwrites
it with 0 (`remove_freeblock` sets the `prev` of the successor).  (5): the same as (1),
(2) with `ALIGNMENT = 16`, an 80-byte heap and 32-byte requests. -/
theorem call_writes_payload_of_other_live_block :
    (session cfg8 48 [Call.malloc 16, Call.malloc 16, Call.free 4104, Call.free 4128,
        Call.malloc 16, Call.malloc 16, Call.free 4128, Call.malloc 16]).map
        (fun r => (r.1, is_free r.2.mem 4096, extract_size r.2.mem 4096, read64 r.2.mem 4104,
          r.2.first_freenode))
      = some ([4104, 4128, 0, 0, 4128, 4104, 0, 4128], false, 16, 0, 4096) ∧
    (session cfg8 48 [Call.malloc 16, Call.malloc 16, Call.free 4104, Call.free 4128,
        Call.malloc 16, Call.malloc 16, Call.free 4128, Call.malloc 16, Call.free 4128]).map
        (fun r => (r.1, is_free r.2.mem 4096, extract_size r.2.mem 4096, read64 r.2.mem 4104))
      = some ([4104, 4128, 0, 0, 4128, 4104, 0, 4128, 0], false, 16, 4120) ∧
    (session cfg8 48 [Call.malloc 16, Call.malloc 16, Call.free 4104, Call.free 4128,
        Call.malloc 16, Call.malloc 16, Call.store 4104 7, Call.free 4128]).map
        (fun r => (r.1, is_free r.2.mem 4096, extract_size r.2.mem 4096, read64 r.2.mem 4104))
      = some ([4104, 4128, 0, 0, 4128, 4104, 0, 0], false, 16, 7) ∧
    (session cfg8 48 [Call.malloc 16, Call.malloc 16, Call.free 4104, Call.free 4128,
        Call.malloc 16, Call.malloc 16, Call.store 4104 7, Call.free 4128, Call.malloc 16]).map
        (fun r => (r.1, is_free r.2.mem 4096, extract_size r.2.mem 4096, read64 r.2.mem 4104))
      = some ([4104, 4128, 0, 0, 4128, 4104, 0, 0, 4128], false, 16, 0) ∧
    (session cfg16 80 [Call.malloc 32, Call.malloc 32, Call.free 4104, Call.free 4144,
        Call.malloc 32, Call.malloc 32, Call.free 4144, Call.malloc 32, Call.free 4144]).map
        (fun r => (r.1, is_free r.2.mem 4096, extract_size r.2.mem 4096, read64 r.2.mem 4104))
      = some ([4104, 4144, 0, 0, 4144, 4104, 0, 4144, 0], false, 32, 4136) := by
  refine ⟨?_, ?_, ?_, ?_, ?_⟩ <;> decide

/-! ## The copy of the move path -/

/-- C6 (fails on the code): the move path of `myrealloc` calls
`memcpy(reallocated, old_ptr, new_size)`: it copies `new_size` bytes, although the old
block holds fewer, and so reads past the old block.  With `ALIGNMENT = 8` and a 176-byte
heap, after `x = mymalloc(96); a = mymalloc(16); b = mymalloc(16); myfree(x)` the blocks
are: free 96, `a` (16, allocated), `b` (16, allocated), free 16, and `validate_heap`
returns true.  For `myrealloc(a, 96)` the right neighbour of `a` is allocated and a
fresh block is available (`mymalloc(96)` returns 4104), but the copy reads
`[4208, 4304)` while `segment_end` is 4272: it has no defined result, and neither has
`myrealloc`.  (1) lists the pointers returned, the dump, `validate_heap` and
`segment_end`; (2) lists the exit of the in-place loop, the result
of `mymalloc` with whether the copy to it has a result, and whether `myrealloc` has a
result.  (3): with `new_size = 64` the copy ends at `segment_end` and the call returns
the new pointer 4104.  (4), (5): the same as (1), (2) with `ALIGNMENT = 16`, a 256-byte
heap and blocks of 128, 32, 32, 32 bytes.  (6), (7): the same with `ALIGNMENT = 8` on a
heap of one 4096-byte page, where `myrealloc(7112, 1500)` reads `[7112, 8612)` and the
segment ends at 8192. -/
theorem myrealloc_move_reads_past_segment_end :
    (session cfg8 176 [Call.malloc 96, Call.malloc 16, Call.malloc 16, Call.free 4104]).map
        (fun r => (r.1, dump_heap 8 r.2, validate_heap cfg8 8 r.2, r.2.segment_end))
      = some ([4104, 4208, 4232, 0], some [(true, 96), (false, 16), (false, 16), (true, 16)],
          some true, 4272) ∧
    (session cfg8 176 [Call.malloc 96, Call.malloc 16, Call.malloc 16, Call.free 4104]).map
        (fun r => ((myrealloc_loop cfg8 4200 (realloc_needed cfg8 96) 8 r.2).map (fun x => x.1),
          (mymalloc cfg8 8 r.2 96).map (fun x => (x.1, (memcpy x.2 x.1 4208 96).isSome)),
          (myrealloc cfg8 8 r.2 4208 96).isSome))
      = some (some false, some (4104, false), false) ∧
    (session cfg8 176 [Call.malloc 96, Call.malloc 16, Call.malloc 16, Call.free 4104,
        Call.realloc 4208 64]).map (fun r => r.1) = some [4104, 4208, 4232, 0, 4104] ∧
    (session cfg16 256 [Call.malloc 128, Call.malloc 32, Call.malloc 32, Call.free 4104]).map
        (fun r => (r.1, dump_heap 8 r.2, validate_heap cfg16 8 r.2, r.2.segment_end))
      = some ([4104, 4240, 4280, 0], some [(true, 128), (false, 32), (false, 32), (true, 32)],
          some true, 4352) ∧
    (session cfg16 256 [Call.malloc 128, Call.malloc 32, Call.malloc 32, Call.free 4104]).map
        (fun r => ((myrealloc_loop cfg16 4232 (realloc_needed cfg16 128) 8 r.2).map (fun x => x.1),
          (mymalloc cfg16 8 r.2 128).map (fun x => (x.1, (memcpy x.2 x.1 4240 128).isSome)),
          (myrealloc cfg16 8 r.2 4240 128).isSome))
      = some (some false, some (4104, false), false) ∧
    (session cfg8 4096 [Call.malloc 3000, Call.malloc 16, Call.malloc 16, Call.free 4104]).map
        (fun r => (r.1, dump_heap 8 r.2, validate_heap cfg8 8 r.2, r.2.segment_end))
      = some ([4104, 7112, 7136, 0], some [(true, 3000), (false, 16), (false, 16), (true, 1032)],
          some true, 8192) ∧
    (session cfg8 4096 [Call.malloc 3000, Call.malloc 16, Call.malloc 16, Call.free 4104]).map
        (fun r => ((myrealloc_loop cfg8 7104 (realloc_needed cfg8 1500) 8 r.2).map (fun x => x.1),
          (mymalloc cfg8 8 r.2 1500).map (fun x => (x.1, (memcpy x.2 x.1 7112 1500).isSome)),
          (myrealloc cfg8 8 r.2 7112 1500).isSome))
      = some (some false, some (4104, false), false) := by
  refine ⟨?_, ?_, ?_, ?_, ?_, ?_, ?_⟩ <;> decide

end HeapAllocator
